import Mathlib

/-!
The library `nested_enum`.

A shallow embedding of `nested_enum.hpp`: the structs that the `NESTED_ENUM`
macros generate (one per tree node, with their static tables) and the
`nested_enum<E, P>` member templates that read those tables.

* A `fixed_string<N>` is the list of its `N` characters; the terminator
  `data[N] = NUL` is implicit.
* A value of a generated struct `E` is represented by its `internalValue`
  (an integer of `E::underlying_type`).
* A type list `detail::type_list<Ts...>` is a list of generated structs.
* Queries are evaluated once every `NESTED_ENUM_FROM` of the program has been
  seen, so `is_complete_type_v` of a struct is a fixed flag.
* What the compiler rejects has no result: a declaration or a `consteval` table that does
  not build is `none`, and so is a query whose instantiation does not build.
-/

namespace nested_enum

/-! ## fixed_string -/

/-- The characters `data[0 .. N)` of a `fixed_string<N>`. -/
abbrev fixed_string := List Char

/-- The terminator that separates and ends strings. -/
def NUL : Char := Char.ofNat 0

/-- Member `fixed_string::size()`. -/
def fixed_string.size (self : fixed_string) : Nat := self.length

/-- Member `fixed_string::append`: a result of `N + M` characters, filled by the two
copy loops `result.data[i] = data[i]` and `result.data[N + i] = other.data[i]`. -/
def fixed_string.append (self other : fixed_string) : fixed_string :=
  (List.range (self.length + other.length)).map fun k =>
    if k < self.length then self.getD k NUL else other.getD (k - self.length) NUL

/-- Member `fixed_string::append_full` ("concatenates with null terminator"): a result
of `N + 1 + M` characters with `result.data[N] = NUL` between the two copies. -/
def fixed_string.append_full (self other : fixed_string) : fixed_string :=
  (List.range (self.length + 1 + other.length)).map fun k =>
    if k < self.length then self.getD k NUL
    else if k = self.length then NUL
    else other.getD (k - (self.length + 1)) NUL

/-- The constant `detail::scopeResolution`. -/
def scopeResolution : fixed_string := [':', ':']

/-! ## Integer types -/

/-- The fixed-width integral types usable as `underlying_type`. -/
inductive int_type where
  | int8_t
  | int16_t
  | int32_t
  | int64_t
  | uint8_t
  | uint16_t
  | uint32_t
  | uint64_t
deriving DecidableEq, Repr

/-- Width of the type in bits. -/
def int_type.bits : int_type → Nat
  | .int8_t | .uint8_t => 8
  | .int16_t | .uint16_t => 16
  | .int32_t | .uint32_t => 32
  | .int64_t | .uint64_t => 64

/-- Whether the type is signed. -/
def int_type.isSigned : int_type → Bool
  | .int8_t | .int16_t | .int32_t | .int64_t => true
  | .uint8_t | .uint16_t | .uint32_t | .uint64_t => false

/-- Conversion of an integer to the type `T` (two's complement, modulo `2 ^ bits`). -/
def int_type.wrap (T : int_type) (x : Int) : Int :=
  if T.isSigned then
    (x + Int.ofNat (2 ^ (T.bits - 1))) % Int.ofNat (2 ^ T.bits) - Int.ofNat (2 ^ (T.bits - 1))
  else
    x % Int.ofNat (2 ^ T.bits)

/-- Largest value of `T`. -/
def int_type.maxVal (T : int_type) : Int :=
  if T.isSigned then Int.ofNat (2 ^ (T.bits - 1)) - 1 else Int.ofNat (2 ^ T.bits) - 1

/-- Smallest value of `T`. -/
def int_type.minVal (T : int_type) : Int :=
  if T.isSigned then - Int.ofNat (2 ^ (T.bits - 1)) else 0

/-- The value `x` is representable in `T`. -/
def int_type.InRange (T : int_type) (x : Int) : Prop := T.minVal ≤ x ∧ x ≤ T.maxVal

instance (T : int_type) (x : Int) : Decidable (T.InRange x) := by
  unfold int_type.InRange; infer_instance

/-- The macro `NESTED_ENUM_DEFAULT_ENUM_TYPE` (not redefined by the user). -/
def NESTED_ENUM_DEFAULT_ENUM_TYPE : int_type := .int32_t

/-! ## detail -/

/-- The struct `detail::opt<T>`: an optional override of an ordinal. -/
structure opt where
  isInitialised : Bool := false
  value : Int := 0
deriving DecidableEq, Repr

/-- The loop of `detail::get_array_of_values` from the state `previous`:
`if (current.isInitialised) previous = current.value; enumValues[index++] = (E)(previous++);`
The increment runs after every entry, the last one too. In an unsigned `T` it is taken
modulo `2 ^ bits`; in a signed `T` the increment of the largest value overflows, which is
no constant expression, and the `consteval` function has no result. -/
def get_array_of_values.loop (T : int_type) : Int → List opt → Option (List Int)
  | _, [] => some []
  | previous, current :: values =>
    let previous := if current.isInitialised then current.value else previous
    if T.isSigned ∧ T.maxVal ≤ previous then none
    else
      match get_array_of_values.loop T (T.wrap (previous + 1)) values with
      | none => none
      | some enumValues => some (previous :: enumValues)

/-- The function `detail::get_array_of_values<E, T, values...>()`, started with `T previous = 0`. -/
def get_array_of_values (T : int_type) (values : List opt) : Option (List Int) :=
  get_array_of_values.loop T 0 values

/-- The function `detail::get_string_values<type, value, values...>()`: every value
prefixed by `type` and `::`, each followed by `NUL` (the template takes at least one
value; a struct without entries has no `enumNames` member, rendered as the empty buffer). -/
def get_string_values (type : fixed_string) : List fixed_string → fixed_string
  | [] => []
  | [value] => (type.append (scopeResolution.append value)).append_full []
  | value :: values =>
    (type.append (scopeResolution.append value)).append_full (get_string_values type values)

/-- The constant `std::string_view::npos` of a 64-bit `size_t`. -/
def npos : Nat := 2 ^ 64 - 1

/-- Search of `std::string_view::rfind`: the last position at which `scope` starts, or `npos`. -/
def rfind (view scope : List Char) : Nat :=
  match (List.range (view.length + 1)).reverse.find? fun pos => scope.isPrefixOf (view.drop pos) with
  | some pos => pos
  | none => npos

/-- The statement `view.remove_prefix(view.rfind(scope) + scope.length())` with `scope = "::"`;
the sum is taken in `size_t`, and removing more than `view.size()` characters has no result. -/
def remove_scope (view : List Char) : Option (List Char) :=
  let n := (rfind view scopeResolution + scopeResolution.length) % 2 ^ 64
  if n ≤ view.length then some (view.drop n) else none

/-- The scan loop of `detail::get_substring`:
`while (count < index) if (allStrings[end++] == NUL) ++count;`
returns what is left of the buffer from `end` on; reading past the buffer has no result. -/
def get_substring.scan : List Char → Nat → Option (List Char)
  | rest, 0 => some rest
  | [], _ + 1 => none
  | c :: rest, n + 1 => if c = NUL then get_substring.scan rest n else get_substring.scan rest (n + 1)

/-- The function `detail::get_substring(allStrings, index, clean)`. -/
def get_substring (allStrings : List Char) (index : Nat) (clean : Bool) : Option (List Char) :=
  match get_substring.scan allStrings index with
  | none => none
  | some [] => none
  | some (c :: rest) =>
    let view := (c :: rest).takeWhile fun x => x ≠ NUL
    if clean then remove_scope view else some view

/-! ## The generated structs -/

/-- The enum `InnerOuterAll`. -/
inductive InnerOuterAll where
  | Inner
  | Outer
  | All
deriving DecidableEq, Repr

/-- What a nested struct reads from its parent `P`: the parent's name and tables, and
`value`, the enumerator `parent::typeName` returned by `E::value()`. -/
structure parent_view where
  internalName : fixed_string
  enumValues : List Int
  enumIds : List (Option fixed_string)
  value : Int
deriving DecidableEq, Repr

/-- The static members of a generated struct `typeName : nested_enum<typeName, parent>`.
`parent = none` stands for `std::is_same_v<E, P>` (the root); `internalGlobalPrefix` is the
root's member, which `global_prefix()` reaches through the parents. -/
structure members where
  typeName : fixed_string
  isLeaf : Bool
  underlying_type : int_type
  internalGlobalPrefix : fixed_string
  parent : Option parent_view
  internalName : fixed_string
  enumValues : List Int
  enumNames : fixed_string
  enumIds : List (Option fixed_string)
deriving DecidableEq, Repr

/-- A generated struct: whether it is complete (defined, not only forward declared), its
static members and its `subtypes` type list. -/
inductive NestedEnum where
  | mk (isComplete : Bool) (statics : members) (subtypes : List NestedEnum)

/-- The variable `detail::is_complete_type_v<T>`. -/
def NestedEnum.isComplete : NestedEnum → Bool
  | .mk c _ _ => c

/-- The static members of a struct. -/
def NestedEnum.statics : NestedEnum → members
  | .mk _ m _ => m

/-- The member `E::subtypes`. -/
def NestedEnum.subtypes : NestedEnum → List NestedEnum
  | .mk _ _ ts => ts

/-- The member `E::isLeaf`. -/
def NestedEnum.isLeaf (E : NestedEnum) : Bool := E.statics.isLeaf

/-- The member `E::internalName`. -/
def NestedEnum.internalName (E : NestedEnum) : fixed_string := E.statics.internalName

/-- The member `E::enumValues`. -/
def NestedEnum.enumValues (E : NestedEnum) : List Int := E.statics.enumValues

/-- The member `E::enumNames`. -/
def NestedEnum.enumNames (E : NestedEnum) : fixed_string := E.statics.enumNames

/-- The member `E::enumIds`. -/
def NestedEnum.enumIds (E : NestedEnum) : List (Option fixed_string) := E.statics.enumIds

/-! ## The macros -/

/-- One item of an entries list: `name`, `(name, VAL, v)`, `(name, ID, s)` or
`(name, VAL_ID, v, s)` (the linked type of `TYPE` is not interpreted). -/
structure Entry where
  name : fixed_string
  val : Option Int := none
  id : Option fixed_string := none
deriving DecidableEq, Repr

/-- The specialisation written for an entry, in the position of the entry:
nothing (`NESTED_ENUM_INTERNAL_TREE_`), `(ENUM, (name, [type]), entries, specialisations...)`,
`(DEFER)`, or `(DEFER)` followed later by `NESTED_ENUM_FROM(parent, (name, [type]), entries,
specialisations...)`. The struct is named after its entry. -/
inductive Specialisation where
  | NONE
  | ENUM (underlying : Option int_type) (entries : List Entry) (specialisations : List Specialisation)
  | DEFER
  | DEFER_FROM (underlying : Option int_type) (entries : List Entry)
      (specialisations : List Specialisation)

/-- The macro `NESTED_ENUM_INTERNAL_GET_VAL`: `opt<underlying_type>{ false, underlying_type(0) }`
without `VAL`, `opt<underlying_type>{ true, underlying_type(v) }` with it. -/
def GET_VAL (T : int_type) (e : Entry) : opt :=
  match e.val with
  | none => { isInitialised := false, value := T.wrap 0 }
  | some v => { isInitialised := true, value := T.wrap v }

/-- The macro `NESTED_ENUM_INTERNAL_GET_ID`: `{}` without `ID`, the string with it. -/
def GET_ID (e : Entry) : Option fixed_string := e.id

/-- The member function `nested_enum::create_name(name)`. -/
def create_name (P : Option parent_view) (internalGlobalPrefix : fixed_string)
    (name : fixed_string) : fixed_string :=
  match P with
  | none =>
    if internalGlobalPrefix.size = 0 then name
    else internalGlobalPrefix.append (scopeResolution.append name)
  | some parent => parent.internalName.append (scopeResolution.append name)

/-- The enumerators `NESTED_ENUM_INTERNAL_DEFINE_ENUM(entries)...` of the declaration
`enum Value : underlying_type { ... }`: `name = v` for an entry with `VAL`, `name` alone
otherwise, which the compiler numbers 0 at first and then one more than the enumerator
before. The values of the enumerators, from `previous`, the value of the enumerator before;
the compiler rejects an enumerator whose value is not a value of `underlying_type`. -/
def DEFINE_ENUM (T : int_type) : Option Int → List Entry → Option (List Int)
  | _, [] => some []
  | previous, e :: entries =>
    let value := match e.val, previous with
      | some v, _ => v
      | none, none => 0
      | none, some p => p + 1
    if T.InRange value then
      match DEFINE_ENUM T (some value) entries with
      | none => none
      | some values => some (value :: values)
    else none

/-- The macros `NESTED_ENUM_INTERNAL_DEFINITION_*` followed by `NESTED_ENUM_INTERNAL_BODY_`,
the body of a struct without entries: `enum Value : underlying_type { }` and empty tables. -/
def BODY_ (isLeafValue : Bool) (globalPrefix : fixed_string) (parent : Option parent_view)
    (typeName : fixed_string) (underlying : Option int_type) : members :=
  { typeName := typeName
    isLeaf := isLeafValue
    underlying_type := underlying.getD NESTED_ENUM_DEFAULT_ENUM_TYPE
    internalGlobalPrefix := globalPrefix
    parent := parent
    internalName := create_name parent globalPrefix typeName
    enumValues := []
    enumNames := []
    enumIds := [] }

/-- The macros `NESTED_ENUM_INTERNAL_DEFINITION_*` followed by
`NESTED_ENUM_INTERNAL_BODY_CONTINUE`, the body of a struct with entries: the declaration
`enum Value` and the tables `enumValues`, `enumNames`, `enumIds`; no result when the
declaration is rejected or `get_array_of_values` does not build. -/
def BODY_CONTINUE (isLeafValue : Bool) (globalPrefix : fixed_string) (parent : Option parent_view)
    (typeName : fixed_string) (underlying : Option int_type) (entries : List Entry) :
    Option members :=
  let underlying_type := underlying.getD NESTED_ENUM_DEFAULT_ENUM_TYPE
  let internalName := create_name parent globalPrefix typeName
  match DEFINE_ENUM underlying_type none entries,
        get_array_of_values underlying_type (entries.map (GET_VAL underlying_type)) with
  | some _, some enumValues =>
    some
      { typeName := typeName
        isLeaf := isLeafValue
        underlying_type := underlying_type
        internalGlobalPrefix := globalPrefix
        parent := parent
        internalName := internalName
        enumValues := enumValues
        enumNames := get_string_values internalName (entries.map Entry.name)
        enumIds := entries.map GET_ID }
  | _, _ => none

/-- The static members of the struct `typeName` from its definition and entries:
`NESTED_ENUM_INTERNAL_CONDITIONALLY_CALL` takes `NESTED_ENUM_INTERNAL_BODY_` when there are
no entries and `NESTED_ENUM_INTERNAL_BODY_CONTINUE` otherwise. -/
def DEFINITION (isLeafValue : Bool) (globalPrefix : fixed_string) (parent : Option parent_view)
    (typeName : fixed_string) (underlying : Option int_type) (entries : List Entry) :
    Option members :=
  if entries.isEmpty then some (BODY_ isLeafValue globalPrefix parent typeName underlying)
  else BODY_CONTINUE isLeafValue globalPrefix parent typeName underlying entries

/-- The view that the struct of the entry with value `value` has of its parent `P`. -/
def members.view (P : members) (value : Int) : parent_view :=
  { internalName := P.internalName, enumValues := P.enumValues, enumIds := P.enumIds,
    value := value }

/-- The forward declaration `struct name;` alone: no member is known. -/
def forward_declared (P : members) (name : fixed_string) (value : Int) : members :=
  { typeName := name
    isLeaf := false
    underlying_type := NESTED_ENUM_DEFAULT_ENUM_TYPE
    internalGlobalPrefix := P.internalGlobalPrefix
    parent := some (P.view value)
    internalName := []
    enumValues := []
    enumNames := []
    enumIds := [] }

/-- The macro `NESTED_ENUM_INTERNAL_TREE_` ("defines an outer node inside a tree"): the
struct of an entry without specialisation, `isLeaf = true` and the empty body. -/
def TREE_ (P : members) (e : Entry) (value : Int) : NestedEnum :=
  .mk true (BODY_ true P.internalGlobalPrefix (some (P.view value)) e.name none) []

mutual
/-- The macro `NESTED_ENUM_INTERNAL_STRUCT_PREP_CALL`, dispatching on the specifier to
`NESTED_ENUM_INTERNAL_TREE_`, to `NESTED_ENUM_INTERNAL_TREE_ENUM` ("defines an inner node
inside a tree": `isLeaf = false`) and to `NESTED_ENUM_INTERNAL_TREE_DEFER` (nothing, until
`NESTED_ENUM_FROM` defines the struct with `isLeaf = false`), for the entry `e` of `P` with
ordinal `value`; no result when a struct of the subtree does not build. -/
def TREE (P : members) (e : Entry) (value : Int) : Specialisation → Option NestedEnum
  | .NONE => some (TREE_ P e value)
  | .ENUM underlying entries specialisations =>
    match DEFINITION false P.internalGlobalPrefix (some (P.view value)) e.name underlying
        entries with
    | none => none
    | some m =>
      match STRUCT_PREP m (entries.zip m.enumValues) specialisations with
      | none => none
      | some subtypes => some (.mk true m subtypes)
  | .DEFER => some (.mk false (forward_declared P e.name value) [])
  | .DEFER_FROM underlying entries specialisations =>
    match DEFINITION false P.internalGlobalPrefix (some (P.view value)) e.name underlying
        entries with
    | none => none
    | some m =>
      match STRUCT_PREP m (entries.zip m.enumValues) specialisations with
      | none => none
      | some subtypes => some (.mk true m subtypes)
/-- The loop `NESTED_ENUM_INTERNAL_FOR_EACH(..., NESTED_ENUM_INTERNAL_STRUCT_PREP, ...)` over
the entries interleaved with the specialisations (`NESTED_ENUM_INTERNAL_INTERLEAVE_TWO`):
entry `i` gets specialisation `i`, or none when the specialisations have run out. -/
def STRUCT_PREP (P : members) : List (Entry × Int) → List Specialisation →
    Option (List NestedEnum)
  | entries, [] => some (entries.map fun ev => TREE_ P ev.1 ev.2)
  | [], _ :: _ => some []
  | ev :: entries, s :: specialisations =>
    match TREE P ev.1 ev.2 s, STRUCT_PREP P entries specialisations with
    | some T, some Ts => some (T :: Ts)
    | _, _ => none
end

/-- The macro `NESTED_ENUM_INTERNAL_SETUP`: the struct `typeName` with its members and
the structs of its entries; no result when a struct of the tree does not build. -/
def SETUP (isLeafValue : Bool) (globalPrefix : fixed_string) (parent : Option parent_view)
    (typeName : fixed_string) (underlying : Option int_type) (entries : List Entry)
    (specialisations : List Specialisation) : Option NestedEnum :=
  match DEFINITION isLeafValue globalPrefix parent typeName underlying entries with
  | none => none
  | some m =>
    match STRUCT_PREP m (entries.zip m.enumValues) specialisations with
    | none => none
    | some subtypes => some (.mk true m subtypes)

/-- The macro `NESTED_ENUM((name, [underlying type], [global string prefix]), entries,
specialisations...)`: the root struct, `nested_enum<name, name>`, with `isLeaf = false`. -/
def NESTED_ENUM (name : fixed_string) (underlying : Option int_type) (globalPrefix : fixed_string)
    (entries : List Entry) (specialisations : List Specialisation) : Option NestedEnum :=
  SETUP false globalPrefix none name underlying entries specialisations

/-! ## The structs of a tree that builds

The same macros read as total functions: what they declare when every declaration of the
tree is accepted. The statements are about `SETUP`; these functions are the form in which
the facts about a struct that was built are proved. -/

/-- The table that `get_array_of_values.loop` fills when every increment is a constant
expression: the ordinals, each increment taken in `T`. -/
def get_array_of_values.ordinals (T : int_type) : Int → List opt → List Int
  | _, [] => []
  | previous, current :: values =>
    let previous := if current.isInitialised then current.value else previous
    previous :: get_array_of_values.ordinals T (T.wrap (previous + 1)) values

/-- The members that `DEFINITION` declares when it builds. -/
def DEFINITION.statics (isLeafValue : Bool) (globalPrefix : fixed_string)
    (parent : Option parent_view) (typeName : fixed_string) (underlying : Option int_type)
    (entries : List Entry) : members :=
  let underlying_type := underlying.getD NESTED_ENUM_DEFAULT_ENUM_TYPE
  let internalName := create_name parent globalPrefix typeName
  { typeName := typeName
    isLeaf := isLeafValue
    underlying_type := underlying_type
    internalGlobalPrefix := globalPrefix
    parent := parent
    internalName := internalName
    enumValues := get_array_of_values.ordinals underlying_type 0 (entries.map (GET_VAL underlying_type))
    enumNames := get_string_values internalName (entries.map Entry.name)
    enumIds := entries.map GET_ID }

mutual
/-- The struct that `TREE` declares when it builds. -/
def TREE.struct (P : members) (e : Entry) (value : Int) : Specialisation → NestedEnum
  | .NONE => TREE_ P e value
  | .ENUM underlying entries specialisations =>
    let m := DEFINITION.statics false P.internalGlobalPrefix (some (P.view value)) e.name
      underlying entries
    .mk true m (STRUCT_PREP.structs m (entries.zip m.enumValues) specialisations)
  | .DEFER => .mk false (forward_declared P e.name value) []
  | .DEFER_FROM underlying entries specialisations =>
    let m := DEFINITION.statics false P.internalGlobalPrefix (some (P.view value)) e.name
      underlying entries
    .mk true m (STRUCT_PREP.structs m (entries.zip m.enumValues) specialisations)
/-- The structs that `STRUCT_PREP` declares when it builds. -/
def STRUCT_PREP.structs (P : members) : List (Entry × Int) → List Specialisation → List NestedEnum
  | entries, [] => entries.map fun ev => TREE_ P ev.1 ev.2
  | [], _ :: _ => []
  | ev :: entries, s :: specialisations =>
    TREE.struct P ev.1 ev.2 s :: STRUCT_PREP.structs P entries specialisations
end

/-- The struct that `SETUP` declares when it builds. -/
def SETUP.struct (isLeafValue : Bool) (globalPrefix : fixed_string) (parent : Option parent_view)
    (typeName : fixed_string) (underlying : Option int_type) (entries : List Entry)
    (specialisations : List Specialisation) : NestedEnum :=
  let m := DEFINITION.statics isLeafValue globalPrefix parent typeName underlying entries
  .mk true m (STRUCT_PREP.structs m (entries.zip m.enumValues) specialisations)

/-! ## The member templates of `nested_enum<E, P>` -/

/-- The macro `TEST_INCLUSIVENESS(selection, type)`. The expression names `type::isLeaf`
whatever `is_complete_type_v<type>` is, so for a struct that is only forward declared it
does not build and the macro has no result. -/
def TEST_INCLUSIVENESS (selection : InnerOuterAll) (type : NestedEnum) : Option Bool :=
  if type.isComplete then
    some (selection == .All ||
      (!type.isComplete && selection == .Outer) ||
      (type.isComplete &&
        ((type.isLeaf && selection == .Outer) || (!type.isLeaf && selection == .Inner))))
  else none

/-- The fold `(getValues.template operator()<Ts>(), ...)` of `get_needed_values`, from the
state `size`, `index`, `valuesNeeded`. -/
def get_needed_values.loop (Selection : InnerOuterAll) :
    List NestedEnum → Nat → Nat → List Bool → Option (List Bool × Nat)
  | [], size, _, valuesNeeded => some (valuesNeeded, size)
  | T :: Ts, size, index, valuesNeeded =>
    match TEST_INCLUSIVENESS Selection T with
    | none => none
    | some true =>
      get_needed_values.loop Selection Ts (size + 1) (index + 1) (valuesNeeded.set index true)
    | some false =>
      get_needed_values.loop Selection Ts size (index + 1) (valuesNeeded.set index false)

/-- The member function `get_needed_values<Selection>(type_list<Ts...>)`: a flag per entry of
`E` (an array of `E::enumValues.size()` flags, all false at first) and the number of flags set. -/
def get_needed_values (E : NestedEnum) (Selection : InnerOuterAll) (Ts : List NestedEnum) :
    Option (List Bool × Nat) :=
  get_needed_values.loop Selection Ts 0 0 (List.replicate E.enumValues.length false)

/-- The loop shared by `enum_values`, `enum_ids`, `enum_names` and `enum_names_and_ids`:
`for (i = 0, j = 0; i < valuesNeeded.first.size(); i++) if (valuesNeeded.first[i]) values[j++] = f(i);`
where reading `f(i)` may have no result. -/
def copy_needed.loop {α : Type} (f : Nat → Option α) :
    List Bool → Nat → Nat → List α → Option (List α)
  | [], _, _, values => some values
  | needed :: rest, i, j, values =>
    if needed then
      match f i with
      | none => none
      | some x => copy_needed.loop f rest (i + 1) (j + 1) (values.set j x)
    else copy_needed.loop f rest (i + 1) j values

/-- The array `values` of `valuesNeeded.second` elements, value-initialised to `dflt`, after
the copy loop; no result when `get_needed_values` has none. -/
def copy_needed {α : Type} (valuesNeeded : Option (List Bool × Nat)) (f : Nat → Option α)
    (dflt : α) : Option (List α) :=
  match valuesNeeded with
  | none => none
  | some valuesNeeded =>
    copy_needed.loop f valuesNeeded.1 0 0 (List.replicate valuesNeeded.2 dflt)

/-- The member function `enum_values<Selection>()`. -/
def enum_values (E : NestedEnum) (Selection : InnerOuterAll := .All) : Option (List Int) :=
  if E.enumValues.length = 0 ∨ Selection = .All then
    some E.enumValues
  else
    copy_needed (get_needed_values E Selection E.subtypes) (fun i => E.enumValues[i]?) 0

/-- The fold `(getTotal.template operator()<Ts>(), ...)` of `enum_count`, from the state
`total`. -/
def enum_count.getTotal (selection : InnerOuterAll) : List NestedEnum → Nat → Option Nat
  | [], total => some total
  | T :: Ts, total =>
    match TEST_INCLUSIVENESS selection T with
    | none => none
    | some true => enum_count.getTotal selection Ts (total + 1)
    | some false => enum_count.getTotal selection Ts total

/-- The member function `enum_count(selection)`. The lambda with `TEST_INCLUSIVENESS` is
instantiated for every subtype whatever the value of `selection` is, so the function has a
result only when the fold builds. -/
def enum_count (E : NestedEnum) (selection : InnerOuterAll := .All) : Option Nat :=
  if E.enumValues.length = 0 then some 0
  else
    match enum_count.getTotal selection E.subtypes 0 with
    | none => none
    | some total => if selection = .All then some E.enumValues.length else some total

/-- The member function `enum_ids<Selection>()`. -/
def enum_ids (E : NestedEnum) (Selection : InnerOuterAll := .All) :
    Option (List (Option fixed_string)) :=
  if E.enumIds.length = 0 ∨ Selection = .All then
    some E.enumIds
  else
    copy_needed (get_needed_values E Selection E.subtypes) (fun i => E.enumIds[i]?) none

/-- The lambda `generateStrings<cleanString>` of `enum_names`. -/
def enum_names.generateStrings (E : NestedEnum) (Selection : InnerOuterAll) (cleanString : Bool) :
    Option (List fixed_string) :=
  copy_needed (get_needed_values E Selection E.subtypes)
    (fun i => get_substring E.enumNames i cleanString) []

/-- The member function `enum_names<Selection>(clean)`; both constants `enumNames` and
`enumNamesClean` are evaluated before one of them is returned. -/
def enum_names (E : NestedEnum) (Selection : InnerOuterAll := .All) (clean : Bool := false) :
    Option (List fixed_string) :=
  match enum_count E Selection with
  | none => none
  | some 0 => some []
  | some _ =>
    match enum_names.generateStrings E Selection false,
          enum_names.generateStrings E Selection true with
    | some enumNames, some enumNamesClean => some (if !clean then enumNames else enumNamesClean)
    | _, _ => none

/-! ## Lookups

A lookup that returns a `std::optional` is rendered with two layers: the outer `Option`
is `none` when the call has no result at all (a table is read out of its bounds, or a
table of names cannot be built), the inner one is the `std::optional` that is returned. -/

/-- The function `detail::find_index(container, value)` on a container of plain values:
the index of the first element equal to `value`. -/
def find_index {α : Type} [DecidableEq α] : List α → α → Option Nat
  | [], _ => none
  | first :: rest, value =>
    if first = value then some 0 else (find_index rest value).map fun index => index + 1

/-- The function `detail::find_index(container, value)` on a container of
`std::optional` values: the index of the first element with
`first->has_value() && first->value() == value`. -/
def find_index_optional {α : Type} [DecidableEq α] : List (Option α) → α → Option Nat
  | [], _ => none
  | first :: rest, value =>
    if first.isSome ∧ first = some value then some 0
    else (find_index_optional rest value).map fun index => index + 1

/-- The member function `name(clean)`. -/
def name (E : NestedEnum) (clean : Bool := false) : Option fixed_string :=
  if clean then remove_scope E.internalName else some E.internalName

/-- The lambda `stringsAndIdsClean` of `enum_names_and_ids`: every string of
`stringsAndIds` with its scope removed, next to the same id. -/
def enum_names_and_ids.stringsAndIdsClean :
    List (fixed_string × Option fixed_string) → Option (List (fixed_string × Option fixed_string))
  | [] => some []
  | p :: rest =>
    match remove_scope p.1, enum_names_and_ids.stringsAndIdsClean rest with
    | some string, some values => some ((string, p.2) :: values)
    | _, _ => none

/-- The member function `enum_names_and_ids<Selection>(clean)`; both constants
`stringsAndIds` and `stringsAndIdsClean` are evaluated before one of them is returned. -/
def enum_names_and_ids (E : NestedEnum) (Selection : InnerOuterAll := .All) (clean : Bool := false) :
    Option (List (fixed_string × Option fixed_string)) :=
  match enum_count E Selection with
  | none => none
  | some 0 => some []
  | some _ =>
    match copy_needed (get_needed_values E Selection E.subtypes)
        (fun i =>
          match get_substring E.enumNames i false, E.enumIds[i]? with
          | some string, some id => some (string, id)
          | _, _ => none)
        ([], none) with
    | none => none
    | some stringsAndIds =>
      match enum_names_and_ids.stringsAndIdsClean stringsAndIds with
      | none => none
      | some stringsAndIdsClean => some (if !clean then stringsAndIds else stringsAndIdsClean)

/-- The static member function `enum_name(E value, bool clean)`; the table
`enum_names<All>(clean)` is instantiated whether or not the value is found. -/
def enum_name (E : NestedEnum) (value : Int) (clean : Bool := false) :
    Option (Option fixed_string) :=
  match enum_names E .All clean with
  | none => none
  | some names =>
    match find_index E.enumValues value with
    | none => some none
    | some index => (names[index]?).map some

/-- The static member function `enum_name_by_id(id, clean)`. -/
def enum_name_by_id (E : NestedEnum) (id : fixed_string) (clean : Bool := false) :
    Option (Option fixed_string) :=
  match enum_names E .All clean with
  | none => none
  | some names =>
    match find_index_optional E.enumIds id with
    | none => some none
    | some index => (names[index]?).map some

/-- The static member function `enum_id(E value)`. -/
def enum_id (E : NestedEnum) (value : Int) : Option (Option fixed_string) :=
  match enum_ids E .All with
  | none => none
  | some ids =>
    match find_index E.enumValues value with
    | none => some none
    | some index => ids[index]?

/-- The static member function `enum_value(std::string_view enumName)`. -/
def enum_value (E : NestedEnum) (enumName : fixed_string) : Option (Option Int) :=
  match enum_names E .All false with
  | none => none
  | some enumNames =>
    match find_index enumNames enumName with
    | none => some none
    | some index => (E.enumValues[index]?).map some

/-- The static member function `enum_value_by_id(id)`. -/
def enum_value_by_id (E : NestedEnum) (id : fixed_string) : Option (Option Int) :=
  match find_index_optional E.enumIds id with
  | none => some none
  | some index => (E.enumValues[index]?).map some

/-- The static member function `enum_integer_by_id(id)`; the cast of a value of `E` to
`E::underlying_type` keeps the integer. -/
def enum_integer_by_id (E : NestedEnum) (id : fixed_string) : Option (Option Int) :=
  match find_index_optional E.enumIds id with
  | none => some none
  | some index => (E.enumValues[index]?).map some

/-! ## Recursive count -/

mutual
/-- The member function `enum_count_recursive_internal(selection, E::subtypes)`. -/
def enum_count_recursive_internal (selection : InnerOuterAll) : NestedEnum → Option Nat
  | .mk _ _ Ts =>
    match enum_count_recursive_internal.subtypesSizes selection Ts with
    | none => none
    | some sizes => some ((if selection = .Inner ∨ selection = .All then 1 else 0) + sizes)
/-- The fold `(subtypesSizes.template operator()<Ts>() + ...)` of
`enum_count_recursive_internal`, 0 for the empty pack. The condition
`if constexpr (detail::is_complete_type_v<T> && !T::isLeaf)` names `T::isLeaf` of every
subtype, so it does not build for a struct that is only forward declared. -/
def enum_count_recursive_internal.subtypesSizes (selection : InnerOuterAll) :
    List NestedEnum → Option Nat
  | [] => some 0
  | T :: Ts =>
    if T.isComplete then
      match (if T.isComplete && !T.isLeaf then enum_count_recursive_internal selection T
              else some (if selection = .Outer ∨ selection = .All then 1 else 0)),
            enum_count_recursive_internal.subtypesSizes selection Ts with
      | some size, some sizes => some (size + sizes)
      | _, _ => none
    else none
end

/-- The member function `enum_count_recursive(selection)`; `--count` is the predecessor,
taken as 0 at 0 in the embedding. -/
def enum_count_recursive (E : NestedEnum) (selection : InnerOuterAll := .All) : Option Nat :=
  match enum_count_recursive_internal selection E with
  | none => none
  | some count => some (if selection = .Inner ∨ selection = .All then count - 1 else count)

/-! ## Vocabulary of the statements -/

/-- Entry `i` of `E` is selected by `Selection`: flag `i` of `get_needed_values`, when
it has a result. -/
def selected (E : NestedEnum) (Selection : InnerOuterAll) (i : Nat) : Option Bool :=
  (get_needed_values E Selection E.subtypes).map fun valuesNeeded => valuesNeeded.1.getD i false

/-- The value of the expression of `TEST_INCLUSIVENESS`: the selection that the header
documents at `InnerOuterAll` (Inner for the "enum values that are themselves enums", Outer
for the "enum values that are NOT enums", All for both), in which a struct that is not
defined counts as no enum. -/
def classified (selection : InnerOuterAll) (type : NestedEnum) : Bool :=
  selection == .All ||
    (!type.isComplete && selection == .Outer) ||
    (type.isComplete &&
      ((type.isLeaf && selection == .Outer) || (!type.isLeaf && selection == .Inner)))

/-- No entry of `E` is left forward declared: every struct of `E::subtypes` is defined. -/
def EntriesDefined (E : NestedEnum) : Prop := ∀ T ∈ E.subtypes, T.isComplete = true

instance (E : NestedEnum) : Decidable (EntriesDefined E) := by
  unfold EntriesDefined; infer_instance

/-- The elements of `table` at the positions whose flag is set, in the order of the table. -/
def subsequence {α : Type} (flags : List Bool) (table : List α) : List α :=
  ((flags.zip table).filter fun p => p.1).map fun p => p.2

/-- The classification of every entry of `E` under `Selection`, entry by entry. -/
def classification (E : NestedEnum) (Selection : InnerOuterAll) : List Bool :=
  E.subtypes.map (classified Selection)

/-- The specialisation makes the entry an enum of its own: `ENUM`, or `DEFER` followed by
`NESTED_ENUM_FROM`. -/
def Specialisation.isEnum : Specialisation → Bool
  | .NONE => false
  | .ENUM _ _ _ => true
  | .DEFER => false
  | .DEFER_FROM _ _ _ => true

/-- The string holds no `NUL` character. -/
def NulFree (name : fixed_string) : Prop := NUL ∉ name

instance (name : fixed_string) : Decidable (NulFree name) := by
  unfold NulFree; infer_instance

mutual
/-- The struct `E` and every struct reachable from it through defined non-leaf subtypes,
in pre-order. -/
def reachable : NestedEnum → List NestedEnum
  | .mk isComplete statics Ts => .mk isComplete statics Ts :: reachable.children Ts
/-- The structs reachable through the defined non-leaf structs of a type list. -/
def reachable.children : List NestedEnum → List NestedEnum
  | [] => []
  | T :: Ts => (if T.isComplete && !T.isLeaf then reachable T else []) ++ reachable.children Ts
end

mutual
/-- Every struct of the tree has one subtype per ordinal of its table, as the macros
generate them. -/
def Generated : NestedEnum → Prop
  | .mk _ statics Ts => Ts.length = statics.enumValues.length ∧ Generated.all Ts
/-- Every struct of the type list is generated. -/
def Generated.all : List NestedEnum → Prop
  | [] => True
  | T :: Ts => Generated T ∧ Generated.all Ts
end

/-- The string holds no `:` character. -/
def ColonFree (name : fixed_string) : Prop := ':' ∉ name

instance (name : fixed_string) : Decidable (ColonFree name) := by
  unfold ColonFree; infer_instance

/-- The local names of the entries of one node are identifiers (they hold neither `NUL`
nor `:`) that differ from one another. -/
def distinct_identifiers (entries : List Entry) : Prop :=
  (entries.map Entry.name).Nodup ∧ ∀ e ∈ entries, NulFree e.name ∧ ColonFree e.name

mutual
/-- At every node that the specialisation declares, the local names of the entries are
identifiers that differ from one another (local names are unique among siblings). -/
def WellNamed : Specialisation → Prop
  | .NONE => True
  | .ENUM _ entries specialisations => distinct_identifiers entries ∧ WellNamed.all specialisations
  | .DEFER => True
  | .DEFER_FROM _ entries specialisations =>
    distinct_identifiers entries ∧ WellNamed.all specialisations
/-- Every specialisation of the list is well named. -/
def WellNamed.all : List Specialisation → Prop
  | [] => True
  | s :: specialisations => WellNamed s ∧ WellNamed.all specialisations
end

mutual
/-- The qualified names of the entries of `E` and of every struct below it, as
`get_substring` reads them at each defined struct from the buffer `enumNames` that
`get_string_values` composed, one name per ordinal. -/
def entry_names : NestedEnum → List fixed_string
  | .mk isComplete statics Ts =>
    (if isComplete then
        (List.range statics.enumValues.length).map fun index =>
          (get_substring statics.enumNames index false).getD []
      else []) ++
      entry_names.children Ts
/-- The qualified names of the entries of the structs of a type list and below. -/
def entry_names.children : List NestedEnum → List fixed_string
  | [] => []
  | T :: Ts => entry_names T ++ entry_names.children Ts
end

mutual
/-- The qualified names `internalName` of `E` and of every defined struct below it. -/
def node_names : NestedEnum → List fixed_string
  | .mk isComplete statics Ts =>
    (if isComplete then [statics.internalName] else []) ++ node_names.children Ts
/-- The qualified names of the defined structs of a type list and below. -/
def node_names.children : List NestedEnum → List fixed_string
  | [] => []
  | T :: Ts => node_names T ++ node_names.children Ts
end

/-- The name `x` is `p` itself or continues `p` with a `:`. -/
def Below (p x : fixed_string) : Prop :=
  ∃ r, x = p ++ r ∧ (r = [] ∨ r.head? = some ':')

/-- The name `x` continues `p` with a scope: it is `p`, `::` and more. -/
def StrictBelow (p x : fixed_string) : Prop :=
  ∃ t, x = p ++ scopeResolution ++ t

/-- The names of the entries and of the structs of the tree of `T` are pairwise different
and lie below the name `p`. -/
def NamesBelow (T : NestedEnum) (p : fixed_string) : Prop :=
  (entry_names T).Nodup ∧ (∀ x ∈ entry_names T, StrictBelow p x) ∧
    (node_names T).Nodup ∧ (∀ x ∈ node_names T, Below p x)

/-- The names of the entries and of the structs of the trees of a type list are pairwise
different, and each lies below the qualified name of one of the entries `names` of `q`. -/
def NamesBelow.all (Ts : List NestedEnum) (q : fixed_string) (names : List fixed_string) : Prop :=
  (entry_names.children Ts).Nodup ∧
    (∀ x ∈ entry_names.children Ts, ∃ e ∈ names, StrictBelow (q ++ scopeResolution ++ e) x) ∧
    (node_names.children Ts).Nodup ∧
    (∀ x ∈ node_names.children Ts, ∃ e ∈ names, Below (q ++ scopeResolution ++ e) x)

/-- The qualified names of a tree: the name of the root and the names of all entries. -/
def qualified_names (R : NestedEnum) : List fixed_string := R.internalName :: entry_names R

/-- The string holds no `::` and does not begin with `:`: no `::` starts inside it, nor on
its border with a `::` written before it. -/
def ScopeFree (name : fixed_string) : Prop :=
  ¬ scopeResolution <:+: name ∧ name.head? ≠ some ':'

/-- The fully qualified name of an entry of `E`: the qualified name of `E`, `::` and the
local name of the entry. -/
def qualified (E : NestedEnum) (e : Entry) : fixed_string :=
  E.internalName ++ scopeResolution ++ e.name

/-- As the specification words it (section 3, `Entry.child`): the entry has a child node,
that is, it expands into a nested node. -/
def spec_has_child (s : Specialisation) : Bool := s.isEnum

/-- As the specification words it (section 4.2): the child node of the entry "is itself a
branch (has further entries with `child` set)". -/
def spec_child_is_branch : Specialisation → Bool
  | .NONE => false
  | .DEFER => false
  | .ENUM _ entries specialisations =>
    (List.range entries.length).any fun j => spec_has_child (specialisations.getD j .NONE)
  | .DEFER_FROM _ entries specialisations =>
    (List.range entries.length).any fun j => spec_has_child (specialisations.getD j .NONE)

/-- As the specification words it (section 4.2): "An entry is Inner if it has a child node
that is itself a branch". -/
def spec_Inner (s : Specialisation) : Bool := spec_has_child s && spec_child_is_branch s

/-- As the specification words it (section 4.2): "an entry is Outer if it has no child at
all, or its child is a node with no further branching children". -/
def spec_Outer (s : Specialisation) : Bool := !spec_has_child s || !spec_child_is_branch s

/-! ## The example tree `Vehicle` -/

/-- The entries `(Land, Watercraft)` of `Vehicle`. -/
def Vehicle.entries : List Entry := [{ name := "Land".data }, { name := "Watercraft".data }]

/-- The specialisations of `Vehicle`: `(ENUM, Land, (Car, Truck))`. -/
def Vehicle.specialisations : List Specialisation :=
  [.ENUM none [{ name := "Car".data }, { name := "Truck".data }] []]

/-- The tree `NESTED_ENUM((Vehicle), (Land, Watercraft), (ENUM, Land, (Car, Truck)))`. -/
def Vehicle : NestedEnum :=
  (NESTED_ENUM "Vehicle".data none [] Vehicle.entries Vehicle.specialisations).get (by decide)

/-- The struct `Vehicle::Land`. -/
def Vehicle.Land : NestedEnum := Vehicle.subtypes.getD 0 Vehicle

/-- The tree `NESTED_ENUM((Root), (A), (ENUM, A, ()))`: the child node of `A` has no
entries. -/
def Root : NestedEnum :=
  (NESTED_ENUM "Root".data none [] [{ name := "A".data }] [.ENUM none [] []]).get (by decide)

/-- The tree `NESTED_ENUM((Deferred), (A, B), (DEFER))`: the struct of `A` is forward
declared and never defined. -/
def Deferred : NestedEnum :=
  (NESTED_ENUM "Deferred".data none [] [{ name := "A".data }, { name := "B".data }]
    [.DEFER]).get (by decide)

/-! ## Instances and the identity of a node -/

/-- The overload `enum_value(T integer)` for the underlying type `T`: the first value of
`E::enumValues` equal to `(typename E::underlying_type)integer`, as an instance of `E`. -/
def enum_value_of_integer (E : NestedEnum) (integer : Int) : Option Int :=
  E.enumValues.find? fun value => value == E.statics.underlying_type.wrap integer

/-- The static member function `make_enum(T t)` on an integer `t` of any integral type:
`enum_value(static_cast<typename E::underlying_type>(t))`. -/
def make_enum (E : NestedEnum) (t : Int) : Option Int :=
  enum_value_of_integer E (E.statics.underlying_type.wrap t)

/-- The static member function `id()`: empty for the root (`E` is `P`), else
`P::enum_id(E::value())`, the lookup `enum_id(E value)` of the parent at the enumerator
`parent::typeName`. -/
def NestedEnum.id (E : NestedEnum) : Option (Option fixed_string) :=
  match E.statics.parent with
  | none => some none
  | some P =>
    match find_index P.enumValues P.value with
    | none => some none
    | some index => P.enumIds[index]?

/-- The overload `enum_integer(std::string_view enumName)`. -/
def enum_integer (E : NestedEnum) (enumName : fixed_string) : Option (Option Int) :=
  match enum_names E .All false with
  | none => none
  | some enumNames =>
    match find_index enumNames enumName with
    | none => some none
    | some index => (E.enumValues[index]?).map some

/-! ## Recursive aggregates -/

/-- What `return_recursive_internal` builds: a `std::array`, or a `std::tuple` whose elements
are arrays and tuples. -/
inductive TupleOrArray (α : Type) where
  | array (values : List α)
  | tuple (elements : List (TupleOrArray α))

/-- The lambda `checkQueries` of `return_recursive_internal`: whether the subtype `T` is kept
in `subtypesToQuery` (`checkInner` looks for a defined subtype of `T` that is not a leaf). -/
def return_recursive_internal.checkQueries (Selection : InnerOuterAll) (T : NestedEnum) : Bool :=
  if !T.isComplete then false
  else if T.subtypes.length = 0 then false
  else if Selection = .All ∨ Selection = .Outer then true
  else T.subtypes.any fun U => if U.isComplete then !U.isLeaf else false

/-- The constant `subtypesToQuery` of `return_recursive_internal`. -/
def return_recursive_internal.subtypesToQuery (Selection : InnerOuterAll)
    (Ts : List NestedEnum) : List NestedEnum :=
  Ts.filter (return_recursive_internal.checkQueries Selection)

mutual
/-- The member function `return_recursive_internal<Predicate, Selection>()`; `Predicate` is
the table of one struct, which may have no result. -/
def return_recursive_internal {α : Type} (Predicate : NestedEnum → Option (List α))
    (Selection : InnerOuterAll) : NestedEnum → Option (TupleOrArray α)
  | .mk isComplete statics Ts =>
    if statics.enumValues.length = 0 then some (.tuple [])
    else
      match Predicate (.mk isComplete statics Ts) with
      | none => none
      | some values =>
        if (return_recursive_internal.subtypesToQuery Selection Ts).length = 0 then
          some (.tuple [.array values])
        else
          match return_recursive_internal.subtypesTuples Predicate Selection Ts with
          | none => none
          | some subtypesTuples =>
            if values.length = 0 then some (.tuple subtypesTuples)
            else some (.tuple (.array values :: subtypesTuples))
/-- The constant `subtypesTuples` of `return_recursive_internal`: the results of
`T::return_recursive_internal<Predicate, Selection>()` for the structs `T` of
`subtypesToQuery`, in their order. -/
def return_recursive_internal.subtypesTuples {α : Type} (Predicate : NestedEnum → Option (List α))
    (Selection : InnerOuterAll) : List NestedEnum → Option (List (TupleOrArray α))
  | [] => some []
  | T :: Ts =>
    if return_recursive_internal.checkQueries Selection T then
      match return_recursive_internal Predicate Selection T,
            return_recursive_internal.subtypesTuples Predicate Selection Ts with
      | some tuple, some tuples => some (tuple :: tuples)
      | _, _ => none
    else return_recursive_internal.subtypesTuples Predicate Selection Ts
end

/-- The function `tuple_magic::as_tuple`: the elements of a tuple, or the one element that
`std::make_tuple(t)` has. -/
def tuple_magic.as_tuple {α : Type} : TupleOrArray α → List (TupleOrArray α)
  | .array values => [.array values]
  | .tuple elements => elements

/-- The variable `is_tuple<T>::value`. -/
def tuple_magic.is_tuple {α : Type} : TupleOrArray α → Bool
  | .array _ => false
  | .tuple _ => true

mutual
/-- The number of tuples in a value, itself and the tuples inside it. -/
def TupleOrArray.tuples {α : Type} : TupleOrArray α → Nat
  | .array _ => 0
  | .tuple elements => 1 + TupleOrArray.tuples.all elements
/-- The number of tuples in the elements of a tuple. -/
def TupleOrArray.tuples.all {α : Type} : List (TupleOrArray α) → Nat
  | [] => 0
  | t :: ts => t.tuples + TupleOrArray.tuples.all ts
end

/-- The elements `as_tuple(r)...` of `std::tuple_cat(as_tuple(flatten(ts))...)` from the
results `r` of the calls `flatten(ts)`; no result when one of the calls has none. -/
def tuple_magic.flatten.cat {α : Type} : List (Option (TupleOrArray α)) →
    Option (List (TupleOrArray α))
  | [] => some []
  | none :: _ => none
  | some r :: rest =>
    match tuple_magic.flatten.cat rest with
    | none => none
    | some elements => some (tuple_magic.as_tuple r ++ elements)

/-- A call `flatten(t)`, resolved among the overloads that are declared where the call is
written (the arguments are arrays and tuples of namespace `std`, so argument-dependent
lookup adds none). In the body of `flatten(std::tuple<T>)` only `flatten(auto)` and
`flatten(std::tuple<T>)` itself are declared (`all = false`); in the body of the last
overload, and for the callers of `flatten`, all four are (`all = true`): `flatten(auto)`
returns its argument, `flatten(std::tuple<T>)` calls `flatten` on the one element, the third
overload returns a tuple that has no tuple among its elements, and the fourth calls
`flatten` on every element and then on the `std::tuple_cat` of the results. A round takes
one unit of `fuel`. -/
def tuple_magic.flatten.call {α : Type} (all : Bool) : Nat → TupleOrArray α →
    Option (TupleOrArray α)
  | 0, _ => none
  | _ + 1, .array values => some (.array values)
  | fuel + 1, .tuple [t] => tuple_magic.flatten.call false fuel t
  | fuel + 1, .tuple elements =>
    if !all then some (.tuple elements)
    else if elements.any tuple_magic.is_tuple then
      match tuple_magic.flatten.cat (elements.map (tuple_magic.flatten.call true fuel)) with
      | none => none
      | some cat => tuple_magic.flatten.call true fuel (.tuple cat)
    else some (.tuple elements)

/-- The function `tuple_magic::flatten` as its callers see it, with all overloads declared;
every round removes a tuple, so one unit of fuel per tuple and one more are enough. -/
def tuple_magic.flatten {α : Type} (t : TupleOrArray α) : Option (TupleOrArray α) :=
  tuple_magic.flatten.call true (t.tuples + 1) t

/-- The arrays `std::get<Indices>(tupleOrArray)...` that `tuple_of_arrays_to_array` passes to
`function(std::array<T, M> first, Args... args)`; an element that is no array has no
`size()`. -/
def tuple_of_arrays_to_array.arrays {α : Type} : List (TupleOrArray α) → Option (List (List α))
  | [] => some []
  | .array values :: rest => (tuple_of_arrays_to_array.arrays rest).map fun arrays => values :: arrays
  | .tuple _ :: _ => none

/-- The lambda `iterate` of `tuple_of_arrays_to_array` over `first` and `args`: the arrays
copied one after the other into `newArray`. -/
def tuple_of_arrays_to_array.iterate {α : Type} : List (List α) → List α
  | [] => []
  | current :: rest => current ++ tuple_of_arrays_to_array.iterate rest

/-- The function `detail::tuple_of_arrays_to_array`: an array is returned as it is; the
empty tuple has no result, `function` needs a first array. -/
def tuple_of_arrays_to_array {α : Type} : TupleOrArray α → Option (List α)
  | .array tupleOrArray => some tupleOrArray
  | .tuple [] => none
  | .tuple (first :: args) =>
    (tuple_of_arrays_to_array.arrays (first :: args)).map tuple_of_arrays_to_array.iterate

/-- The shared body of `enum_names_recursive`, `enum_ids_recursive` and
`enum_names_and_ids_recursive`: the flattened tuple, made one array when `flattenTuple`. -/
def return_recursive {α : Type} (predicate : NestedEnum → Option (List α))
    (Selection : InnerOuterAll) (flattenTuple : Bool) (E : NestedEnum) :
    Option (TupleOrArray α) :=
  match return_recursive_internal predicate Selection E with
  | none => none
  | some tuple =>
    match tuple_magic.flatten tuple with
    | none => none
    | some flattened =>
      if flattenTuple then
        (tuple_of_arrays_to_array flattened).map fun flattenedTuple => .array flattenedTuple
      else some flattened

/-- The member function `enum_names_recursive<Selection, flattenTuple, clean>()`. -/
def enum_names_recursive (E : NestedEnum) (Selection : InnerOuterAll := .All)
    (flattenTuple : Bool := true) (clean : Bool := false) : Option (TupleOrArray fixed_string) :=
  return_recursive (fun T => enum_names T Selection clean) Selection flattenTuple E

/-- The member function `enum_ids_recursive<Selection, flattenTuple>()`. -/
def enum_ids_recursive (E : NestedEnum) (Selection : InnerOuterAll := .All)
    (flattenTuple : Bool := true) : Option (TupleOrArray (Option fixed_string)) :=
  return_recursive (fun T => enum_ids T Selection) Selection flattenTuple E

/-- The member function `enum_names_and_ids_recursive<Selection, flattenTuple, clean>()`. -/
def enum_names_and_ids_recursive (E : NestedEnum) (Selection : InnerOuterAll := .All)
    (flattenTuple : Bool := true) (clean : Bool := false) :
    Option (TupleOrArray (fixed_string × Option fixed_string)) :=
  return_recursive (fun T => enum_names_and_ids T Selection clean) Selection flattenTuple E

/-! ## Recursive search -/

/-- Lines 20 to 22 of the header, `#ifdef NESTED_ENUM_SUPPRESS_MULTIPLE_RESULTS_ASSERT`,
`#define NESTED_ENUM_SUPPRESS_MULTIPLE_RESULTS_ASSERT 0`, `#endif`: the definition of the
macro below these lines, from the definition `user` made before the header is included
(`none`: the macro is not defined); the `#define` of the header replaces that of the user. -/
def NESTED_ENUM_SUPPRESS_MULTIPLE_RESULTS_ASSERT (user : Option Int) : Option Int :=
  match user with
  | some _ => some 0
  | none => none

/-- The condition `#if NESTED_ENUM_SUPPRESS_MULTIPLE_RESULTS_ASSERT == 0` around the
`static_assert` of `find_type_recursive_internal`; an identifier that is no macro counts
as 0. -/
def multiple_results_assert (user : Option Int) : Bool :=
  (NESTED_ENUM_SUPPRESS_MULTIPLE_RESULTS_ASSERT user).getD 0 == 0

mutual
/-- The member function `find_type_recursive_internal<Predicate>(E::subtypes)`: the type
list of the structs found, `none` when the build fails (the `static_assert` fires, or the
predicate has no result). -/
def find_type_recursive_internal (Predicate : NestedEnum → Option Bool) (user : Option Int) :
    NestedEnum → Option (List NestedEnum)
  | .mk isComplete statics Ts =>
    match Predicate (.mk isComplete statics Ts) with
    | none => none
    | some true => some [.mk isComplete statics Ts]
    | some false =>
      if Ts.length = 0 then some []
      else
        match find_type_recursive_internal.subtypesResult Predicate user Ts with
        | none => none
        | some subtypesResult =>
          if subtypesResult.length > 0 then
            if multiple_results_assert user ∧ subtypesResult.length ≠ 1 then none
            else some subtypesResult
          else some []
/-- The constant `subtypesResult` of `find_type_recursive_internal`: the fold
`(getResults.template operator()<Ts>() + ...)`. -/
def find_type_recursive_internal.subtypesResult (Predicate : NestedEnum → Option Bool)
    (user : Option Int) : List NestedEnum → Option (List NestedEnum)
  | [] => some []
  | T :: Ts =>
    match (if T.isComplete then find_type_recursive_internal Predicate user T else some []),
          find_type_recursive_internal.subtypesResult Predicate user Ts with
    | some results, some rest => some (results ++ rest)
    | _, _ => none
end

/-- A value of the enum `T::Value` of a struct `T`; the type is told by the qualified name
of `T`. -/
structure Value where
  type : fixed_string
  internalValue : Int
deriving DecidableEq, Repr

/-- The member function `enum_name_recursive(value, clean)`; the predicate is
`std::is_same_v<decltype(value), typename T::Value>`. -/
def enum_name_recursive (E : NestedEnum) (value : Value) (clean : Bool := false)
    (user : Option Int := none) : Option (Option fixed_string) :=
  match find_type_recursive_internal (fun T => some (decide (value.type = T.internalName)))
      user E with
  | none => none
  | some [] => some none
  | some (subType :: _) => enum_name subType value.internalValue clean

/-- The member function `enum_integer_recursive<enumName>()`. -/
def enum_integer_recursive (E : NestedEnum) (enumName : fixed_string)
    (user : Option Int := none) : Option (Option Int) :=
  match find_type_recursive_internal (fun T => (enum_integer T enumName).map Option.isSome)
      user E with
  | none => none
  | some [] => some none
  | some (subType :: _) => enum_integer subType enumName

/-- The member function `enum_integer_by_id_recursive<id>()`. -/
def enum_integer_by_id_recursive (E : NestedEnum) (id : fixed_string)
    (user : Option Int := none) : Option (Option Int) :=
  match find_type_recursive_internal (fun T => (enum_integer_by_id T id).map Option.isSome)
      user E with
  | none => none
  | some [] => some none
  | some (subType :: _) => enum_integer_by_id subType id

/-- The member function `enum_value_recursive<enumName>()`. -/
def enum_value_recursive (E : NestedEnum) (enumName : fixed_string)
    (user : Option Int := none) : Option (Option Int) :=
  match find_type_recursive_internal (fun T => (enum_value T enumName).map Option.isSome)
      user E with
  | none => none
  | some [] => some none
  | some (subType :: _) => enum_value subType enumName

/-- The member function `enum_value_by_id_recursive<id>()`. -/
def enum_value_by_id_recursive (E : NestedEnum) (id : fixed_string)
    (user : Option Int := none) : Option (Option Int) :=
  match find_type_recursive_internal (fun T => (enum_value_by_id T id).map Option.isSome)
      user E with
  | none => none
  | some [] => some none
  | some (subType :: _) => enum_value_by_id subType id

mutual
/-- The member function `enum_name_by_id_recursive(id, clean)`. The lambda `recurse` is
instantiated whether or not the lookup in the struct itself has a value, so the call has a
result only when the lookups of the whole subtree build. -/
def enum_name_by_id_recursive (id : fixed_string) (clean : Bool) :
    NestedEnum → Option (Option fixed_string)
  | .mk isComplete statics Ts =>
    match enum_name_by_id (.mk isComplete statics Ts) id clean,
          (if statics.enumValues.length = 0 then some none
            else enum_name_by_id_recursive.recurse id clean Ts) with
    | some value, some below => some (if value.isSome then value else below)
    | _, _ => none
/-- The lambda `recurse` of `enum_name_by_id_recursive` over the subtypes `U, Us...`; the
call `U::enum_name_by_id_recursive` names a member of `U`, which a struct that is only
forward declared does not have, and it is instantiated for every subtype. -/
def enum_name_by_id_recursive.recurse (id : fixed_string) (clean : Bool) :
    List NestedEnum → Option (Option fixed_string)
  | [] => some none
  | U :: Us =>
    if U.isComplete then
      match enum_name_by_id_recursive id clean U,
            enum_name_by_id_recursive.recurse id clean Us with
      | some value, some rest => some (if value.isSome then value else rest)
      | _, _ => none
    else none
end

/-! ## The legacy header `nested_enum.h` -/

/-- The function `detail::getDigit` of the legacy header. -/
def legacy.getDigit (character : Char) : Int :=
  if '0' ≤ character ∧ character ≤ '9' then (character.toNat : Int) - ('0'.toNat : Int)
  else if 'A' ≤ character ∧ character ≤ 'Z' then
    (character.toNat : Int) - ('A'.toNat : Int) + 10
  else if 'a' ≤ character ∧ character ≤ 'z' then
    (character.toNat : Int) - ('a'.toNat : Int) + 10
  else 0

/-- The function `detail::trim_white_space` of the legacy header: the view from its first
to its last character that is no space. -/
def legacy.trim_white_space (view : List Char) : List Char :=
  match view.findIdx? fun c => c != ' ' with
  | none => []
  | some begin =>
    match view.reverse.findIdx? fun c => c != ' ' with
    | none => []
    | some fromEnd =>
      let last := view.length - 1 - fromEnd
      (view.drop begin).take (last - begin + 1)

/-- The digit separator, the character of `'\''`. -/
def legacy.separator : Char := Char.ofNat 39

/-- The loop `for (size_t i = trimmedView.size(); i-- > 0; )` of `get_int_from_string`
over the characters from the last to the first, from the state `number`, `decimal`; the
arithmetic of `Int` is taken modulo `2 ^ bits`. -/
def legacy.get_int_from_string.loop (T : int_type) : List Char → Int → Int → Int
  | [], number, _ => number
  | character :: rest, number, decimal =>
    if character = legacy.separator then legacy.get_int_from_string.loop T rest number decimal
    else
      legacy.get_int_from_string.loop T rest
        (T.wrap (number + legacy.getDigit character * decimal)) (T.wrap (decimal * 10))

/-- The function `detail::get_int_from_string<Int>` of the legacy header. -/
def legacy.get_int_from_string (view : List Char) (T : int_type := .int64_t) : Int :=
  let trimmedView := legacy.trim_white_space view
  let isNegative := trimmedView.head? = some '-'
  let trimmedView := if isNegative then trimmedView.drop 1 else trimmedView
  let number := legacy.get_int_from_string.loop T trimmedView.reverse 0 1
  if isNegative then T.wrap (-number) else number

/-- The loop `while (!view.empty())` of the legacy `get_array_of_values` without ids, from
the state `view`, `currentValue`, `index`, `enumValues`; a round takes one unit of `fuel`,
and a write past the end of `enumValues` has no result. The statement
`enumValues[index++] = (E)currentValue++;` increments after every entry, the last one too:
in an unsigned `T` modulo `2 ^ bits`; in a signed `T` the increment of the largest value
overflows, which is no constant expression, and the initialiser of the `constexpr` member
`enumValues` has no result. -/
def legacy.get_array_of_values.loop (T : int_type) :
    Nat → List Char → Int → Nat → List Int → Option (List Int)
  | 0, _, _, _, _ => none
  | fuel + 1, view, currentValue, index, enumValues =>
    if view.isEmpty then some enumValues
    else
      let separatorIndex := view.findIdx? fun c => c == ','
      let substr := match separatorIndex with
        | some i => view.take i
        | none => view
      let currentValue := match substr.findIdx? fun c => c == '=' with
        | some equalsIndex => T.wrap (legacy.get_int_from_string (substr.drop equalsIndex))
        | none => currentValue
      if index < enumValues.length then
        if T.isSigned ∧ T.maxVal ≤ currentValue then none
        else
          match separatorIndex with
          | none => some (enumValues.set index currentValue)
          | some i =>
            legacy.get_array_of_values.loop T fuel (view.drop (i + 1)) (T.wrap (currentValue + 1))
              (index + 1) (enumValues.set index currentValue)
      else none

/-- The function `detail::get_array_of_values<E, staticString, false>` of the legacy
header, for an enum `E` of underlying type `T`; the loop ends within
`staticString.size() + 1` rounds. -/
def legacy.get_array_of_values (staticString : List Char) (T : int_type := .int64_t) :
    Option (List Int) :=
  let view := legacy.trim_white_space staticString
  let size := if view.isEmpty then 0 else view.count ',' + 1
  if size ≠ 0 then
    legacy.get_array_of_values.loop T (view.length + 1) view 0 0 (List.replicate size 0)
  else some []

/-! ## Vocabulary of the recursive statements -/

mutual
/-- The struct `E` and every defined struct below it, in pre-order: a struct before the
structs of its subtypes, the subtypes in their order. -/
def structs : NestedEnum → List NestedEnum
  | .mk isComplete statics Ts => .mk isComplete statics Ts :: structs.children Ts
/-- The defined structs of a type list and below, in pre-order. -/
def structs.children : List NestedEnum → List NestedEnum
  | [] => []
  | T :: Ts => (if T.isComplete then structs T else []) ++ structs.children Ts
end

mutual
/-- Every struct below `E` is defined: no deferred struct is left without its definition. -/
def Defined : NestedEnum → Prop
  | .mk _ _ Ts => Defined.all Ts
/-- Every struct of the type list, and every struct below, is defined. -/
def Defined.all : List NestedEnum → Prop
  | [] => True
  | T :: Ts => T.isComplete = true ∧ Defined T ∧ Defined.all Ts
end

/-- The struct is what `NESTED_ENUM_INTERNAL_SETUP` generates from a name without `NUL` and
entries whose local names are identifiers that differ from one another. -/
def Declared (N : NestedEnum) : Prop :=
  ∃ (isLeafValue : Bool) (globalPrefix : fixed_string) (parent : Option parent_view)
    (typeName : fixed_string) (underlying : Option int_type) (entries : List Entry)
    (specialisations : List Specialisation),
    N = SETUP.struct isLeafValue globalPrefix parent typeName underlying entries specialisations ∧
    NulFree (create_name parent globalPrefix typeName) ∧ distinct_identifiers entries

mutual
/-- The arrays of a tuple, in the order in which they are written. -/
def TupleOrArray.arrays {α : Type} : TupleOrArray α → List (List α)
  | .array values => [values]
  | .tuple elements => TupleOrArray.arrays.all elements
/-- The arrays of the elements of a tuple, in the order in which they are written. -/
def TupleOrArray.arrays.all {α : Type} : List (TupleOrArray α) → List (List α)
  | [] => []
  | t :: ts => t.arrays ++ TupleOrArray.arrays.all ts
end

/-- The table of all names of a struct, `enum_names<All>(clean)`. -/
def all_names (N : NestedEnum) (clean : Bool) : List fixed_string :=
  (enum_names N .All clean).getD []

/-- The table of all names and ids of a struct, `enum_names_and_ids<All>(clean)`. -/
def all_names_and_ids (N : NestedEnum) (clean : Bool) :
    List (fixed_string × Option fixed_string) :=
  (enum_names_and_ids N .All clean).getD []

/-- The entries of the tree of `R` in pre-order, each id next to the name of the entry:
the table of a struct in the order of declaration, before the tables of the structs of its
subtypes, the subtypes in their order. -/
def ids_and_names (R : NestedEnum) (clean : Bool) : List (Option fixed_string × fixed_string) :=
  (structs R).flatMap fun N => N.enumIds.zip (all_names N clean)

/-! ## Example trees of the recursive statements -/

/-- The node `NESTED_ENUM((Byte, std::uint8_t), ((One, VAL, 1)))`. -/
def Byte : NestedEnum :=
  (NESTED_ENUM "Byte".data (some .uint8_t) [] [{ name := "One".data, val := some 1 }] []).get
    (by decide)

/-- The node `NESTED_ENUM((Twins), ((A, VAL_ID, 1, "a"), (B, VAL_ID, 1, "b")))`, two entries
of the same ordinal. -/
def Twins : NestedEnum :=
  (NESTED_ENUM "Twins".data none []
    [{ name := "A".data, val := some 1, id := some "a".data },
     { name := "B".data, val := some 1, id := some "b".data }] []).get (by decide)

/-- The struct `Twins::B`. -/
def Twins.B : NestedEnum := Twins.subtypes.getD 1 Twins

/-- The tree `NESTED_ENUM((Nested), ((A, ID, "x")), (ENUM, A, ((B, ID, "x"))))`: the id `x`
in the root and in its child. -/
def Nested : NestedEnum :=
  (NESTED_ENUM "Nested".data none [] [{ name := "A".data, id := some "x".data }]
    [.ENUM none [{ name := "B".data, id := some "x".data }] []]).get (by decide)

/-- The tree `NESTED_ENUM((Siblings), (A, B), (ENUM, A, ((X, ID, "x"))),
(ENUM, B, ((Y, ID, "x"))))`: the id `x` in two children of the root. -/
def Siblings : NestedEnum :=
  (NESTED_ENUM "Siblings".data none [] [{ name := "A".data }, { name := "B".data }]
    [.ENUM none [{ name := "X".data, id := some "x".data }] [],
     .ENUM none [{ name := "Y".data, id := some "x".data }] []]).get (by decide)

/-- The struct `Siblings::A`. -/
def Siblings.A : NestedEnum := Siblings.subtypes.getD 0 Siblings

/-- The tree `NESTED_ENUM((Branch), (A), (ENUM, A, (B, C), (ENUM, B, (D))))`: the only
entry of the root is a branch, which has a branch and a leaf. -/
def Branch : NestedEnum :=
  (NESTED_ENUM "Branch".data none [] [{ name := "A".data }]
    [.ENUM none [{ name := "B".data }, { name := "C".data }]
      [.ENUM none [{ name := "D".data }] []]]).get (by decide)

/-- The node `NESTED_ENUM((Pair), ((A, VAL, 1), (B, VAL, 1)))`, two entries of the same
ordinal and without ids. -/
def Pair : NestedEnum :=
  (NESTED_ENUM "Pair".data none [] [{ name := "A".data, val := some 1 },
    { name := "B".data, val := some 1 }] []).get (by decide)

/-- The node `NESTED_ENUM((Car), (Subcompact, (Compact, ID, "C-segment")))`. -/
def Car : NestedEnum :=
  (NESTED_ENUM "Car".data none [] [{ name := "Subcompact".data },
    { name := "Compact".data, id := some "C-segment".data }] []).get (by decide)

/-- The node `NESTED_ENUM((Unnamed), (Subcompact, (Compact, ID, "")))`: the id of `Compact`
is the empty string. -/
def Unnamed : NestedEnum :=
  (NESTED_ENUM "Unnamed".data none [] [{ name := "Subcompact".data },
    { name := "Compact".data, id := some [] }] []).get (by decide)

/-! ## Member functions of an instance -/

/-- The static member function `enum_name_and_id(E value, bool clean)`; the table
`enum_names_and_ids<All>(clean)` is instantiated whether or not the value is found. -/
def enum_name_and_id (E : NestedEnum) (value : Int) (clean : Bool := false) :
    Option (Option (fixed_string × Option fixed_string)) :=
  match enum_names_and_ids E .All clean with
  | none => none
  | some namesAndIds =>
    match find_index E.enumValues value with
    | none => some none
    | some index => (namesAndIds[index]?).map some

/-- The member function `enum_name(clean) const` of an instance that holds
`internalValue`: `enum_name(static_cast<const E &>(*this), clean).value()`; `value()` of
an empty optional has no result. -/
def member.enum_name (E : NestedEnum) (internalValue : Int) (clean : Bool := false) :
    Option fixed_string :=
  match nested_enum.enum_name E internalValue clean with
  | some (some name) => some name
  | _ => none

/-- The member function `enum_name_and_id(clean) const` of an instance that holds
`internalValue`: `enum_name_and_id(static_cast<const E &>(*this), clean).value()`. -/
def member.enum_name_and_id (E : NestedEnum) (internalValue : Int) (clean : Bool := false) :
    Option (fixed_string × Option fixed_string) :=
  match nested_enum.enum_name_and_id E internalValue clean with
  | some (some nameAndId) => some nameAndId
  | _ => none

/-! ## Vocabulary of the statements on strings -/

/-- The view that a struct named `internalName` gives to the structs of its entries, for
`create_name`, which reads nothing else of it. -/
def named (internalName : fixed_string) : parent_view :=
  { internalName := internalName, enumValues := [], enumIds := [], value := 0 }

/-- The name built level by level: `create_name` of the root, then `create_name` at each
depth with the name of the level above. -/
def level_by_level (globalPrefix root : fixed_string) (path : List fixed_string) : fixed_string :=
  path.foldl (fun parent name => create_name (some (named parent)) globalPrefix name)
    (create_name none globalPrefix root)

/-- A buffer made of strings that are each followed by `NUL`. -/
def buffer (strings : List fixed_string) : List Char :=
  strings.flatMap fun string => string ++ [NUL]

/-- The decimal text of a natural number, without sign. -/
def decimal (n : Nat) : List Char :=
  if n = 0 then ['0'] else (Nat.digits 10 n).reverse.map Nat.digitChar

/-- The decimal text of an integer, `-` first when it is negative, with `before` spaces in
front and `after` spaces behind; `body` is the text of the digits, which may hold digit
separators. -/
def legacy.padded (negative : Bool) (body : List Char) (before after : Nat) : List Char :=
  List.replicate before ' ' ++ (if negative then ['-'] else []) ++ body ++
    List.replicate after ' '

/-- The override `= V` of an item as it is stringified: the number of blanks behind `=`,
the text of the decimal literal, which may hold digit separators, the value `V` of the
literal, and the number of blanks behind the literal. -/
structure legacy.Override where
  blanks : Nat
  literal : List Char
  V : Nat
  after : Nat
deriving DecidableEq, Repr

/-- One item of an enumerator list as it is stringified: `left`, the name with the blanks
around it, and the override of `Name = V`. -/
structure legacy.Item where
  left : List Char
  override : Option legacy.Override := none
deriving DecidableEq, Repr

/-- The text of an item. -/
def legacy.Item.text (item : legacy.Item) : List Char :=
  match item.override with
  | none => item.left
  | some o =>
    item.left ++ '=' :: (List.replicate o.blanks ' ' ++ o.literal ++ List.replicate o.after ' ')

/-- The stringified list `#__VA_ARGS__`: the texts of the items with commas between them. -/
def legacy.stringify : List legacy.Item → List Char
  | [] => []
  | [item] => item.text
  | item :: items => item.text ++ ',' :: legacy.stringify items

/-- The entry that the new header declares for an item: `name` for `Name`, `(name, VAL, V)`
for `Name = V`. -/
def legacy.Item.entry (item : legacy.Item) : Entry :=
  { name := legacy.trim_white_space item.left
    val := item.override.map fun o => (o.V : Int) }

/-- The override that the new header takes for an item, by `NESTED_ENUM_INTERNAL_GET_VAL`. -/
def legacy.Item.opt (T : int_type) (item : legacy.Item) : opt :=
  GET_VAL T item.entry

/-- The override of the item is short enough for `get_int_from_string` to read the text from
`=` on in `int64_t` without overflow: the `=`, the blanks behind it and the digits of the
literal are at most 18 characters, so that `decimal`, multiplied by 10 after each of them,
stays at most `10 ^ 18`. -/
def legacy.Item.Short (item : legacy.Item) : Prop :=
  ∀ o ∈ item.override,
    1 + o.blanks + (o.literal.filter fun c => c ≠ legacy.separator).length ≤ 18

instance (item : legacy.Item) : Decidable item.Short := by
  unfold legacy.Item.Short; infer_instance

/-- The macro `NESTED_ENUM_DECLARE_STRUCT(typeName, ...)` of the legacy header,
`struct typeName;`, for one argument of the enumerator list: the argument is pasted whole
behind `struct`, which declares the struct of a name alone and is no declaration for an
argument `Name = V`. -/
def legacy.DECLARE_STRUCT (item : legacy.Item) : Option (List Char) :=
  match item.override with
  | none => some (legacy.trim_white_space item.left)
  | some _ => none

/-- The expansion `NESTED_ENUM_FOR_EACH(NESTED_ENUM_GET_FIRST_OF_ONE,
NESTED_ENUM_DECLARE_STRUCT, __VA_ARGS__)` of the legacy header: the structs declared for the
arguments, when each of them is declared. -/
def legacy.DECLARE_STRUCT.all : List legacy.Item → Option (List (List Char))
  | [] => some []
  | item :: items =>
    match legacy.DECLARE_STRUCT item, legacy.DECLARE_STRUCT.all items with
    | some typeName, some typeNames => some (typeName :: typeNames)
    | _, _ => none

/-- The macro `NESTED_ENUM(typeName, ...)` of the legacy header, of which the member
`enumValues` is kept: the declaration `enum Value : underlying_enum_type { __VA_ARGS__ }`
with `underlying_enum_type = int64_t`, the structs declared for the arguments, and
`get_array_of_values<Value, #__VA_ARGS__, false>()`. -/
def legacy.NESTED_ENUM (items : List legacy.Item) : Option (List Int) :=
  match DEFINE_ENUM .int64_t none (items.map legacy.Item.entry),
        legacy.DECLARE_STRUCT.all items with
  | some _, some _ => legacy.get_array_of_values (legacy.stringify items) .int64_t
  | _, _ => none

/-- The item is well formed: its name part is not empty and holds neither `,` nor `=`, and
the literal of its override is the decimal text of `V`, digit separators apart. -/
def legacy.Item.WellFormed (item : legacy.Item) : Prop :=
  item.left ≠ [] ∧ ',' ∉ item.left ∧ '=' ∉ item.left ∧
    ∀ o ∈ item.override, (o.literal.filter fun c => c ≠ legacy.separator) = decimal o.V

instance (item : legacy.Item) : Decidable item.WellFormed := by
  unfold legacy.Item.WellFormed; infer_instance

/-- The digits that the loop of `get_int_from_string` reads from characters taken from the
last to the first: the digit separators are left out and every other character counts by
`getDigit`. -/
def legacy.digits (characters : List Char) : List Nat :=
  (characters.filter fun c => c ≠ legacy.separator).map fun c => (legacy.getDigit c).toNat

/-! ## Facts about integer types -/

theorem int_type.wrap_add_wrap (T : int_type) (x y : Int) :
    T.wrap (T.wrap x + y) = T.wrap (x + y) := by
  cases T <;> simp [int_type.wrap, int_type.bits, int_type.isSigned] <;> omega

theorem int_type.wrap_wrap (T : int_type) (x : Int) : T.wrap (T.wrap x) = T.wrap x := by
  have h := T.wrap_add_wrap x 0
  simpa using h

theorem int_type.wrap_of_inRange (T : int_type) (x : Int) (h : T.InRange x) : T.wrap x = x := by
  revert h
  cases T <;>
    simp [int_type.wrap, int_type.InRange, int_type.minVal, int_type.maxVal, int_type.bits,
      int_type.isSigned] <;> omega

theorem int_type.wrap_succ (T : int_type) (x : Int) (h : T.InRange x) (hx : x < T.maxVal) :
    T.wrap (x + 1) = x + 1 :=
  T.wrap_of_inRange (x + 1) ⟨by have := h.1; omega, by omega⟩

theorem int_type.inRange_zero (T : int_type) : T.InRange 0 := by
  cases T <;> decide

theorem int_type.inRange_of_nonneg (T : int_type) (x : Int) (h0 : 0 ≤ x) (h1 : x ≤ T.maxVal) :
    T.InRange x := by
  refine ⟨?_, h1⟩
  have := (T.inRange_zero).1
  omega

/-! ## Facts about `get_array_of_values` -/

theorem get_array_of_values.ordinals_length (T : int_type) (values : List opt) (previous : Int) :
    (get_array_of_values.ordinals T previous values).length = values.length := by
  induction values generalizing previous with
  | nil => rfl
  | cons current values ih => simp [get_array_of_values.ordinals, ih]

theorem get_array_of_values.ordinals_zero (T : int_type) (current : opt) (values : List opt)
    (previous : Int) :
    (get_array_of_values.ordinals T previous (current :: values))[0]? =
      some (if current.isInitialised then current.value else previous) := by
  simp [get_array_of_values.ordinals]

theorem get_array_of_values.ordinals_succ (T : int_type) (values : List opt) (previous : Int) (i : Nat)
    (h : i + 1 < values.length) :
    (get_array_of_values.ordinals T previous values)[i + 1]? =
      some (if (values.getD (i + 1) {}).isInitialised then (values.getD (i + 1) {}).value
        else T.wrap ((get_array_of_values.ordinals T previous values).getD i 0 + 1)) := by
  induction values generalizing previous i with
  | nil => simp at h
  | cons current values ih =>
    cases i with
    | zero =>
      cases values with
      | nil => simp at h
      | cons next values => simp [get_array_of_values.ordinals]
    | succ k =>
      have hk : k + 1 < values.length := by simpa using h
      have := ih (T.wrap ((if current.isInitialised then current.value else previous) + 1)) k hk
      simpa [get_array_of_values.ordinals] using this

theorem get_array_of_values.ordinals_no_override (T : int_type) (mid post : List opt) (q : Int) (k : Nat)
    (hmid : ∀ o ∈ mid, o.isInitialised = false) (hq : T.wrap q = q) (hk : k < mid.length) :
    (get_array_of_values.ordinals T q (mid ++ post))[k]? = some (T.wrap (q + k)) := by
  induction mid generalizing q k with
  | nil => simp at hk
  | cons o mid ih =>
    have ho : o.isInitialised = false := hmid o (by simp)
    cases k with
    | zero => simp [get_array_of_values.ordinals, ho, hq]
    | succ k =>
      have hk2 : k < mid.length := by simpa using hk
      have := ih (T.wrap (q + 1)) k (fun o h => hmid o (by simp [h])) (T.wrap_wrap _) hk2
      simp only [List.cons_append, get_array_of_values.ordinals, ho, List.getElem?_cons_succ]
      rw [T.wrap_add_wrap] at this
      simpa [add_assoc, add_comm 1 (k : Int)] using this

/-- The loop has a result exactly when no entry of a signed type holds the largest value of
the type, and the result is then the table of the ordinals. -/
theorem get_array_of_values.loop_eq_some (T : int_type) (values : List opt) (previous : Int)
    (table : List Int) :
    get_array_of_values.loop T previous values = some table ↔
      table = get_array_of_values.ordinals T previous values ∧
        (T.isSigned = true → ∀ x ∈ table, x < T.maxVal) := by
  induction values generalizing previous table with
  | nil =>
    simp only [get_array_of_values.loop, get_array_of_values.ordinals, Option.some.injEq]
    constructor
    · rintro rfl
      exact ⟨rfl, by simp⟩
    · rintro ⟨rfl, _⟩
      rfl
  | cons current values ih =>
    simp only [get_array_of_values.loop, get_array_of_values.ordinals]
    generalize (if current.isInitialised = true then current.value else previous) = p
    by_cases hs : T.isSigned = true ∧ T.maxVal ≤ p
    · rw [if_pos hs]
      constructor
      · intro h
        cases h
      · rintro ⟨rfl, h⟩
        have := h hs.1 p (by simp)
        omega
    · rw [if_neg hs]
      cases hrec : get_array_of_values.loop T (T.wrap (p + 1)) values with
      | none =>
        refine ⟨fun h => (by cases h), ?_⟩
        rintro ⟨rfl, h⟩
        exfalso
        have key := (ih (T.wrap (p + 1))
          (get_array_of_values.ordinals T (T.wrap (p + 1)) values)).2
          ⟨rfl, fun hsig x hx => h hsig x (by simp [hx])⟩
        rw [hrec] at key
        cases key
      | some rest =>
        obtain ⟨hrest, hlt⟩ := (ih _ _).1 hrec
        simp only [Option.some.injEq]
        constructor
        · rintro rfl
          refine ⟨by rw [hrest], fun hsig x hx => ?_⟩
          rcases List.mem_cons.1 hx with rfl | hx
          · by_contra hx
            exact hs ⟨hsig, by omega⟩
          · exact hlt hsig x hx
        · rintro ⟨rfl, _⟩
          rw [hrest]

theorem get_array_of_values.eq_some (T : int_type) (values : List opt) (table : List Int)
    (h : get_array_of_values T values = some table) :
    table = get_array_of_values.ordinals T 0 values :=
  ((get_array_of_values.loop_eq_some T values 0 table).1 h).1

/-! ## Facts about `fixed_string` -/

theorem fixed_string.append_eq (self other : fixed_string) :
    fixed_string.append self other = self ++ other := by
  apply List.ext_getElem?
  intro k
  unfold fixed_string.append
  rw [List.getElem?_map]
  by_cases hk : k < self.length + other.length
  · rw [List.getElem?_range hk]
    by_cases h1 : k < self.length
    · simp [h1, List.getElem?_append_left h1, List.getD_eq_getElem?_getD, List.getElem?_eq_getElem h1]
    · have h2 : k - self.length < other.length := by omega
      simp [h1, List.getElem?_append_right (Nat.le_of_not_lt h1), List.getD_eq_getElem?_getD,
        List.getElem?_eq_getElem h2]
  · rw [List.getElem?_eq_none (by simpa using hk), List.getElem?_eq_none (by simpa using hk)]
    rfl

theorem fixed_string.append_full_eq (self other : fixed_string) :
    fixed_string.append_full self other = self ++ NUL :: other := by
  apply List.ext_getElem?
  intro k
  unfold fixed_string.append_full
  rw [List.getElem?_map]
  by_cases hk : k < self.length + 1 + other.length
  · rw [List.getElem?_range hk]
    by_cases h1 : k < self.length
    · simp [h1, List.getElem?_append_left h1, List.getD_eq_getElem?_getD, List.getElem?_eq_getElem h1]
    · by_cases h2 : k = self.length
      · subst h2
        simp [List.getElem?_append_right (Nat.le_refl _)]
      · have h3 : k - (self.length + 1) < other.length := by omega
        have h4 : k - self.length = (k - (self.length + 1)) + 1 := by omega
        simp [h1, h2, List.getElem?_append_right (Nat.le_of_not_lt h1), List.getD_eq_getElem?_getD,
          List.getElem?_eq_getElem h3, h4]
  · rw [List.getElem?_eq_none (by simp; omega), List.getElem?_eq_none (by simp; omega)]
    rfl

/-! ## Facts about the generated structs -/

theorem DEFINITION_enumValues_length (isLeafValue : Bool) (globalPrefix : fixed_string)
    (parent : Option parent_view) (typeName : fixed_string) (underlying : Option int_type)
    (entries : List Entry) :
    (DEFINITION.statics isLeafValue globalPrefix parent typeName underlying entries).enumValues.length =
      entries.length := by
  simp [DEFINITION.statics, get_array_of_values, get_array_of_values.ordinals_length]

theorem TREE__eq (P : members) (e : Entry) (value : Int) :
    TREE_ P e value =
      .mk true (DEFINITION.statics true P.internalGlobalPrefix (some (P.view value)) e.name none [])
        [] := rfl

theorem DEFINITION_some (isLeafValue : Bool) (globalPrefix : fixed_string)
    (parent : Option parent_view) (typeName : fixed_string) (underlying : Option int_type)
    (entries : List Entry) (m : members)
    (h : DEFINITION isLeafValue globalPrefix parent typeName underlying entries = some m) :
    m = DEFINITION.statics isLeafValue globalPrefix parent typeName underlying entries := by
  unfold DEFINITION at h
  by_cases he : entries.isEmpty = true
  · rw [if_pos he] at h
    have hnil : entries = [] := List.isEmpty_iff.1 he
    subst hnil
    injection h with h
    rw [← h]
    rfl
  · rw [if_neg he] at h
    simp only [BODY_CONTINUE] at h
    cases hd : DEFINE_ENUM (underlying.getD NESTED_ENUM_DEFAULT_ENUM_TYPE) none entries with
    | none => simp [hd] at h
    | some values =>
      cases hg : get_array_of_values (underlying.getD NESTED_ENUM_DEFAULT_ENUM_TYPE)
          (entries.map (GET_VAL (underlying.getD NESTED_ENUM_DEFAULT_ENUM_TYPE))) with
      | none => simp [hd, hg] at h
      | some enumValues =>
        simp only [hd, hg, Option.some.injEq] at h
        rw [← h, get_array_of_values.eq_some _ _ _ hg]
        rfl

mutual
theorem TREE_some (P : members) (e : Entry) (value : Int) :
    (s : Specialisation) → (T : NestedEnum) → TREE P e value s = some T →
      T = TREE.struct P e value s
  | .NONE, T, h => by
    simp only [TREE, Option.some.injEq] at h
    rw [← h, TREE.struct]
  | .ENUM underlying entries specialisations, T, h => by
    simp only [TREE] at h
    cases hm : DEFINITION false P.internalGlobalPrefix (some (P.view value)) e.name underlying
        entries with
    | none => simp [hm] at h
    | some m =>
      simp only [hm] at h
      cases hs : STRUCT_PREP m (entries.zip m.enumValues) specialisations with
      | none => simp [hs] at h
      | some subtypes =>
        simp only [hs, Option.some.injEq] at h
        have h1 := DEFINITION_some _ _ _ _ _ _ _ hm
        have h2 := STRUCT_PREP_some m (entries.zip m.enumValues) specialisations subtypes hs
        rw [← h, h2, TREE.struct, ← h1]
  | .DEFER, T, h => by
    simp only [TREE, Option.some.injEq] at h
    rw [← h, TREE.struct]
  | .DEFER_FROM underlying entries specialisations, T, h => by
    simp only [TREE] at h
    cases hm : DEFINITION false P.internalGlobalPrefix (some (P.view value)) e.name underlying
        entries with
    | none => simp [hm] at h
    | some m =>
      simp only [hm] at h
      cases hs : STRUCT_PREP m (entries.zip m.enumValues) specialisations with
      | none => simp [hs] at h
      | some subtypes =>
        simp only [hs, Option.some.injEq] at h
        have h1 := DEFINITION_some _ _ _ _ _ _ _ hm
        have h2 := STRUCT_PREP_some m (entries.zip m.enumValues) specialisations subtypes hs
        rw [← h, h2, TREE.struct, ← h1]
theorem STRUCT_PREP_some (P : members) (entries : List (Entry × Int)) :
    (specialisations : List Specialisation) → (Ts : List NestedEnum) →
      STRUCT_PREP P entries specialisations = some Ts →
      Ts = STRUCT_PREP.structs P entries specialisations
  | [], Ts, h => by
    simp only [STRUCT_PREP, Option.some.injEq] at h
    rw [← h, STRUCT_PREP.structs]
  | s :: specialisations, Ts, h => by
    cases entries with
    | nil =>
      simp only [STRUCT_PREP, Option.some.injEq] at h
      rw [← h, STRUCT_PREP.structs]
    | cons ev entries =>
      simp only [STRUCT_PREP] at h
      cases hT : TREE P ev.1 ev.2 s with
      | none => simp [hT] at h
      | some T =>
        cases hTs : STRUCT_PREP P entries specialisations with
        | none => simp [hT, hTs] at h
        | some rest =>
          simp only [hT, hTs, Option.some.injEq] at h
          rw [← h, STRUCT_PREP.structs, ← TREE_some P ev.1 ev.2 s T hT,
            ← STRUCT_PREP_some P entries specialisations rest hTs]
end

/-- A struct that `SETUP` builds is the struct of `SETUP.struct`: the facts about
`SETUP.struct` hold of every struct that was built. -/
theorem SETUP_some (isLeafValue : Bool) (globalPrefix : fixed_string)
    (parent : Option parent_view) (typeName : fixed_string) (underlying : Option int_type)
    (entries : List Entry) (specialisations : List Specialisation) (E : NestedEnum)
    (h : SETUP isLeafValue globalPrefix parent typeName underlying entries specialisations =
      some E) :
    E = SETUP.struct isLeafValue globalPrefix parent typeName underlying entries
      specialisations := by
  simp only [SETUP] at h
  cases hm : DEFINITION isLeafValue globalPrefix parent typeName underlying entries with
  | none => simp [hm] at h
  | some m =>
    simp only [hm] at h
    cases hs : STRUCT_PREP m (entries.zip m.enumValues) specialisations with
    | none => simp [hs] at h
    | some subtypes =>
      simp only [hs, Option.some.injEq] at h
      have h1 := DEFINITION_some _ _ _ _ _ _ _ hm
      have h2 := STRUCT_PREP_some m (entries.zip m.enumValues) specialisations subtypes hs
      rw [← h, h2, SETUP.struct, ← h1]

theorem TREE_NONE (P : members) (e : Entry) (value : Int) : TREE.struct P e value .NONE = TREE_ P e value := by
  simp [TREE.struct]

theorem STRUCT_PREP_length (P : members) (entries : List (Entry × Int))
    (specialisations : List Specialisation) :
    (STRUCT_PREP.structs P entries specialisations).length = entries.length := by
  induction specialisations generalizing entries with
  | nil => simp [STRUCT_PREP.structs]
  | cons s specialisations ih =>
    cases entries with
    | nil => simp [STRUCT_PREP.structs]
    | cons ev entries => simp [STRUCT_PREP.structs, ih]

theorem STRUCT_PREP_getElem? (P : members) (entries : List (Entry × Int))
    (specialisations : List Specialisation) (i : Nat) (h : i < entries.length) :
    (STRUCT_PREP.structs P entries specialisations)[i]? =
      some (TREE.struct P entries[i].1 entries[i].2 (specialisations.getD i .NONE)) := by
  induction specialisations generalizing entries i with
  | nil => simp [STRUCT_PREP.structs, TREE_NONE, List.getElem?_eq_getElem h]
  | cons s specialisations ih =>
    cases entries with
    | nil => simp at h
    | cons ev entries =>
      cases i with
      | zero => simp [STRUCT_PREP.structs]
      | succ i =>
        have hi : i < entries.length := by simpa using h
        simpa [STRUCT_PREP.structs] using ih entries i hi

theorem SETUP_statics (isLeafValue : Bool) (globalPrefix : fixed_string)
    (parent : Option parent_view) (typeName : fixed_string) (underlying : Option int_type)
    (entries : List Entry) (specialisations : List Specialisation) :
    (SETUP.struct isLeafValue globalPrefix parent typeName underlying entries specialisations).statics =
      DEFINITION.statics isLeafValue globalPrefix parent typeName underlying entries := rfl

theorem SETUP_enumValues_length (isLeafValue : Bool) (globalPrefix : fixed_string)
    (parent : Option parent_view) (typeName : fixed_string) (underlying : Option int_type)
    (entries : List Entry) (specialisations : List Specialisation) :
    (SETUP.struct isLeafValue globalPrefix parent typeName underlying entries
      specialisations).enumValues.length = entries.length :=
  DEFINITION_enumValues_length _ _ _ _ _ _

theorem SETUP_enumIds (isLeafValue : Bool) (globalPrefix : fixed_string)
    (parent : Option parent_view) (typeName : fixed_string) (underlying : Option int_type)
    (entries : List Entry) (specialisations : List Specialisation) :
    (SETUP.struct isLeafValue globalPrefix parent typeName underlying entries
      specialisations).enumIds = entries.map Entry.id := rfl

theorem SETUP_subtypes_length (isLeafValue : Bool) (globalPrefix : fixed_string)
    (parent : Option parent_view) (typeName : fixed_string) (underlying : Option int_type)
    (entries : List Entry) (specialisations : List Specialisation) :
    (SETUP.struct isLeafValue globalPrefix parent typeName underlying entries
      specialisations).subtypes.length = entries.length := by
  simp [SETUP.struct, NestedEnum.subtypes, STRUCT_PREP_length, DEFINITION_enumValues_length]

theorem SETUP_subtypes_getElem? (isLeafValue : Bool) (globalPrefix : fixed_string)
    (parent : Option parent_view) (typeName : fixed_string) (underlying : Option int_type)
    (entries : List Entry) (specialisations : List Specialisation) (i : Nat)
    (h : i < entries.length) :
    (SETUP.struct isLeafValue globalPrefix parent typeName underlying entries specialisations).subtypes[i]? =
      some (TREE.struct (DEFINITION.statics isLeafValue globalPrefix parent typeName underlying entries)
        entries[i]
        ((DEFINITION.statics isLeafValue globalPrefix parent typeName underlying entries).enumValues.getD i 0)
        (specialisations.getD i .NONE)) := by
  have hv := DEFINITION_enumValues_length isLeafValue globalPrefix parent typeName underlying entries
  have hz : i < (entries.zip (DEFINITION.statics isLeafValue globalPrefix parent typeName underlying
      entries).enumValues).length := by
    simp [List.length_zip, hv, h]
  simp only [SETUP.struct, NestedEnum.subtypes]
  rw [STRUCT_PREP_getElem? _ _ _ i hz]
  have hi : i < (DEFINITION.statics isLeafValue globalPrefix parent typeName underlying
      entries).enumValues.length := by omega
  simp [List.getElem_zip, List.getD_eq_getElem?_getD, List.getElem?_eq_getElem hi]

/-- Every defined struct of a generated tree is the result of `SETUP.struct`: the quantification
over the arguments of `SETUP.struct` ranges over every node of every tree. -/
theorem TREE_is_SETUP (P : members) (e : Entry) (value : Int) (s : Specialisation)
    (h : (TREE.struct P e value s).isComplete = true) :
    ∃ isLeafValue underlying entries specialisations,
      TREE.struct P e value s = SETUP.struct isLeafValue P.internalGlobalPrefix (some (P.view value)) e.name
        underlying entries specialisations := by
  cases s with
  | NONE => exact ⟨true, none, [], [], by simp [TREE.struct, TREE__eq, SETUP.struct, STRUCT_PREP.structs]⟩
  | ENUM underlying entries specialisations =>
    exact ⟨false, underlying, entries, specialisations, by simp [TREE.struct, SETUP.struct]⟩
  | DEFER => simp [TREE.struct, NestedEnum.isComplete] at h
  | DEFER_FROM underlying entries specialisations =>
    exact ⟨false, underlying, entries, specialisations, by simp [TREE.struct, SETUP.struct]⟩

theorem TREE_isComplete_isLeaf (P : members) (e : Entry) (value : Int) (s : Specialisation) :
    ((TREE.struct P e value s).isComplete && !(TREE.struct P e value s).isLeaf) = s.isEnum := by
  cases s <;>
    simp [TREE.struct, TREE__eq, NestedEnum.isComplete, NestedEnum.isLeaf, NestedEnum.statics, DEFINITION.statics,
      Specialisation.isEnum]

theorem TEST_INCLUSIVENESS_TREE_Inner (P : members) (e : Entry) (value : Int) (s : Specialisation) :
    classified .Inner (TREE.struct P e value s) = s.isEnum := by
  cases s <;>
    simp [TREE.struct, TREE__eq, classified, NestedEnum.isComplete, NestedEnum.isLeaf,
      NestedEnum.statics, DEFINITION.statics, Specialisation.isEnum, forward_declared]

theorem TEST_INCLUSIVENESS_TREE_Outer (P : members) (e : Entry) (value : Int) (s : Specialisation) :
    classified .Outer (TREE.struct P e value s) = !s.isEnum := by
  cases s <;>
    simp [TREE.struct, TREE__eq, classified, NestedEnum.isComplete, NestedEnum.isLeaf,
      NestedEnum.statics, DEFINITION.statics, Specialisation.isEnum, forward_declared]

theorem TEST_INCLUSIVENESS_All (T : NestedEnum) : classified .All T = true := by
  simp [classified]

theorem TEST_INCLUSIVENESS_Outer_eq (T : NestedEnum) :
    classified .Outer T = !classified .Inner T := by
  cases hc : T.isComplete <;> cases hl : T.isLeaf <;> simp [classified, hc, hl]

theorem TREE_internalName (P : members) (e : Entry) (value : Int) (s : Specialisation)
    (h : (TREE.struct P e value s).isComplete = true) :
    (TREE.struct P e value s).internalName = P.internalName ++ scopeResolution ++ e.name ∧
    (TREE.struct P e value s).statics.typeName = e.name := by
  cases s <;>
    simp_all [TREE.struct, TREE__eq, NestedEnum.isComplete, NestedEnum.internalName, NestedEnum.statics,
      DEFINITION.statics, create_name, members.view, fixed_string.append_eq]

/-! ## Facts about the selection loops -/

theorem List.take_succ_set {α : Type} (l : List α) (i : Nat) (b : α) (h : i < l.length) :
    (l.set i b).take (i + 1) = l.take i ++ [b] := by
  induction l generalizing i with
  | nil => simp at h
  | cons a l ih =>
    cases i with
    | zero => simp
    | succ i => simp [ih i (by simpa using h)]

theorem TEST_INCLUSIVENESS_eq (Selection : InnerOuterAll) (T : NestedEnum)
    (h : T.isComplete = true) : TEST_INCLUSIVENESS Selection T = some (classified Selection T) := by
  simp [TEST_INCLUSIVENESS, classified, h]

theorem TEST_INCLUSIVENESS_none (Selection : InnerOuterAll) (T : NestedEnum)
    (h : T.isComplete = false) : TEST_INCLUSIVENESS Selection T = none := by
  simp [TEST_INCLUSIVENESS, h]

theorem get_needed_values_loop_eq (Selection : InnerOuterAll) (Ts : List NestedEnum)
    (size index : Nat) (valuesNeeded : List Bool) (h : index + Ts.length = valuesNeeded.length)
    (hdef : ∀ T ∈ Ts, T.isComplete = true) :
    get_needed_values.loop Selection Ts size index valuesNeeded =
      some (valuesNeeded.take index ++ Ts.map (classified Selection),
        size + ((Ts.map (classified Selection)).filter fun b => b).length) := by
  induction Ts generalizing size index valuesNeeded with
  | nil =>
    simp at h
    simp [get_needed_values.loop, h]
  | cons T Ts ih =>
    have hi : index < valuesNeeded.length := by simp at h; omega
    have hlen : ∀ b, index + 1 + Ts.length = (valuesNeeded.set index b).length := by
      intro b; simp at h ⊢; omega
    have hrest : ∀ U ∈ Ts, U.isComplete = true := fun U hU => hdef U (by simp [hU])
    rw [get_needed_values.loop, TEST_INCLUSIVENESS_eq Selection T (hdef T (by simp))]
    cases hT : classified Selection T
    · simp only []
      rw [ih _ _ _ (hlen false) hrest, List.take_succ_set _ _ _ hi]
      simp [hT]
    · simp only []
      rw [ih _ _ _ (hlen true) hrest, List.take_succ_set _ _ _ hi]
      simp [hT]
      omega

/-- With an entry left forward declared the fold of `get_needed_values` does not build. -/
theorem get_needed_values_loop_none (Selection : InnerOuterAll) (Ts : List NestedEnum)
    (size index : Nat) (valuesNeeded : List Bool) (hdef : ∃ T ∈ Ts, T.isComplete = false) :
    get_needed_values.loop Selection Ts size index valuesNeeded = none := by
  induction Ts generalizing size index valuesNeeded with
  | nil => simp at hdef
  | cons T Ts ih =>
    rw [get_needed_values.loop]
    cases hc : T.isComplete
    · rw [TEST_INCLUSIVENESS_none Selection T hc]
    · have hrest : ∃ U ∈ Ts, U.isComplete = false := by
        obtain ⟨U, hU, hUc⟩ := hdef
        rcases List.mem_cons.1 hU with rfl | hU
        · rw [hc] at hUc
          cases hUc
        · exact ⟨U, hU, hUc⟩
      rw [TEST_INCLUSIVENESS_eq Selection T hc]
      cases classified Selection T
      · exact ih _ _ _ hrest
      · exact ih _ _ _ hrest

theorem get_needed_values_eq (E : NestedEnum) (Selection : InnerOuterAll)
    (h : E.subtypes.length = E.enumValues.length) (hdef : EntriesDefined E) :
    get_needed_values E Selection E.subtypes =
      some (classification E Selection,
        ((classification E Selection).filter fun b => b).length) := by
  rw [get_needed_values, get_needed_values_loop_eq _ _ _ _ _ (by simp [h]) hdef]
  simp [classification]

theorem selected_eq (E : NestedEnum) (Selection : InnerOuterAll)
    (h : E.subtypes.length = E.enumValues.length) (hdef : EntriesDefined E) (i : Nat) :
    selected E Selection i = some ((classification E Selection).getD i false) := by
  rw [selected, get_needed_values_eq E Selection h hdef]
  rfl

theorem SETUP_selected (isLeafValue : Bool) (globalPrefix : fixed_string)
    (parent : Option parent_view) (typeName : fixed_string) (underlying : Option int_type)
    (entries : List Entry) (specialisations : List Specialisation) (Selection : InnerOuterAll)
    (i : Nat) (h : i < entries.length)
    (hdef : EntriesDefined (SETUP.struct isLeafValue globalPrefix parent typeName underlying
      entries specialisations)) :
    selected (SETUP.struct isLeafValue globalPrefix parent typeName underlying entries specialisations)
        Selection i =
      some (classified Selection
        (TREE.struct (DEFINITION.statics isLeafValue globalPrefix parent typeName underlying entries)
          entries[i]
          ((DEFINITION.statics isLeafValue globalPrefix parent typeName underlying
            entries).enumValues.getD i 0)
          (specialisations.getD i .NONE))) := by
  rw [selected_eq _ _ (by rw [SETUP_subtypes_length, SETUP_enumValues_length]) hdef]
  simp [classification, List.getD_eq_getElem?_getD, List.getElem?_map,
    SETUP_subtypes_getElem? _ _ _ _ _ _ _ i h]

/-! ## Facts about `enum_count` -/

theorem foldl_count {α : Type} (p : α → Bool) (l : List α) (k : Nat) :
    l.foldl (fun total T => if p T then total + 1 else total) k = k + (l.filter p).length := by
  induction l generalizing k with
  | nil => simp
  | cons a l ih =>
    cases h : p a <;> simp [ih, h]
    omega

theorem filter_Inner_add_Outer (Ts : List NestedEnum) :
    (Ts.filter (classified .Inner)).length + (Ts.filter (classified .Outer)).length =
      Ts.length := by
  induction Ts with
  | nil => rfl
  | cons T Ts ih =>
    cases h : classified .Inner T <;>
      simp [List.filter_cons, h, TEST_INCLUSIVENESS_Outer_eq T] <;> omega

theorem getTotal_eq (Selection : InnerOuterAll) (Ts : List NestedEnum) (total : Nat)
    (hdef : ∀ T ∈ Ts, T.isComplete = true) :
    enum_count.getTotal Selection Ts total =
      some (total + (Ts.filter (classified Selection)).length) := by
  induction Ts generalizing total with
  | nil => simp [enum_count.getTotal]
  | cons T Ts ih =>
    have hrest : ∀ U ∈ Ts, U.isComplete = true := fun U hU => hdef U (by simp [hU])
    rw [enum_count.getTotal, TEST_INCLUSIVENESS_eq Selection T (hdef T (by simp))]
    cases hT : classified Selection T
    · simp only []
      rw [ih _ hrest]
      simp [List.filter_cons, hT]
    · simp only []
      rw [ih _ hrest]
      simp [List.filter_cons, hT]
      omega

/-- With an entry left forward declared the fold of `enum_count` does not build. -/
theorem getTotal_none (Selection : InnerOuterAll) (Ts : List NestedEnum) (total : Nat)
    (hdef : ∃ T ∈ Ts, T.isComplete = false) :
    enum_count.getTotal Selection Ts total = none := by
  induction Ts generalizing total with
  | nil => simp at hdef
  | cons T Ts ih =>
    rw [enum_count.getTotal]
    cases hc : T.isComplete
    · rw [TEST_INCLUSIVENESS_none Selection T hc]
    · have hrest : ∃ U ∈ Ts, U.isComplete = false := by
        obtain ⟨U, hU, hUc⟩ := hdef
        rcases List.mem_cons.1 hU with rfl | hU
        · rw [hc] at hUc
          cases hUc
        · exact ⟨U, hU, hUc⟩
      rw [TEST_INCLUSIVENESS_eq Selection T hc]
      cases classified Selection T
      · exact ih _ hrest
      · exact ih _ hrest

theorem enum_count_eq (E : NestedEnum) (Selection : InnerOuterAll)
    (h : E.subtypes.length = E.enumValues.length) (hdef : EntriesDefined E) :
    enum_count E Selection = some ((classification E Selection).filter fun b => b).length := by
  have hmap : ∀ S, ((classification E S).filter fun b => b).length =
      (E.subtypes.filter (classified S)).length := by
    intro S
    simp [classification, List.filter_map, Function.comp_def]
  rw [hmap]
  unfold enum_count
  by_cases h0 : E.enumValues.length = 0
  · have : E.subtypes = [] := List.length_eq_zero.1 (by omega)
    simp [h0, this]
  · rw [if_neg h0, getTotal_eq Selection E.subtypes 0 hdef]
    by_cases hA : Selection = .All
    · subst hA
      simp only [if_true]
      rw [← h]
      have : E.subtypes.filter (classified .All) = E.subtypes :=
        List.filter_eq_self.2 (fun T _ => TEST_INCLUSIVENESS_All T)
      rw [this]
    · simp only [if_neg hA]
      simp

theorem enum_count_All_eq (E : NestedEnum) (h : E.subtypes.length = E.enumValues.length)
    (hdef : EntriesDefined E) :
    enum_count E .All = some E.subtypes.length := by
  rw [enum_count_eq E .All h hdef]
  simp [classification, List.filter_map, Function.comp_def, TEST_INCLUSIVENESS_All]

/-- On a node with entries of which one is left forward declared, `enum_count` does not
build, whatever the selection. -/
theorem enum_count_none (E : NestedEnum) (Selection : InnerOuterAll)
    (h0 : E.enumValues.length ≠ 0) (hdef : ¬ EntriesDefined E) :
    enum_count E Selection = none := by
  unfold enum_count
  rw [if_neg h0, getTotal_none Selection E.subtypes 0]
  unfold EntriesDefined at hdef
  push_neg at hdef
  obtain ⟨T, hT, hc⟩ := hdef
  exact ⟨T, hT, by simpa using hc⟩

/-! ## Facts about the copy loop -/

theorem subsequence_nil {α : Type} (flags : List Bool) : subsequence flags ([] : List α) = [] := by
  simp [subsequence]

theorem subsequence_cons {α : Type} (b : Bool) (flags : List Bool) (x : α) (xs : List α) :
    subsequence (b :: flags) (x :: xs) = if b then x :: subsequence flags xs else subsequence flags xs := by
  cases b <;> simp [subsequence]

theorem subsequence_length {α : Type} (flags : List Bool) (xs : List α)
    (h : xs.length = flags.length) :
    (subsequence flags xs).length = (flags.filter fun b => b).length := by
  induction flags generalizing xs with
  | nil => simp [subsequence]
  | cons b flags ih =>
    cases xs with
    | nil => simp at h
    | cons x xs =>
      have := ih xs (by simpa using h)
      cases b <;> simp [subsequence_cons, this]

theorem subsequence_all {α : Type} (flags : List Bool) (xs : List α)
    (h : xs.length = flags.length) (hall : ∀ b ∈ flags, b = true) : subsequence flags xs = xs := by
  induction flags generalizing xs with
  | nil =>
    have : xs = [] := List.length_eq_zero.1 (by simpa using h)
    simp [subsequence, this]
  | cons b flags ih =>
    cases xs with
    | nil => simp at h
    | cons x xs =>
      have hb : b = true := hall b (by simp)
      have := ih xs (by simpa using h) (fun c hc => hall c (by simp [hc]))
      simp [subsequence_cons, hb, this]

theorem copy_needed_loop_eq {α : Type} (f : Nat → Option α) (flags : List Bool) (i j : Nat)
    (values xs : List α) (hlen : xs.length = flags.length)
    (hf : ∀ k (hk : k < xs.length), f (i + k) = some xs[k])
    (hj : j + (subsequence flags xs).length ≤ values.length) :
    copy_needed.loop f flags i j values =
      some (values.take j ++ subsequence flags xs ++
        values.drop (j + (subsequence flags xs).length)) := by
  induction flags generalizing i j values xs with
  | nil =>
    have : xs = [] := List.length_eq_zero.1 (by simpa using hlen)
    subst this
    simp [copy_needed.loop, subsequence]
  | cons b flags ih =>
    cases xs with
    | nil => simp at hlen
    | cons x xs =>
      have hlen2 : xs.length = flags.length := by simpa using hlen
      have hf2 : ∀ k (hk : k < xs.length), f (i + 1 + k) = some xs[k] := by
        intro k hk
        have := hf (k + 1) (by simpa using hk)
        simpa [Nat.add_assoc, Nat.add_comm 1 k] using this
      have hf0 : f i = some x := by simpa using hf 0 (by simp)
      cases b with
      | false =>
        rw [subsequence_cons] at hj ⊢
        simp only [Bool.false_eq_true, if_false] at hj ⊢
        rw [copy_needed.loop]
        simp only [Bool.false_eq_true, if_false]
        exact ih (i + 1) j values xs hlen2 hf2 hj
      | true =>
        rw [subsequence_cons] at hj ⊢
        simp only [if_true, List.length_cons] at hj ⊢
        have hjv : j < values.length := by omega
        rw [copy_needed.loop]
        simp only [if_true, hf0]
        rw [ih (i + 1) (j + 1) (values.set j x) xs hlen2 hf2 (by simp; omega),
          List.take_succ_set _ _ _ hjv, List.drop_set_of_lt _ _ (by omega)]
        simp [Nat.add_assoc, Nat.add_comm 1]

theorem copy_needed_eq {α : Type} (f : Nat → Option α) (flags : List Bool) (xs : List α) (dflt : α)
    (hlen : xs.length = flags.length) (hf : ∀ k (hk : k < xs.length), f k = some xs[k]) :
    copy_needed (some (flags, (flags.filter fun b => b).length)) f dflt =
      some (subsequence flags xs) := by
  have hs := subsequence_length flags xs hlen
  rw [copy_needed, copy_needed_loop_eq f flags 0 0 _ xs hlen (by simpa using hf)
    (by simp [hs])]
  simp [hs]

/-! ## Facts about the name buffer -/

theorem get_string_values_cons (type value : fixed_string) (values : List fixed_string) :
    get_string_values type (value :: values) =
      (type ++ scopeResolution ++ value) ++ NUL :: get_string_values type values := by
  cases values with
  | nil =>
    simp [get_string_values, fixed_string.append_eq, fixed_string.append_full_eq]
  | cons next values =>
    simp [get_string_values, fixed_string.append_eq, fixed_string.append_full_eq]

theorem get_substring.scan_zero (rest : List Char) : get_substring.scan rest 0 = some rest := by
  cases rest <;> simp [get_substring.scan]

theorem get_substring.scan_skip (w rest : List Char) (k : Nat) (hw : NulFree w) :
    get_substring.scan (w ++ NUL :: rest) (k + 1) = get_substring.scan rest k := by
  induction w with
  | nil => simp [get_substring.scan]
  | cons c w ih =>
    have hc : c ≠ NUL := fun h => hw (by simp [h])
    have hw2 : NulFree w := fun h => hw (by simp [h])
    simp [get_substring.scan, hc, ih hw2]

theorem NulFree_qualified (type value : fixed_string) (ht : NulFree type) (hv : NulFree value) :
    NulFree (type ++ scopeResolution ++ value) := by
  unfold NulFree at *
  simp only [List.mem_append, not_or]
  exact ⟨⟨ht, by decide⟩, hv⟩

theorem get_substring.scan_buffer (type : fixed_string) (values : List fixed_string) (k : Nat)
    (ht : NulFree type) (hv : ∀ v ∈ values, NulFree v) (hk : k < values.length) :
    get_substring.scan (get_string_values type values) k =
      some ((type ++ scopeResolution ++ values[k]) ++
        NUL :: get_string_values type (values.drop (k + 1))) := by
  induction values generalizing k with
  | nil => simp at hk
  | cons value values ih =>
    rw [get_string_values_cons]
    cases k with
    | zero =>
      rw [get_substring.scan_zero]
      simp
    | succ k =>
      rw [get_substring.scan_skip _ _ _ (NulFree_qualified _ _ ht (hv value (by simp)))]
      rw [ih k (fun v h => hv v (by simp [h])) (by simpa using hk)]
      simp

theorem takeWhile_not_NUL (w rest : List Char) (hw : NulFree w) :
    (w ++ NUL :: rest).takeWhile (fun x => x ≠ NUL) = w := by
  induction w with
  | nil => simp
  | cons c w ih =>
    have hc : c ≠ NUL := fun h => hw (by simp [h])
    have hw2 : NulFree w := fun h => hw (by simp [h])
    simpa [List.takeWhile_cons, hc] using ih hw2

theorem get_substring_of_scan (allStrings w rest : List Char) (index : Nat) (clean : Bool)
    (hw : NulFree w)
    (hscan : get_substring.scan allStrings index = some (w ++ NUL :: rest)) :
    get_substring allStrings index clean = if clean then remove_scope w else some w := by
  rw [get_substring, hscan]
  have := takeWhile_not_NUL w rest hw
  cases hq : w ++ NUL :: rest with
  | nil => simp at hq
  | cons c r =>
    rw [hq] at this
    simp only [this]

theorem get_substring_buffer (type : fixed_string) (values : List fixed_string) (k : Nat)
    (clean : Bool) (ht : NulFree type) (hv : ∀ v ∈ values, NulFree v) (hk : k < values.length) :
    get_substring (get_string_values type values) k clean =
      if clean then remove_scope (type ++ scopeResolution ++ values[k])
      else some (type ++ scopeResolution ++ values[k]) :=
  get_substring_of_scan _ _ _ _ _ (NulFree_qualified _ _ ht (hv _ (List.getElem_mem hk)))
    (get_substring.scan_buffer type values k ht hv hk)

theorem rfind_found (view scope : List Char) (pos : Nat) (hpos : pos ≤ view.length)
    (h : scope.isPrefixOf (view.drop pos) = true) :
    rfind view scope + scope.length ≤ view.length := by
  unfold rfind
  cases hf : (List.range (view.length + 1)).reverse.find?
      fun pos => scope.isPrefixOf (view.drop pos) with
  | none =>
    rw [List.find?_eq_none] at hf
    have := hf pos (by simp; omega)
    simp [h] at this
  | some p =>
    have hp := List.find?_some hf
    simp only at hp ⊢
    have hpre : scope <+: view.drop p := List.isPrefixOf_iff_prefix.1 hp
    have hle := hpre.length_le
    have hmem := List.mem_of_find?_eq_some hf
    simp at hmem hle
    omega

theorem remove_scope_qualified (type value : fixed_string) :
    ∃ r, remove_scope (type ++ scopeResolution ++ value) = some r := by
  have h := rfind_found (type ++ scopeResolution ++ value) scopeResolution type.length
    (by simp) (by simp [List.isPrefixOf_iff_prefix])
  unfold remove_scope
  have hmod : (rfind (type ++ scopeResolution ++ value) scopeResolution + scopeResolution.length)
      % 2 ^ 64 ≤ (type ++ scopeResolution ++ value).length :=
    Nat.le_trans (Nat.mod_le _ _) h
  simp only [hmod, if_true]
  exact ⟨_, rfl⟩

theorem get_substring_buffer_some (type : fixed_string) (values : List fixed_string) (k : Nat)
    (clean : Bool) (ht : NulFree type) (hv : ∀ v ∈ values, NulFree v) (hk : k < values.length) :
    ∃ r, get_substring (get_string_values type values) k clean = some r := by
  rw [get_substring_buffer type values k clean ht hv hk]
  cases clean
  · exact ⟨_, rfl⟩
  · simpa using remove_scope_qualified type values[k]

/-! ## Facts about the filtered tables -/

theorem classification_length (E : NestedEnum) (Selection : InnerOuterAll) :
    (classification E Selection).length = E.subtypes.length := by
  simp [classification]

theorem classification_All (E : NestedEnum) : ∀ b ∈ classification E .All, b = true := by
  intro b hb
  simp only [classification, List.mem_map] at hb
  obtain ⟨T, _, hT⟩ := hb
  rw [← hT, TEST_INCLUSIVENESS_All]

theorem filtered_table_eq {α : Type} (E : NestedEnum) (Selection : InnerOuterAll)
    (table : List α) (dflt : α) (hl : E.subtypes.length = E.enumValues.length)
    (ht : table.length = E.subtypes.length) (hdef : Selection = .All ∨ EntriesDefined E) :
    (if table.length = 0 ∨ Selection = .All then some table
      else copy_needed (get_needed_values E Selection E.subtypes) (fun i => table[i]?) dflt) =
      some (subsequence (classification E Selection) table) := by
  by_cases h0 : table.length = 0
  · have : table = [] := List.length_eq_zero.1 h0
    simp [this, subsequence_nil]
  · by_cases hA : Selection = .All
    · subst hA
      rw [if_pos (Or.inr rfl), subsequence_all _ _ (by rw [classification_length, ht])
        (classification_All E)]
    · rw [if_neg (by simp [h0, hA]),
        get_needed_values_eq E Selection hl (hdef.resolve_left hA)]
      exact copy_needed_eq _ _ table dflt (by rw [classification_length, ht])
        (fun k hk => List.getElem?_eq_getElem hk)

theorem enum_values_eq (E : NestedEnum) (Selection : InnerOuterAll)
    (hl : E.subtypes.length = E.enumValues.length) (hdef : Selection = .All ∨ EntriesDefined E) :
    enum_values E Selection = some (subsequence (classification E Selection) E.enumValues) :=
  filtered_table_eq E Selection E.enumValues 0 hl hl.symm hdef

theorem enum_ids_eq (E : NestedEnum) (Selection : InnerOuterAll)
    (hl : E.subtypes.length = E.enumValues.length) (hi : E.enumIds.length = E.subtypes.length)
    (hdef : Selection = .All ∨ EntriesDefined E) :
    enum_ids E Selection = some (subsequence (classification E Selection) E.enumIds) :=
  filtered_table_eq E Selection E.enumIds none hl hi hdef

/-- The table of all names of a struct, read entry by entry from its buffer. -/
theorem generateStrings_eq (E : NestedEnum) (Selection : InnerOuterAll) (clean : Bool)
    (type : fixed_string) (values : List fixed_string)
    (hl : E.subtypes.length = E.enumValues.length) (hn : values.length = E.subtypes.length)
    (hbuf : E.enumNames = get_string_values type values)
    (ht : NulFree type) (hv : ∀ v ∈ values, NulFree v) (hdef : EntriesDefined E) :
    enum_names.generateStrings E Selection clean =
      some (subsequence (classification E Selection)
        ((List.range values.length).map fun k =>
          (get_substring (get_string_values type values) k clean).getD [])) := by
  rw [enum_names.generateStrings, get_needed_values_eq E Selection hl hdef, hbuf]
  apply copy_needed_eq
  · simp [classification_length, hn]
  · intro k hk
    have hk2 : k < values.length := by simpa using hk
    obtain ⟨r, hr⟩ := get_substring_buffer_some type values k clean ht hv hk2
    simp [hr]

theorem enum_names_eq (E : NestedEnum) (Selection : InnerOuterAll) (clean : Bool)
    (type : fixed_string) (values : List fixed_string)
    (hl : E.subtypes.length = E.enumValues.length) (hn : values.length = E.subtypes.length)
    (hbuf : E.enumNames = get_string_values type values)
    (ht : NulFree type) (hv : ∀ v ∈ values, NulFree v) (hdef : EntriesDefined E) :
    enum_names E Selection clean =
      some (subsequence (classification E Selection)
        ((List.range values.length).map fun k =>
          (get_substring (get_string_values type values) k clean).getD [])) := by
  unfold enum_names
  rw [enum_count_eq E Selection hl hdef]
  have hs := subsequence_length (classification E Selection)
    ((List.range values.length).map fun k =>
      (get_substring (get_string_values type values) k clean).getD [])
    (by simp [classification_length, hn])
  cases hc : ((classification E Selection).filter fun b => b).length with
  | zero =>
    rw [hc] at hs
    rw [List.length_eq_zero.1 hs]
  | succ n =>
    simp only []
    rw [generateStrings_eq E Selection false type values hl hn hbuf ht hv hdef,
      generateStrings_eq E Selection true type values hl hn hbuf ht hv hdef]
    cases clean <;> rfl

/-- On a node with entries of which one is left forward declared, `enum_names` does not
build, whatever the selection. -/
theorem enum_names_none (E : NestedEnum) (Selection : InnerOuterAll) (clean : Bool)
    (h0 : E.enumValues.length ≠ 0) (hdef : ¬ EntriesDefined E) :
    enum_names E Selection clean = none := by
  unfold enum_names
  rw [enum_count_none E Selection h0 hdef]

/-! ## Selection (C1, C2) -/

/-- Counterexample to C1 as stated: in `Vehicle{Land{Car, Truck}, Watercraft}` the entry `Land`
has a child node none of whose entries has a child, so the specification's definition makes
it Outer and not Inner, while the code selects it by Inner and not by Outer; the same holds
for an entry declared `ENUM` with no entries at all. -/
theorem C1_counterexample :
    (selected Vehicle .Inner 0 = some true ∧
      spec_Inner (Vehicle.specialisations.getD 0 .NONE) = false ∧
      selected Vehicle .Outer 0 = some false ∧
      spec_Outer (Vehicle.specialisations.getD 0 .NONE) = true) ∧
    (selected Root .Inner 0 = some true ∧ spec_Inner (.ENUM none [] []) = false) := by
  decide

/-- C1 (amended): for every node of which no entry is left forward declared, and every entry
of it, the entry is selected by Inner exactly when it has a child node (it was declared with
`ENUM` or defined with `NESTED_ENUM_FROM`), whether or not that child node has entries with
children, and it is selected by Outer exactly when it has no child node. -/
theorem C1_selection_by_child (E : NestedEnum) (isLeafValue : Bool) (globalPrefix : fixed_string)
    (parent : Option parent_view) (typeName : fixed_string) (underlying : Option int_type)
    (entries : List Entry) (specialisations : List Specialisation) (i : Nat)
    (hE : SETUP isLeafValue globalPrefix parent typeName underlying entries specialisations =
      some E)
    (hdef : EntriesDefined E) (h : i < entries.length) :
    selected E .Inner i = some (spec_has_child (specialisations.getD i .NONE)) ∧
    selected E .Outer i = some (!spec_has_child (specialisations.getD i .NONE)) := by
  obtain rfl := SETUP_some _ _ _ _ _ _ _ _ hE
  rw [SETUP_selected _ _ _ _ _ _ _ _ i h hdef, SETUP_selected _ _ _ _ _ _ _ _ i h hdef,
    TEST_INCLUSIVENESS_TREE_Inner, TEST_INCLUSIVENESS_TREE_Outer]
  exact ⟨rfl, rfl⟩

/-- Witness of C1 (amended): the entry `Land` of `Vehicle`. -/
theorem C1_selection_by_child_witness :
    EntriesDefined Vehicle ∧
    selected Vehicle .Inner 0 = some true ∧ selected Vehicle .Outer 0 = some false :=
  ⟨by decide,
    C1_selection_by_child Vehicle false [] none "Vehicle".data none Vehicle.entries
      Vehicle.specialisations 0 rfl (by decide) (by decide)⟩

/-- The selection of the entries of a node of which no entry is left forward declared: an
entry is selected by Inner exactly when its struct has `isLeaf = false`, which is exactly
when it was declared with `ENUM` or defined later with `NESTED_ENUM_FROM`, by Outer exactly
when it is not, and by All always. -/
theorem selection_by_enum (E : NestedEnum) (isLeafValue : Bool) (globalPrefix : fixed_string)
    (parent : Option parent_view) (typeName : fixed_string) (underlying : Option int_type)
    (entries : List Entry) (specialisations : List Specialisation) (i : Nat)
    (hE : SETUP isLeafValue globalPrefix parent typeName underlying entries specialisations =
      some E)
    (hdef : EntriesDefined E) (h : i < entries.length) :
    ∃ T, E.subtypes[i]? = some T ∧
      ((T.isComplete && !T.isLeaf) = (specialisations.getD i .NONE).isEnum) ∧
      selected E .Inner i = some (T.isComplete && !T.isLeaf) ∧
      selected E .Outer i = some (!(T.isComplete && !T.isLeaf)) ∧
      selected E .All i = some true := by
  obtain rfl := SETUP_some _ _ _ _ _ _ _ _ hE
  refine ⟨_, SETUP_subtypes_getElem? _ _ _ _ _ _ _ i h, TREE_isComplete_isLeaf _ _ _ _, ?_, ?_, ?_⟩
  · rw [SETUP_selected _ _ _ _ _ _ _ _ i h hdef, TEST_INCLUSIVENESS_TREE_Inner,
      TREE_isComplete_isLeaf]
  · rw [SETUP_selected _ _ _ _ _ _ _ _ i h hdef, TEST_INCLUSIVENESS_TREE_Outer,
      TREE_isComplete_isLeaf]
  · rw [SETUP_selected _ _ _ _ _ _ _ _ i h hdef, TEST_INCLUSIVENESS_All]

/-- C2, at the tree `NESTED_ENUM((Deferred), (A, B), (DEFER))`: the struct of `A` is
forward declared and never defined, so the header documents `A` as an entry of Outer; but
`TEST_INCLUSIVENESS` names `A::isLeaf`, and neither the flags of `get_needed_values` nor
`enum_values<Outer>()`, `enum_values<Inner>()` or `enum_count` build, while
`enum_values<All>()`, which does not use the macro, returns both ordinals. -/
theorem C2_selection_of_deferred :
    (Deferred.subtypes.map NestedEnum.isComplete = [false, true]) ∧
    classified .Outer (Deferred.subtypes.getD 0 Deferred) = true ∧
    TEST_INCLUSIVENESS .Outer (Deferred.subtypes.getD 0 Deferred) = none ∧
    selected Deferred .Outer 0 = none ∧
    enum_values Deferred .Outer = none ∧
    enum_values Deferred .Inner = none ∧
    enum_count Deferred .Outer = none ∧
    enum_count Deferred .All = none ∧
    enum_values Deferred .All = some [0, 1] := by
  decide

/-! ## Counting (C3, C4, C5) -/

/-- C3: for every node of which no entry is left forward declared, `enum_count(All)` equals
the number of entries declared in the node, which is the length of its ordinal table; a node
with zero entries is included. -/
theorem C3_count_all (E : NestedEnum) (isLeafValue : Bool) (globalPrefix : fixed_string)
    (parent : Option parent_view) (typeName : fixed_string) (underlying : Option int_type)
    (entries : List Entry) (specialisations : List Specialisation)
    (hE : SETUP isLeafValue globalPrefix parent typeName underlying entries specialisations =
      some E)
    (hdef : EntriesDefined E) :
    enum_count E .All = some entries.length ∧
    enum_count E .All = some E.enumValues.length ∧
    (entries = [] → enum_count E .All = some 0) := by
  obtain rfl := SETUP_some _ _ _ _ _ _ _ _ hE
  have hv := SETUP_enumValues_length isLeafValue globalPrefix parent typeName underlying entries
    specialisations
  have hs := SETUP_subtypes_length isLeafValue globalPrefix parent typeName underlying entries
    specialisations
  have key := enum_count_All_eq _ (by rw [hs, hv]) hdef
  rw [hs] at key
  refine ⟨key, by rw [key, hv], fun he => ?_⟩
  rw [key, he]
  rfl

/-- Witness of C3: `Vehicle` has two entries. -/
theorem C3_count_all_witness :
    EntriesDefined Vehicle ∧ enum_count Vehicle .All = some 2 :=
  ⟨by decide,
    (C3_count_all Vehicle false [] none "Vehicle".data none Vehicle.entries
      Vehicle.specialisations rfl (by decide)).1⟩

/-- C4: for every node of which no entry is left forward declared, `enum_count(Inner) +
enum_count(Outer) = enum_count(All)`, and every entry is selected by exactly one of Inner
and Outer. -/
theorem C4_inner_plus_outer (E : NestedEnum) (isLeafValue : Bool) (globalPrefix : fixed_string)
    (parent : Option parent_view) (typeName : fixed_string) (underlying : Option int_type)
    (entries : List Entry) (specialisations : List Specialisation) (i : Nat)
    (hE : SETUP isLeafValue globalPrefix parent typeName underlying entries specialisations =
      some E)
    (hdef : EntriesDefined E) (h : i < entries.length) :
    ∃ (inner outer : Nat) (byInner : Bool),
      enum_count E .Inner = some inner ∧ enum_count E .Outer = some outer ∧
      enum_count E .All = some (inner + outer) ∧
      selected E .Inner i = some byInner ∧ selected E .Outer i = some (!byInner) := by
  obtain rfl := SETUP_some _ _ _ _ _ _ _ _ hE
  have hl : (SETUP.struct isLeafValue globalPrefix parent typeName underlying entries
      specialisations).subtypes.length = (SETUP.struct isLeafValue globalPrefix parent typeName underlying
      entries specialisations).enumValues.length := by
    rw [SETUP_subtypes_length, SETUP_enumValues_length]
  refine ⟨_, _, _, enum_count_eq _ _ hl hdef, enum_count_eq _ _ hl hdef, ?_,
    SETUP_selected _ _ _ _ _ _ _ _ i h hdef, ?_⟩
  · rw [enum_count_All_eq _ hl hdef]
    simp only [classification, List.filter_map, List.length_map, Function.comp_def]
    rw [filter_Inner_add_Outer]
  · rw [SETUP_selected _ _ _ _ _ _ _ _ i h hdef, TEST_INCLUSIVENESS_Outer_eq]

/-- Witness of C4: `Vehicle` has one entry under Inner, one under Outer and two in all. -/
theorem C4_inner_plus_outer_witness :
    EntriesDefined Vehicle ∧
    ∃ (inner outer : Nat) (byInner : Bool),
      enum_count Vehicle .Inner = some inner ∧ enum_count Vehicle .Outer = some outer ∧
      enum_count Vehicle .All = some (inner + outer) ∧
      selected Vehicle .Inner 1 = some byInner ∧ selected Vehicle .Outer 1 = some (!byInner) :=
  ⟨by decide,
    C4_inner_plus_outer Vehicle false [] none "Vehicle".data none Vehicle.entries
      Vehicle.specialisations 1 rfl (by decide) (by decide)⟩

/-- C5: in the tree `Vehicle{Land, Watercraft}` where `Land` expands into `{Car, Truck}`,
`Vehicle.enum_count(All) = 2`, `Vehicle.enum_count(Inner) = 1` (only `Land` is selected), and
`Land.enum_values(All)` is `[Car, Truck]` with the ordinals 0 and 1. -/
theorem C5_vehicle_scenario :
    enum_count Vehicle .All = some 2 ∧
    enum_count Vehicle .Inner = some 1 ∧
    enum_names Vehicle .Inner true = some ["Land".data] ∧
    enum_values Vehicle.Land .All = some [0, 1] ∧
    enum_names Vehicle.Land .All true = some ["Car".data, "Truck".data] := by
  decide

/-! ## Filtered tables (C6) -/

/-- C6: for every node of which no entry is left forward declared and every selection,
`enum_values`, `enum_ids` and `enum_names` each return the subsequence of the node's table
at the entries classified under the selection, in declaration order, so the three filtered
tables pick the same positions; and under All they return the whole tables unchanged. Names
are identifiers: they hold no `NUL`. -/
theorem C6_filtered_tables (E : NestedEnum) (isLeafValue : Bool) (globalPrefix : fixed_string)
    (parent : Option parent_view) (typeName : fixed_string) (underlying : Option int_type)
    (entries : List Entry) (specialisations : List Specialisation) (Selection : InnerOuterAll)
    (clean : Bool)
    (hE : SETUP isLeafValue globalPrefix parent typeName underlying entries specialisations =
      some E)
    (hdef : EntriesDefined E)
    (hname : NulFree (create_name parent globalPrefix typeName))
    (hentries : ∀ e ∈ entries, NulFree e.name) :
    (classification E Selection).length = entries.length ∧
    E.enumValues.length = entries.length ∧
    E.enumIds.length = entries.length ∧
    enum_values E Selection = some (subsequence (classification E Selection) E.enumValues) ∧
    enum_ids E Selection = some (subsequence (classification E Selection) E.enumIds) ∧
    (∃ names : List fixed_string, names.length = entries.length ∧
      enum_names E .All clean = some names ∧
      enum_names E Selection clean = some (subsequence (classification E Selection) names)) ∧
    enum_values E .All = some E.enumValues ∧
    enum_ids E .All = some E.enumIds := by
  obtain rfl := SETUP_some _ _ _ _ _ _ _ _ hE
  have hl := (SETUP_subtypes_length isLeafValue globalPrefix parent typeName underlying entries
    specialisations).trans (SETUP_enumValues_length isLeafValue globalPrefix parent typeName
    underlying entries specialisations).symm
  have hs := SETUP_subtypes_length isLeafValue globalPrefix parent typeName underlying entries
    specialisations
  have hi : (SETUP.struct isLeafValue globalPrefix parent typeName underlying entries
      specialisations).enumIds.length = (SETUP.struct isLeafValue globalPrefix parent typeName underlying
      entries specialisations).subtypes.length := by
    rw [SETUP_enumIds, hs, List.length_map]
  have hvals : ∀ v ∈ entries.map Entry.name, NulFree v := by
    intro v hv
    obtain ⟨e, he, rfl⟩ := List.mem_map.1 hv
    exact hentries e he
  have hnames := fun S => enum_names_eq (SETUP.struct isLeafValue globalPrefix parent typeName underlying
    entries specialisations) S clean (create_name parent globalPrefix typeName)
    (entries.map Entry.name) hl (by rw [hs, List.length_map]) rfl hname hvals hdef
  refine ⟨by rw [classification_length, hs], by rw [← hl, hs], by rw [hi, hs],
    enum_values_eq _ _ hl (Or.inr hdef), enum_ids_eq _ _ hl hi (Or.inr hdef),
    ⟨_, ?_, ?_, hnames Selection⟩, ?_, ?_⟩
  · simp
  · rw [hnames .All, subsequence_all _ _ (by simp [classification_length, hs])
      (classification_All _)]
  · rw [enum_values_eq _ _ hl (Or.inl rfl), subsequence_all _ _ (by rw [classification_length, hl])
      (classification_All _)]
  · rw [enum_ids_eq _ _ hl hi (Or.inl rfl), subsequence_all _ _ (by rw [classification_length, hi])
      (classification_All _)]

/-- Witness of C6: the tables of `Vehicle` under Outer keep `Watercraft` alone. -/
theorem C6_filtered_tables_witness :
    EntriesDefined Vehicle ∧
    enum_values Vehicle .Outer = some [1] ∧
    enum_ids Vehicle .Outer = some [none] ∧
    enum_names Vehicle .Outer false = some ["Vehicle::Watercraft".data] := by
  have h := C6_filtered_tables Vehicle false [] none "Vehicle".data none Vehicle.entries
    Vehicle.specialisations .Outer false rfl (by decide) (by decide) (by decide)
  refine ⟨by decide, ?_, ?_, ?_⟩
  · rw [h.2.2.2.1]; decide
  · rw [h.2.2.2.2.1]; decide
  · decide

/-! ## Ordinal derivation (C7, C8, C9) -/

/-- The rule of the ordinals, for every list of optional overrides of which
`get_array_of_values` builds the table: the table has the length of the list, and entry `i`
is its override when one is given, otherwise the ordinal of entry `i - 1` plus 1 (taken in
the underlying type), and 0 when it is the first entry. -/
theorem ordinal_rule (T : int_type) (values : List opt) (table : List Int)
    (hbuild : get_array_of_values T values = some table) (i : Nat) (h : i < values.length) :
    table.length = values.length ∧
    table[i]? =
      some (if (values.getD i {}).isInitialised then (values.getD i {}).value
        else match i with
          | 0 => 0
          | j + 1 => T.wrap (table.getD j 0 + 1)) := by
  rw [get_array_of_values.eq_some T values table hbuild]
  refine ⟨get_array_of_values.ordinals_length T values 0, ?_⟩
  cases i with
  | zero =>
    cases values with
    | nil => simp at h
    | cons current values =>
      simpa using get_array_of_values.ordinals_zero T current values 0
  | succ j => exact get_array_of_values.ordinals_succ T values 0 j h

/-- The table builds exactly when no entry of a signed type gets the largest value of the
type: every increment `previous++`, the one after the last entry too, is then a constant
expression. -/
theorem get_array_of_values_isSome (T : int_type) (values : List opt) :
    (get_array_of_values T values).isSome = true ↔
      (T.isSigned = true →
        ∀ x ∈ get_array_of_values.ordinals T 0 values, x < T.maxVal) := by
  constructor
  · intro h
    obtain ⟨table, ht⟩ := Option.isSome_iff_exists.1 h
    have := (get_array_of_values.loop_eq_some T values 0 table).1 ht
    rw [← this.1]
    exact this.2
  · intro h
    rw [get_array_of_values, (get_array_of_values.loop_eq_some T values 0 _).2 ⟨rfl, h⟩]
    rfl

theorem ordinals_no_override_eq (T : int_type) (values : List opt)
    (hno : ∀ o ∈ values, o.isInitialised = false) (hn : (values.length : Int) ≤ T.maxVal + 1) :
    get_array_of_values.ordinals T 0 values = (List.range values.length).map Int.ofNat := by
  apply List.ext_getElem?
  intro k
  by_cases hk : k < values.length
  · have := get_array_of_values.ordinals_no_override T values [] 0 k hno
      (T.wrap_of_inRange 0 T.inRange_zero) hk
    rw [List.append_nil] at this
    rw [this, List.getElem?_map, List.getElem?_range hk]
    simp only [zero_add, Option.map_some']
    rw [T.wrap_of_inRange]
    · rfl
    · exact T.inRange_of_nonneg _ (by omega) (by omega)
  · have h1 : (get_array_of_values.ordinals T 0 values).length ≤ k := by
      rw [get_array_of_values.ordinals_length]; omega
    rw [List.getElem?_eq_none h1, List.getElem?_eq_none (by simpa using hk)]

/-- Entry lists without overrides: when the length of the list stays below the largest
value of a signed underlying type, or does not exceed the number of values of an unsigned
one, `get_array_of_values` builds the ordinals 0, 1, 2, ..., n-1 in declaration order. -/
theorem no_override_ordinals (T : int_type) (values : List opt)
    (hno : ∀ o ∈ values, o.isInitialised = false)
    (hn : (values.length : Int) ≤ (if T.isSigned then T.maxVal else T.maxVal + 1)) :
    get_array_of_values T values = some ((List.range values.length).map Int.ofNat) := by
  have hn2 : (values.length : Int) ≤ T.maxVal + 1 := by
    split at hn <;> omega
  rw [get_array_of_values, get_array_of_values.loop_eq_some]
  refine ⟨(ordinals_no_override_eq T values hno hn2).symm, fun hs x hx => ?_⟩
  rw [if_pos hs] at hn
  simp only [List.mem_map, List.mem_range] at hx
  obtain ⟨k, hk, rfl⟩ := hx
  have : (Int.ofNat k) = (k : Int) := rfl
  omega

/-- When entry `k` has the override `V` and the `m` entries after it have none, and the
table builds, entry `k + m` gets the ordinal `V + m` of the underlying type, whatever the
entries before position `k` are. -/
theorem resume_after_override (T : int_type) (pre mid post : List opt) (V : Int)
    (table : List Int) (hV : T.InRange V) (hmid : ∀ o ∈ mid, o.isInitialised = false)
    (hbuild : get_array_of_values T (pre ++ ⟨true, V⟩ :: mid ++ post) = some table) :
    table[pre.length + mid.length]? = some (T.wrap (V + mid.length)) := by
  have key : ∀ (p : List opt) (q : Int),
      (get_array_of_values.ordinals T q (p ++ ⟨true, V⟩ :: mid ++ post))[p.length + mid.length]? =
        some (T.wrap (V + mid.length)) := by
    intro p
    induction p with
    | nil =>
      intro q
      cases hm : mid.length with
      | zero =>
        simp [get_array_of_values.ordinals, T.wrap_of_inRange V hV]
      | succ m =>
        have := get_array_of_values.ordinals_no_override T mid post (T.wrap (V + 1)) m hmid
          (T.wrap_wrap _) (by omega)
        rw [T.wrap_add_wrap] at this
        simp only [List.nil_append, List.length_nil, zero_add, List.cons_append,
          get_array_of_values.ordinals, if_true, List.getElem?_cons_succ, List.append_eq]
        rw [this]
        congr 2
        push_cast
        ring
    | cons a p ih =>
      intro q
      have := ih (T.wrap ((if a.isInitialised then a.value else q) + 1))
      simpa [get_array_of_values.ordinals, Nat.add_right_comm] using this
  rw [get_array_of_values.eq_some T _ table hbuild]
  exact key pre 0

/-- C7, at `NESTED_ENUM((Max), ((A, VAL, 2147483647)))`: the compiler accepts the
declaration `enum Value : std::int32_t { A = 2147483647 }` and the rule of the ordinals gives
the table `[2147483647]`, but `get_array_of_values` increments `previous` after the last
entry too, the increment overflows, and neither the table nor the struct builds; the same
entry builds in `std::uint32_t`, where the increment wraps. -/
theorem C7_largest_ordinal :
    DEFINE_ENUM .int32_t none [{ name := "A".data, val := some 2147483647 }] =
      some [2147483647] ∧
    get_array_of_values.ordinals .int32_t 0 [⟨true, 2147483647⟩] = [2147483647] ∧
    get_array_of_values .int32_t [⟨true, 2147483647⟩] = none ∧
    (NESTED_ENUM "Max".data none [] [{ name := "A".data, val := some 2147483647 }] []).isSome =
      false ∧
    get_array_of_values .uint32_t [⟨true, 2147483647⟩] = some [2147483647] := by
  decide

/-- C9, at `NESTED_ENUM((Resume), ((A, VAL, 2147483646), B))`: the entry `B`, one behind the
override `V = 2147483646`, is `V + 1 = 2147483647` in the declaration of the enumerators,
which the compiler accepts, but the increment of `get_array_of_values` after `B` overflows,
and neither the table nor the struct builds. -/
theorem C9_resume_at_largest :
    DEFINE_ENUM .int32_t none [{ name := "A".data, val := some 2147483646 },
        { name := "B".data }] = some [2147483646, 2147483647] ∧
    get_array_of_values.ordinals .int32_t 0 [⟨true, 2147483646⟩, {}] =
      [2147483646, 2147483647] ∧
    get_array_of_values .int32_t [⟨true, 2147483646⟩, {}] = none ∧
    (NESTED_ENUM "Resume".data none []
      [{ name := "A".data, val := some 2147483646 }, { name := "B".data }] []).isSome = false ∧
    get_array_of_values .int32_t [⟨true, 2147483645⟩, {}] = some [2147483645, 2147483646] := by
  decide

/-! ## Qualified names (C10) -/

/-- C10: the qualified name of the root is its local name alone when the global prefix is
empty, and the prefix, `::` and the local name otherwise; the qualified name of a struct with
a parent is the parent's qualified name, `::` and the local name; and in a generated tree the
struct of entry `i` of a node, when it is defined, is named by the node's qualified name,
`::` and the name of the entry. -/
theorem C10_qualified_name (R E : NestedEnum) (isLeafValue : Bool) (globalPrefix : fixed_string)
    (parent : Option parent_view) (typeName : fixed_string) (underlying : Option int_type)
    (entries : List Entry) (specialisations : List Specialisation) (i : Nat)
    (hR : NESTED_ENUM typeName underlying globalPrefix entries specialisations = some R)
    (hE : SETUP isLeafValue globalPrefix parent typeName underlying entries specialisations =
      some E)
    (h : i < entries.length) :
    R.internalName =
      (if globalPrefix = [] then typeName else globalPrefix ++ scopeResolution ++ typeName) ∧
    (∀ (P : parent_view) (N : NestedEnum),
      SETUP isLeafValue globalPrefix (some P) typeName underlying entries specialisations =
        some N →
      N.internalName = P.internalName ++ scopeResolution ++ typeName) ∧
    ∃ N, E.subtypes[i]? = some N ∧
      (N.isComplete = true →
        N.statics.typeName = entries[i].name ∧
        N.internalName = E.internalName ++ scopeResolution ++ entries[i].name) := by
  obtain rfl := SETUP_some _ _ _ _ _ _ _ _ hE
  obtain rfl := SETUP_some _ _ _ _ _ _ _ _ hR
  refine ⟨?_, ?_, _, SETUP_subtypes_getElem? _ _ _ _ _ _ _ i h, ?_⟩
  · by_cases hp : globalPrefix = []
    · simp [SETUP.struct, NestedEnum.internalName, NestedEnum.statics, DEFINITION.statics,
        create_name, fixed_string.size, hp]
    · simp [SETUP.struct, NestedEnum.internalName, NestedEnum.statics, DEFINITION.statics,
        create_name, fixed_string.size, hp, fixed_string.append_eq]
  · intro P N hN
    obtain rfl := SETUP_some _ _ _ _ _ _ _ _ hN
    simp [SETUP.struct, NestedEnum.internalName, NestedEnum.statics, DEFINITION.statics, create_name,
      fixed_string.append_eq]
  · intro hc
    have := TREE_internalName _ _ _ _ hc
    exact ⟨this.2, this.1⟩

/-- Witness of C10: the struct of the entry `Land` of `Vehicle` is named `Vehicle::Land`. -/
theorem C10_qualified_name_witness :
    Vehicle.internalName = "Vehicle".data ∧
    ∃ N, Vehicle.subtypes[0]? = some N ∧ N.isComplete = true ∧
      N.internalName = "Vehicle::Land".data := by
  have h := C10_qualified_name Vehicle Vehicle false [] none "Vehicle".data none Vehicle.entries
    Vehicle.specialisations 0 rfl rfl (by decide)
  refine ⟨h.1, ?_⟩
  obtain ⟨N, hN, hname⟩ := h.2.2
  have hN2 : Vehicle.subtypes[0]? = some N := hN
  have hc : N.isComplete = true := by
    have : Vehicle.subtypes[0]? = some Vehicle.Land := rfl
    rw [this] at hN2
    cases hN2
    decide
  refine ⟨N, hN2, hc, ?_⟩
  rw [(hname hc).2]
  decide

/-! ## Facts about clean names -/

theorem find?_reverse_range (p : Nat → Bool) (pos n : Nat) (hn : pos ≤ n) (hp : p pos = true)
    (hlast : ∀ q, pos < q → q ≤ n → p q = false) :
    (List.range (n + 1)).reverse.find? p = some pos := by
  induction n with
  | zero =>
    have : pos = 0 := by omega
    subst this
    simp [List.range_succ, hp]
  | succ n ih =>
    rw [List.range_succ, List.reverse_append]
    by_cases h : pos = n + 1
    · subst h
      simp [hp]
    · have hq := hlast (n + 1) (by omega) (Nat.le_refl _)
      simp only [List.reverse_cons, List.reverse_nil, List.nil_append, List.singleton_append,
        List.find?_cons, hq]
      exact ih (by omega) (fun q h1 h2 => hlast q h1 (by omega))

theorem not_isPrefixOf_scope (l : List Char) (h : ColonFree l) :
    scopeResolution.isPrefixOf l = false := by
  cases l with
  | nil => rfl
  | cons c l =>
    have hc : c ≠ ':' := fun hc => h (by simp [hc])
    have hc2 : ¬ (':' = c) := fun hc2 => hc hc2.symm
    simp [scopeResolution, List.isPrefixOf, hc2]

theorem ColonFree_drop (l : List Char) (k : Nat) (h : ColonFree l) : ColonFree (l.drop k) :=
  fun hm => h (List.mem_of_mem_drop hm)

theorem ColonFree_scopeFree (l : List Char) (h : ColonFree l) : ScopeFree l := by
  constructor
  · intro hin
    exact h (hin.subset (by simp [scopeResolution]))
  · cases l with
    | nil => simp
    | cons c l =>
      intro hc
      simp only [List.head?_cons, Option.some.injEq] at hc
      exact h (by simp [hc])

theorem rfind_qualified (type value : fixed_string) (hv : ScopeFree value) :
    rfind (type ++ scopeResolution ++ value) scopeResolution = type.length := by
  unfold rfind
  rw [find?_reverse_range _ type.length _ (by simp)]
  · simp [List.isPrefixOf_iff_prefix]
  · intro q h1 h2
    have hq : q = type.length + (q - type.length) := by omega
    rw [hq, List.append_assoc, ← List.drop_drop, List.drop_left]
    cases hd : q - type.length with
    | zero => omega
    | succ d =>
      cases d with
      | zero =>
        cases value with
        | nil => rfl
        | cons c value =>
          have hc : ¬ (':' = c) := fun hc => hv.2 (by simp [hc.symm])
          simp [scopeResolution, List.isPrefixOf, hc]
      | succ d =>
        have : (scopeResolution ++ value).drop (d + 1 + 1) = value.drop d := by
          simp [scopeResolution]
        rw [this]
        cases hp : scopeResolution.isPrefixOf (value.drop d) with
        | false => rfl
        | true =>
          have hpre : scopeResolution <+: value.drop d := List.isPrefixOf_iff_prefix.1 hp
          exact absurd (hpre.isInfix.trans (List.drop_suffix d value).isInfix) hv.1

theorem remove_scope_qualified_eq (type value : fixed_string) (hv : ScopeFree value)
    (hsize : (type ++ scopeResolution ++ value).length < 2 ^ 64) :
    remove_scope (type ++ scopeResolution ++ value) = some value := by
  unfold remove_scope
  rw [rfind_qualified type value hv]
  have hlen : type.length + scopeResolution.length ≤ (type ++ scopeResolution ++ value).length := by
    simp
  have hmod : (type.length + scopeResolution.length) % 2 ^ 64 =
      type.length + scopeResolution.length := Nat.mod_eq_of_lt (by omega)
  simp only [hmod, hlen, if_true]
  rw [← List.length_append, List.drop_left]

theorem get_string_values_length_le (type : fixed_string) (values : List fixed_string) (k : Nat)
    (hk : k < values.length) :
    (type ++ scopeResolution ++ values[k]).length < (get_string_values type values).length := by
  induction values generalizing k with
  | nil => simp at hk
  | cons value values ih =>
    rw [get_string_values_cons]
    cases k with
    | zero => simp
    | succ k =>
      have := ih k (by simpa using hk)
      simp only [List.getElem_cons_succ, List.length_append, List.length_cons] at this ⊢
      omega

theorem names_table_false (type : fixed_string) (values : List fixed_string)
    (ht : NulFree type) (hv : ∀ v ∈ values, NulFree v) :
    ((List.range values.length).map fun k =>
        (get_substring (get_string_values type values) k false).getD []) =
      values.map fun v => type ++ scopeResolution ++ v := by
  apply List.ext_getElem
  · simp
  · intro k h1 h2
    have hk : k < values.length := by simpa using h1
    simp [get_substring_buffer type values k false ht hv hk]

theorem names_table_true (type : fixed_string) (values : List fixed_string)
    (ht : NulFree type) (hv : ∀ v ∈ values, NulFree v) (hc : ∀ v ∈ values, ScopeFree v)
    (hsize : (get_string_values type values).length < 2 ^ 64) :
    ((List.range values.length).map fun k =>
        (get_substring (get_string_values type values) k true).getD []) = values := by
  apply List.ext_getElem
  · simp
  · intro k h1 h2
    have hk : k < values.length := by simpa using h1
    have hlt := get_string_values_length_le type values k hk
    simp only [List.getElem_map, List.getElem_range]
    rw [get_substring_buffer type values k true ht hv hk]
    simp only [if_true]
    rw [remove_scope_qualified_eq type values[k] (hc _ (List.getElem_mem hk)) (by omega)]
    rfl

theorem subsequence_map {α β : Type} (f : α → β) (flags : List Bool) (xs : List α) :
    subsequence flags (xs.map f) = (subsequence flags xs).map f := by
  induction flags generalizing xs with
  | nil => simp [subsequence]
  | cons b flags ih =>
    cases xs with
    | nil => simp [subsequence]
    | cons x xs => cases b <;> simp [subsequence_cons, ih]

/-! ## Facts about the names of a node -/

theorem SETUP_lengths (isLeafValue : Bool) (globalPrefix : fixed_string)
    (parent : Option parent_view) (typeName : fixed_string) (underlying : Option int_type)
    (entries : List Entry) (specialisations : List Specialisation) :
    (SETUP.struct isLeafValue globalPrefix parent typeName underlying entries
      specialisations).subtypes.length = (SETUP.struct isLeafValue globalPrefix parent typeName underlying
      entries specialisations).enumValues.length := by
  rw [SETUP_subtypes_length, SETUP_enumValues_length]

theorem SETUP_internalName (isLeafValue : Bool) (globalPrefix : fixed_string)
    (parent : Option parent_view) (typeName : fixed_string) (underlying : Option int_type)
    (entries : List Entry) (specialisations : List Specialisation) :
    (SETUP.struct isLeafValue globalPrefix parent typeName underlying entries
      specialisations).internalName = create_name parent globalPrefix typeName := rfl

theorem SETUP_enumNames (isLeafValue : Bool) (globalPrefix : fixed_string)
    (parent : Option parent_view) (typeName : fixed_string) (underlying : Option int_type)
    (entries : List Entry) (specialisations : List Specialisation) :
    (SETUP.struct isLeafValue globalPrefix parent typeName underlying entries
      specialisations).enumNames =
      get_string_values (create_name parent globalPrefix typeName) (entries.map Entry.name) := rfl

theorem SETUP_enum_names_false (isLeafValue : Bool) (globalPrefix : fixed_string)
    (parent : Option parent_view) (typeName : fixed_string) (underlying : Option int_type)
    (entries : List Entry) (specialisations : List Specialisation) (Selection : InnerOuterAll)
    (hname : NulFree (create_name parent globalPrefix typeName))
    (hentries : ∀ e ∈ entries, NulFree e.name)
    (hdef : EntriesDefined (SETUP.struct isLeafValue globalPrefix parent typeName underlying
      entries specialisations)) :
    enum_names (SETUP.struct isLeafValue globalPrefix parent typeName underlying entries specialisations)
        Selection false =
      some ((subsequence (classification (SETUP.struct isLeafValue globalPrefix parent typeName underlying
        entries specialisations) Selection) entries).map
        (qualified (SETUP.struct isLeafValue globalPrefix parent typeName underlying entries
          specialisations))) := by
  have hvals : ∀ v ∈ entries.map Entry.name, NulFree v := by
    intro v hv
    obtain ⟨e, he, rfl⟩ := List.mem_map.1 hv
    exact hentries e he
  rw [enum_names_eq _ Selection false (create_name parent globalPrefix typeName)
    (entries.map Entry.name) (SETUP_lengths _ _ _ _ _ _ _)
    (by rw [SETUP_subtypes_length, List.length_map]) rfl hname hvals hdef,
    names_table_false _ _ hname hvals, List.map_map, subsequence_map]
  rfl

theorem SETUP_enum_names_true (isLeafValue : Bool) (globalPrefix : fixed_string)
    (parent : Option parent_view) (typeName : fixed_string) (underlying : Option int_type)
    (entries : List Entry) (specialisations : List Specialisation) (Selection : InnerOuterAll)
    (hname : NulFree (create_name parent globalPrefix typeName))
    (hentries : ∀ e ∈ entries, NulFree e.name) (hcolon : ∀ e ∈ entries, ScopeFree e.name)
    (hsize : (SETUP.struct isLeafValue globalPrefix parent typeName underlying entries
      specialisations).enumNames.length < 2 ^ 64)
    (hdef : EntriesDefined (SETUP.struct isLeafValue globalPrefix parent typeName underlying
      entries specialisations)) :
    enum_names (SETUP.struct isLeafValue globalPrefix parent typeName underlying entries specialisations)
        Selection true =
      some ((subsequence (classification (SETUP.struct isLeafValue globalPrefix parent typeName underlying
        entries specialisations) Selection) entries).map Entry.name) := by
  have hvals : ∀ v ∈ entries.map Entry.name, NulFree v := by
    intro v hv
    obtain ⟨e, he, rfl⟩ := List.mem_map.1 hv
    exact hentries e he
  have hcols : ∀ v ∈ entries.map Entry.name, ScopeFree v := by
    intro v hv
    obtain ⟨e, he, rfl⟩ := List.mem_map.1 hv
    exact hcolon e he
  rw [enum_names_eq _ Selection true (create_name parent globalPrefix typeName)
    (entries.map Entry.name) (SETUP_lengths _ _ _ _ _ _ _)
    (by rw [SETUP_subtypes_length, List.length_map]) rfl hname hvals hdef,
    names_table_true _ _ hname hvals hcols hsize, subsequence_map]

theorem subsequence_classification_All {α : Type} (E : NestedEnum) (xs : List α)
    (h : xs.length = E.subtypes.length) : subsequence (classification E .All) xs = xs :=
  subsequence_all _ _ (by rw [classification_length, h]) (classification_All E)

/-! ## Names read back (C11) -/

/-- C11: for every node whose names hold no `NUL` and of which no entry is left forward
declared, and every entry `i` of it,
`enum_names<All>(false)` is the table of the fully qualified names of the entries (the
qualified name of the node, `::`, the local name), so its element `i` is the qualified name
of entry `i`; this is what `get_substring` reads at index `i` of the buffer built by
`get_string_values`. -/
theorem C11_names_readback (E : NestedEnum) (isLeafValue : Bool) (globalPrefix : fixed_string)
    (parent : Option parent_view) (typeName : fixed_string) (underlying : Option int_type)
    (entries : List Entry) (specialisations : List Specialisation) (i : Nat)
    (hE : SETUP isLeafValue globalPrefix parent typeName underlying entries specialisations =
      some E)
    (hdef : EntriesDefined E)
    (hname : NulFree (create_name parent globalPrefix typeName))
    (hentries : ∀ e ∈ entries, NulFree e.name) (h : i < entries.length) :
    get_substring E.enumNames i false =
      some (E.internalName ++ scopeResolution ++ entries[i].name) ∧
    enum_names E .All false =
      some (entries.map fun e => E.internalName ++ scopeResolution ++ e.name) ∧
    ∃ names, enum_names E .All false = some names ∧
      names[i]? = some (E.internalName ++ scopeResolution ++ entries[i].name) := by
  obtain rfl := SETUP_some _ _ _ _ _ _ _ _ hE
  have hvals : ∀ v ∈ entries.map Entry.name, NulFree v := by
    intro v hv
    obtain ⟨e, he, rfl⟩ := List.mem_map.1 hv
    exact hentries e he
  have hall := SETUP_enum_names_false isLeafValue globalPrefix parent typeName underlying entries
    specialisations .All hname hentries hdef
  rw [subsequence_classification_All _ _ (by rw [SETUP_subtypes_length])] at hall
  refine ⟨?_, hall, _, hall, ?_⟩
  · rw [SETUP_enumNames, get_substring_buffer _ _ i false hname hvals (by simpa using h)]
    simp [SETUP_internalName]
  · simp [List.getElem?_map, List.getElem?_eq_getElem h, qualified]

/-- Witness of C11: the second name of `Vehicle::Land` is `Vehicle::Land::Truck`. -/
theorem C11_names_readback_witness :
    EntriesDefined Vehicle.Land ∧
    ∃ names, enum_names Vehicle.Land .All false = some names ∧
      names[1]? = some "Vehicle::Land::Truck".data :=
  ⟨by decide,
    (C11_names_readback Vehicle.Land false [] (some (Vehicle.statics.view 0)) "Land".data none
      [{ name := "Car".data }, { name := "Truck".data }] [] 1 rfl (by decide) (by decide)
      (by decide) (by decide)).2.2⟩

/-! ## Facts about `name` and `enum_names_and_ids` -/

theorem rfind_not_found (view : List Char) (h : ColonFree view) :
    rfind view scopeResolution = npos := by
  unfold rfind
  have : (List.range (view.length + 1)).reverse.find?
      (fun pos => scopeResolution.isPrefixOf (view.drop pos)) = none := by
    rw [List.find?_eq_none]
    intro pos _
    simp [not_isPrefixOf_scope _ (ColonFree_drop view pos h)]
  rw [this]

theorem remove_scope_not_found (view : List Char) (h : ColonFree view) :
    remove_scope view = if view = [] then none else some (view.drop 1) := by
  unfold remove_scope
  rw [rfind_not_found view h]
  have : (npos + scopeResolution.length) % 2 ^ 64 = 1 := by decide
  rw [this]
  cases view <;> simp

theorem name_clean_root_without_prefix (R : NestedEnum) (typeName : fixed_string)
    (underlying : Option int_type) (entries : List Entry) (specialisations : List Specialisation)
    (hR : NESTED_ENUM typeName underlying [] entries specialisations = some R)
    (h : ColonFree typeName) :
    name R true = if typeName = [] then none else some (typeName.drop 1) := by
  obtain rfl := SETUP_some _ _ _ _ _ _ _ _ hR
  have : (SETUP.struct false [] none typeName underlying entries
      specialisations).internalName = typeName := by
    simp [SETUP_internalName, create_name, fixed_string.size]
  simp only [name, if_true, this]
  exact remove_scope_not_found typeName h

theorem name_clean_nested (isLeafValue : Bool) (globalPrefix : fixed_string) (P : parent_view)
    (typeName : fixed_string) (underlying : Option int_type) (entries : List Entry)
    (specialisations : List Specialisation) (h : ScopeFree typeName)
    (hsize : (P.internalName ++ scopeResolution ++ typeName).length < 2 ^ 64) :
    name (SETUP.struct isLeafValue globalPrefix (some P) typeName underlying entries specialisations)
      true = some typeName := by
  have : (SETUP.struct isLeafValue globalPrefix (some P) typeName underlying entries
      specialisations).internalName = P.internalName ++ scopeResolution ++ typeName := by
    simp [SETUP_internalName, create_name, fixed_string.append_eq]
  simp only [name, if_true, this]
  exact remove_scope_qualified_eq _ _ h hsize

theorem stringsAndIdsClean_eq (g : fixed_string → fixed_string)
    (l : List (fixed_string × Option fixed_string))
    (h : ∀ p ∈ l, remove_scope p.1 = some (g p.1)) :
    enum_names_and_ids.stringsAndIdsClean l = some (l.map fun p => (g p.1, p.2)) := by
  induction l with
  | nil => rfl
  | cons a l ih =>
    have ha := h a (by simp)
    have hl := ih (fun x hx => h x (by simp [hx]))
    simp [enum_names_and_ids.stringsAndIdsClean, ha, hl]

theorem mem_subsequence {α : Type} (flags : List Bool) (xs : List α) (x : α)
    (h : x ∈ subsequence flags xs) : x ∈ xs := by
  induction flags generalizing xs with
  | nil => simp [subsequence] at h
  | cons b flags ih =>
    cases xs with
    | nil => simp [subsequence] at h
    | cons y xs =>
      rw [subsequence_cons] at h
      cases b
      · simp only [Bool.false_eq_true, if_false] at h
        exact List.mem_cons_of_mem _ (ih xs h)
      · simp only [if_true, List.mem_cons] at h
        rcases h with h | h
        · simp [h]
        · exact List.mem_cons_of_mem _ (ih xs h)

theorem SETUP_enum_names_and_ids (isLeafValue : Bool) (globalPrefix : fixed_string)
    (parent : Option parent_view) (typeName : fixed_string) (underlying : Option int_type)
    (entries : List Entry) (specialisations : List Specialisation) (Selection : InnerOuterAll)
    (clean : Bool)
    (hname : NulFree (create_name parent globalPrefix typeName))
    (hentries : ∀ e ∈ entries, NulFree e.name) (hcolon : ∀ e ∈ entries, ScopeFree e.name)
    (hsize : (SETUP.struct isLeafValue globalPrefix parent typeName underlying entries
      specialisations).enumNames.length < 2 ^ 64)
    (hdef : EntriesDefined (SETUP.struct isLeafValue globalPrefix parent typeName underlying
      entries specialisations)) :
    enum_names_and_ids (SETUP.struct isLeafValue globalPrefix parent typeName underlying entries
        specialisations) Selection clean =
      some ((subsequence (classification (SETUP.struct isLeafValue globalPrefix parent typeName underlying
        entries specialisations) Selection) entries).map fun e =>
          (if clean then e.name
            else qualified (SETUP.struct isLeafValue globalPrefix parent typeName underlying entries
              specialisations) e, e.id)) := by
  have hl := SETUP_lengths isLeafValue globalPrefix parent typeName underlying entries
    specialisations
  have hs := SETUP_subtypes_length isLeafValue globalPrefix parent typeName underlying entries
    specialisations
  have hvals : ∀ v ∈ entries.map Entry.name, NulFree v := by
    intro v hv
    obtain ⟨e, he, rfl⟩ := List.mem_map.1 hv
    exact hentries e he
  unfold enum_names_and_ids
  rw [enum_count_eq _ Selection hl hdef]
  have hlen := subsequence_length (classification (SETUP.struct isLeafValue globalPrefix parent typeName
    underlying entries specialisations) Selection) entries (by rw [classification_length, hs])
  cases h0 : ((classification (SETUP.struct isLeafValue globalPrefix parent typeName underlying
      entries specialisations) Selection).filter fun b => b).length with
  | zero =>
    rw [h0] at hlen
    rw [List.length_eq_zero.1 hlen]
    rfl
  | succ n =>
    simp only []
    rw [get_needed_values_eq _ Selection hl hdef]
    rw [copy_needed_eq _ _
      (entries.map fun e => (qualified (SETUP.struct isLeafValue globalPrefix parent typeName underlying
        entries specialisations) e, e.id))
      ([], none) (by rw [classification_length, hs, List.length_map])
      (by
        intro k hk
        have hk2 : k < entries.length := by simpa using hk
        have hk3 : k < (entries.map Entry.name).length := by simpa using hk2
        beta_reduce
        rw [SETUP_enumNames, get_substring_buffer _ _ k false hname hvals hk3, SETUP_enumIds]
        simp [List.getElem?_map, List.getElem?_eq_getElem hk2, qualified, SETUP_internalName]),
      subsequence_map]
    have hclean : ∀ p ∈ (subsequence (classification (SETUP.struct isLeafValue globalPrefix parent
        typeName underlying entries specialisations) Selection) entries).map (fun e =>
          (qualified (SETUP.struct isLeafValue globalPrefix parent typeName underlying entries
            specialisations) e, e.id)),
        remove_scope p.1 =
          some (p.1.drop ((create_name parent globalPrefix typeName).length + 2)) := by
      intro p hp
      obtain ⟨e, he, rfl⟩ := List.mem_map.1 hp
      have hmem : e ∈ entries := mem_subsequence _ _ _ he
      obtain ⟨k, hk, hke⟩ := List.getElem_of_mem hmem
      have hk3 : k < (entries.map Entry.name).length := by simpa using hk
      have hlt := get_string_values_length_le (create_name parent globalPrefix typeName)
        (entries.map Entry.name) k hk3
      rw [← SETUP_enumNames isLeafValue globalPrefix parent typeName underlying entries
        specialisations] at hlt
      simp only [List.getElem_map, hke] at hlt
      simp only [qualified, SETUP_internalName]
      rw [remove_scope_qualified_eq _ _ (hcolon e hmem) (by omega)]
      simp [scopeResolution]
    simp only [stringsAndIdsClean_eq _ _ hclean]
    cases clean
    · simp
    · simp [List.map_map, Function.comp_def, qualified, SETUP_internalName, scopeResolution]

/-! ## Clean names (C13, C14) -/

/-- C13 (evaluation): `name(false)` returns the qualified name, and `name(true)` returns the
local name for a nested struct and for a root with a global prefix; for the root `Vehicle`
declared without a global prefix `name(true)` returns `ehicle`, the qualified name without
its first character, not the local name `Vehicle`. -/
theorem C13_root_name_clean :
    name Vehicle false = some "Vehicle".data ∧
    name Vehicle.Land false = some "Vehicle::Land".data ∧
    name Vehicle.Land true = some "Land".data ∧
    (NESTED_ENUM "Vehicle".data (some .uint32_t) "Category".data Vehicle.entries
      Vehicle.specialisations).bind (fun R => name R true) = some "Vehicle".data ∧
    name Vehicle true = some "ehicle".data ∧
    name Vehicle true ≠ some Vehicle.statics.typeName := by
  decide

/-- C14: for every node of which no entry is left forward declared, every selection and
position, with local names that hold no `::` (being
identifiers, they hold no `NUL` and do not begin with `:` either): `enum_names<S>(false)` is
the table of the qualified names of the selected entries, `enum_names<S>(true)` is the table
of their local names at the same positions, each the part of the qualified name after its
last `::`, and `enum_names_and_ids<S>(true)` carries the same local names with the ids. -/
theorem C14_clean_names (E : NestedEnum) (isLeafValue : Bool) (globalPrefix : fixed_string)
    (parent : Option parent_view) (typeName : fixed_string) (underlying : Option int_type)
    (entries : List Entry) (specialisations : List Specialisation) (Selection : InnerOuterAll)
    (hE : SETUP isLeafValue globalPrefix parent typeName underlying entries specialisations =
      some E)
    (hdef : EntriesDefined E)
    (hname : NulFree (create_name parent globalPrefix typeName))
    (hentries : ∀ e ∈ entries, NulFree e.name) (hscope : ∀ e ∈ entries, ScopeFree e.name)
    (hsize : E.enumNames.length < 2 ^ 64) :
    enum_names E Selection false =
      some ((subsequence (classification E Selection) entries).map fun e =>
        E.internalName ++ scopeResolution ++ e.name) ∧
    enum_names E Selection true =
      some ((subsequence (classification E Selection) entries).map Entry.name) ∧
    enum_names_and_ids E Selection true =
      some ((subsequence (classification E Selection) entries).map fun e => (e.name, e.id)) ∧
    ∀ e ∈ entries,
      rfind (E.internalName ++ scopeResolution ++ e.name) scopeResolution = E.internalName.length ∧
      remove_scope (E.internalName ++ scopeResolution ++ e.name) = some e.name := by
  obtain rfl := SETUP_some _ _ _ _ _ _ _ _ hE
  refine ⟨SETUP_enum_names_false _ _ _ _ _ _ _ Selection hname hentries hdef,
    SETUP_enum_names_true _ _ _ _ _ _ _ Selection hname hentries hscope hsize hdef, ?_, ?_⟩
  · rw [SETUP_enum_names_and_ids _ _ _ _ _ _ _ Selection true hname hentries hscope hsize hdef]
    simp
  · intro e he
    refine ⟨rfind_qualified _ _ (hscope e he), remove_scope_qualified_eq _ _ (hscope e he) ?_⟩
    obtain ⟨k, hk, hke⟩ := List.getElem_of_mem he
    have hk3 : k < (entries.map Entry.name).length := by simpa using hk
    have hlt := get_string_values_length_le (create_name parent globalPrefix typeName)
      (entries.map Entry.name) k hk3
    rw [← SETUP_enumNames isLeafValue globalPrefix parent typeName underlying entries
      specialisations] at hlt
    simp only [List.getElem_map, hke] at hlt
    rw [SETUP_internalName]
    omega

/-- Witness of C14: the clean names of `Vehicle` under Outer. -/
theorem C14_clean_names_witness :
    EntriesDefined Vehicle ∧
    enum_names Vehicle .Outer true = some ["Watercraft".data] ∧
    enum_names_and_ids Vehicle .Outer true = some [("Watercraft".data, none)] := by
  have h := C14_clean_names Vehicle false [] none "Vehicle".data none Vehicle.entries
    Vehicle.specialisations .Outer rfl (by decide) (by decide) (by decide)
    (fun e he => ColonFree_scopeFree _ (by revert e; decide)) (by decide)
  refine ⟨by decide, ?_, ?_⟩
  · rw [h.2.1]; decide
  · rw [h.2.2.1]; decide

/-! ## Facts about `find_index` -/

theorem find_index_eq_some {α : Type} [DecidableEq α] (l : List α) (v : α) (i : Nat) :
    find_index l v = some i ↔ l[i]? = some v ∧ ∀ j, j < i → l[j]? ≠ some v := by
  induction l generalizing i with
  | nil => simp [find_index]
  | cons a l ih =>
    rw [find_index]
    by_cases h : a = v
    · subst h
      rw [if_pos rfl]
      constructor
      · intro hi
        cases hi
        simp
      · rintro ⟨_, h2⟩
        cases i with
        | zero => rfl
        | succ i => exact absurd (by simp) (h2 0 (by omega))
    · rw [if_neg h]
      cases i with
      | zero => simp [h]
      | succ i =>
        simp only [Option.map_eq_some', Nat.add_right_cancel_iff, exists_eq_right,
          List.getElem?_cons_succ]
        rw [ih i]
        constructor
        · rintro ⟨h1, h2⟩
          refine ⟨h1, fun j hj => ?_⟩
          cases j with
          | zero => simp [h]
          | succ j => simpa using h2 j (by omega)
        · rintro ⟨h1, h2⟩
          exact ⟨h1, fun j hj => by simpa using h2 (j + 1) (by omega)⟩

theorem find_index_eq_none {α : Type} [DecidableEq α] (l : List α) (v : α) :
    find_index l v = none ↔ v ∉ l := by
  induction l with
  | nil => simp [find_index]
  | cons a l ih =>
    rw [find_index]
    by_cases h : a = v
    · simp [h]
    · rw [if_neg h]
      simp [ih, Ne.symm h]

theorem find_index_lt {α : Type} [DecidableEq α] (l : List α) (v : α) (i : Nat)
    (h : find_index l v = some i) : i < l.length := by
  have := ((find_index_eq_some l v i).1 h).1
  by_contra hlt
  rw [List.getElem?_eq_none (by omega)] at this
  cases this

theorem find_index_of_nodup {α : Type} [DecidableEq α] (l : List α) (i : Nat) (h : i < l.length)
    (hnd : l.Nodup) : find_index l l[i] = some i := by
  rw [find_index_eq_some]
  refine ⟨List.getElem?_eq_getElem h, fun j hj heq => ?_⟩
  have hj2 : j < l.length := by omega
  rw [List.getElem?_eq_getElem hj2] at heq
  have := (List.Nodup.getElem_inj_iff hnd).1 (Option.some.inj heq)
  omega

theorem find_index_optional_eq {α : Type} [DecidableEq α] (l : List (Option α)) (v : α) :
    find_index_optional l v = find_index l (some v) := by
  induction l with
  | nil => rfl
  | cons a l ih =>
    rw [find_index_optional, find_index, ih]
    by_cases h : a = some v
    · simp [h]
    · simp [h]

theorem find_index_exists {α : Type} [DecidableEq α] (l : List α) (v : α) (h : v ∈ l) :
    ∃ i, find_index l v = some i := by
  cases hf : find_index l v with
  | none => exact absurd h ((find_index_eq_none l v).1 hf)
  | some i => exact ⟨i, rfl⟩

theorem SETUP_enum_names_All (isLeafValue : Bool) (globalPrefix : fixed_string)
    (parent : Option parent_view) (typeName : fixed_string) (underlying : Option int_type)
    (entries : List Entry) (specialisations : List Specialisation) (clean : Bool)
    (hname : NulFree (create_name parent globalPrefix typeName))
    (hentries : ∀ e ∈ entries, NulFree e.name)
    (hdef : EntriesDefined (SETUP.struct isLeafValue globalPrefix parent typeName underlying
      entries specialisations)) :
    ∃ names, enum_names (SETUP.struct isLeafValue globalPrefix parent typeName underlying entries
        specialisations) .All clean = some names ∧ names.length = entries.length := by
  have hvals : ∀ v ∈ entries.map Entry.name, NulFree v := by
    intro v hv
    obtain ⟨e, he, rfl⟩ := List.mem_map.1 hv
    exact hentries e he
  refine ⟨_, enum_names_eq _ .All clean (create_name parent globalPrefix typeName)
    (entries.map Entry.name) (SETUP_lengths _ _ _ _ _ _ _)
    (by rw [SETUP_subtypes_length, List.length_map]) rfl hname hvals hdef, ?_⟩
  rw [subsequence_classification_All _ _ (by simp [SETUP_subtypes_length])]
  simp

theorem SETUP_enum_ids_All (isLeafValue : Bool) (globalPrefix : fixed_string)
    (parent : Option parent_view) (typeName : fixed_string) (underlying : Option int_type)
    (entries : List Entry) (specialisations : List Specialisation) :
    enum_ids (SETUP.struct isLeafValue globalPrefix parent typeName underlying entries
        specialisations) .All = some (entries.map Entry.id) := by
  simp [enum_ids, SETUP_enumIds]

/-! ## Local lookups (C15 to C19) -/

/-- C15: for every node and value `v`, `enum_name(v, clean)` always has a result: it is the
name at the least index whose ordinal equals `v` (with duplicate ordinals the earliest
declared entry wins), and it is the absent result exactly when no entry has that ordinal. -/
theorem C15_enum_name_first_match (E : NestedEnum) (isLeafValue : Bool)
    (globalPrefix : fixed_string) (parent : Option parent_view) (typeName : fixed_string)
    (underlying : Option int_type) (entries : List Entry)
    (specialisations : List Specialisation) (v : Int) (clean : Bool)
    (hE : SETUP isLeafValue globalPrefix parent typeName underlying entries specialisations =
      some E)
    (hdef : EntriesDefined E)
    (hname : NulFree (create_name parent globalPrefix typeName))
    (hentries : ∀ e ∈ entries, NulFree e.name) :
    ∃ names, enum_names E .All clean = some names ∧ names.length = entries.length ∧
      (∀ i : Nat, E.enumValues[i]? = some v → (∀ j : Nat, j < i → E.enumValues[j]? ≠ some v) →
        ∃ nm : fixed_string, names[i]? = some nm ∧ enum_name E v clean = some (some nm)) ∧
      (enum_name E v clean = some none ↔ v ∉ E.enumValues) ∧
      enum_name E v clean ≠ none := by
  obtain rfl := SETUP_some _ _ _ _ _ _ _ _ hE
  obtain ⟨names, hnames, hlen⟩ := SETUP_enum_names_All isLeafValue globalPrefix parent typeName
    underlying entries specialisations clean hname hentries hdef
  have hvl := SETUP_enumValues_length isLeafValue globalPrefix parent typeName underlying entries
    specialisations
  refine ⟨names, hnames, hlen, ?_, ?_, ?_⟩
  · intro i hi hfirst
    have hfi := (find_index_eq_some _ v i).2 ⟨hi, hfirst⟩
    have hilt := find_index_lt _ _ _ hfi
    have hin : i < names.length := by omega
    refine ⟨names[i], List.getElem?_eq_getElem hin, ?_⟩
    simp [enum_name, hnames, hfi, List.getElem?_eq_getElem hin]
  · cases hf : find_index (SETUP.struct isLeafValue globalPrefix parent typeName underlying entries
        specialisations).enumValues v with
    | none =>
      simp [enum_name, hnames, hf, (find_index_eq_none _ v).1 hf]
    | some i =>
      have hilt := find_index_lt _ _ _ hf
      have hin : i < names.length := by omega
      have hmem : v ∈ (SETUP.struct isLeafValue globalPrefix parent typeName underlying entries
          specialisations).enumValues := List.getElem?_mem ((find_index_eq_some _ v i).1 hf).1
      simp [enum_name, hnames, hf, List.getElem?_eq_getElem hin, hmem]
  · cases hf : find_index (SETUP.struct isLeafValue globalPrefix parent typeName underlying entries
        specialisations).enumValues v with
    | none => simp [enum_name, hnames, hf]
    | some i =>
      have hilt := find_index_lt _ _ _ hf
      have hin : i < names.length := by omega
      simp [enum_name, hnames, hf, List.getElem?_eq_getElem hin]

/-- Witness of C15: `A = 1, B = 1` gives `A` for the value 1, and no name for the value 5. -/
theorem C15_enum_name_first_match_witness :
    EntriesDefined Pair ∧ enum_name Pair 1 true = some (some "A".data) ∧
    enum_name Pair 5 true = some none := by
  obtain ⟨names, hnames, _, hfirst, habsent, _⟩ := C15_enum_name_first_match
    Pair false [] none "Pair".data none
    [{ name := "A".data, val := some 1 }, { name := "B".data, val := some 1 }] [] 5 true rfl
    (by decide) (by decide) (by decide)
  exact ⟨by decide, by decide, habsent.2 (by decide)⟩

/-- C16: for every node and string `s`, `enum_value_by_id(s)`, `enum_name_by_id(s)` and
`enum_integer_by_id(s)` return the data of the first entry in declaration order whose id is
present and equal to `s`, and the absent result when there is none; a lookup never matches
an entry declared without an id, also when `s` is the empty string. -/
theorem C16_lookup_by_id (E : NestedEnum) (isLeafValue : Bool)
    (globalPrefix : fixed_string) (parent : Option parent_view) (typeName : fixed_string)
    (underlying : Option int_type) (entries : List Entry)
    (specialisations : List Specialisation) (s : fixed_string) (clean : Bool)
    (hE : SETUP isLeafValue globalPrefix parent typeName underlying entries specialisations =
      some E)
    (hdef : EntriesDefined E)
    (hname : NulFree (create_name parent globalPrefix typeName))
    (hentries : ∀ e ∈ entries, NulFree e.name) :
    ∃ names, enum_names E .All clean = some names ∧ names.length = entries.length ∧
      (∀ (i : Nat) (e : Entry), entries[i]? = some e → e.id = some s →
        (∀ (j : Nat) (e2 : Entry), j < i → entries[j]? = some e2 → e2.id ≠ some s) →
        ∃ (v : Int) (nm : fixed_string), E.enumValues[i]? = some v ∧ names[i]? = some nm ∧
          enum_value_by_id E s = some (some v) ∧
          enum_integer_by_id E s = some (some v) ∧
          enum_name_by_id E s clean = some (some nm)) ∧
      ((∀ e ∈ entries, e.id ≠ some s) →
        enum_value_by_id E s = some none ∧ enum_integer_by_id E s = some none ∧
        enum_name_by_id E s clean = some none) ∧
      (∀ (i : Nat) (e : Entry), entries[i]? = some e → e.id = none →
        find_index_optional E.enumIds s ≠ some i ∧ find_index_optional E.enumIds [] ≠ some i) := by
  obtain rfl := SETUP_some _ _ _ _ _ _ _ _ hE
  obtain ⟨names, hnames, hlen⟩ := SETUP_enum_names_All isLeafValue globalPrefix parent typeName
    underlying entries specialisations clean hname hentries hdef
  have hvl := SETUP_enumValues_length isLeafValue globalPrefix parent typeName underlying entries
    specialisations
  have hids := SETUP_enumIds isLeafValue globalPrefix parent typeName underlying entries
    specialisations
  refine ⟨names, hnames, hlen, ?_, ?_, ?_⟩
  · intro i e hi hid hfirst
    have hfi : find_index_optional (SETUP.struct isLeafValue globalPrefix parent typeName underlying
        entries specialisations).enumIds s = some i := by
      rw [find_index_optional_eq, find_index_eq_some, hids]
      refine ⟨by simp [List.getElem?_map, hi, hid], fun j hj heq => ?_⟩
      rw [List.getElem?_map] at heq
      cases hj2 : entries[j]? with
      | none => simp [hj2] at heq
      | some e2 =>
        rw [hj2] at heq
        exact hfirst j e2 hj hj2 (by simpa using heq)
    have hilt : i < entries.length := by
      by_contra hlt
      rw [List.getElem?_eq_none (by omega)] at hi
      cases hi
    have hiv : i < (SETUP.struct isLeafValue globalPrefix parent typeName underlying entries
        specialisations).enumValues.length := by omega
    have hin : i < names.length := by omega
    refine ⟨_, names[i], List.getElem?_eq_getElem hiv, List.getElem?_eq_getElem hin, ?_, ?_, ?_⟩
    · simp [enum_value_by_id, hfi, List.getElem?_eq_getElem hiv]
    · simp [enum_integer_by_id, hfi, List.getElem?_eq_getElem hiv]
    · simp [enum_name_by_id, hnames, hfi, List.getElem?_eq_getElem hin]
  · intro hnone
    have hfi : find_index_optional (SETUP.struct isLeafValue globalPrefix parent typeName underlying
        entries specialisations).enumIds s = none := by
      rw [find_index_optional_eq, find_index_eq_none, hids]
      intro hmem
      obtain ⟨e, he, heq⟩ := List.mem_map.1 hmem
      exact hnone e he heq
    simp [enum_value_by_id, enum_integer_by_id, enum_name_by_id, hnames, hfi]
  · intro i e hi hid
    have hnot : ∀ t : fixed_string, find_index_optional (SETUP.struct isLeafValue globalPrefix parent
        typeName underlying entries specialisations).enumIds t ≠ some i := by
      intro t hfi
      rw [find_index_optional_eq, find_index_eq_some, hids, List.getElem?_map, hi] at hfi
      simp [hid] at hfi
    exact ⟨hnot s, hnot []⟩

/-- Witness of C16: in `(Subcompact), (Compact, ID, "C-segment")` the id `C-segment` finds
`Compact`, and the empty string finds nothing. -/
theorem C16_lookup_by_id_witness :
    EntriesDefined Car ∧ enum_value_by_id Car "C-segment".data = some (some 1) ∧
    enum_value_by_id Car [] = some none := by
  obtain ⟨names, _, _, _, habsent, _⟩ := C16_lookup_by_id
    Car false [] none "Car".data none
    [{ name := "Subcompact".data }, { name := "Compact".data, id := some "C-segment".data }] []
    [] false rfl (by decide) (by decide) (by decide)
  exact ⟨by decide, by decide, (habsent (by decide)).1⟩

/-- C17: for every node and every entry that is the first entry with its ordinal, `enum_id`
of the entry is the id it was declared with: absent when it was declared without an id,
present with the empty string when it was declared with the empty string as id, and these
two results differ. -/
theorem C17_enum_id_absent_or_empty (E : NestedEnum) (isLeafValue : Bool)
    (globalPrefix : fixed_string) (parent : Option parent_view) (typeName : fixed_string)
    (underlying : Option int_type) (entries : List Entry)
    (specialisations : List Specialisation) (i : Nat) (e : Entry) (v : Int)
    (hE : SETUP isLeafValue globalPrefix parent typeName underlying entries specialisations =
      some E)
    (he : entries[i]? = some e) (hv : E.enumValues[i]? = some v)
    (hfirst : ∀ j : Nat, j < i → E.enumValues[j]? ≠ some v) :
    enum_id E v = some e.id ∧
    (e.id = none → enum_id E v = some none) ∧
    (e.id = some [] → enum_id E v = some (some [])) ∧
    (some none : Option (Option fixed_string)) ≠ some (some []) := by
  obtain rfl := SETUP_some _ _ _ _ _ _ _ _ hE
  have hfi := (find_index_eq_some _ v i).2 ⟨hv, hfirst⟩
  have hid : enum_id (SETUP.struct isLeafValue globalPrefix parent typeName underlying entries
      specialisations) v = some e.id := by
    simp [enum_id, SETUP_enum_ids_All, hfi, List.getElem?_map, he]
  exact ⟨hid, fun h => by rw [hid, h], fun h => by rw [hid, h], by simp⟩

/-- Witness of C17: `Subcompact` has no id, and an entry declared with the id `""` has the
empty id. -/
theorem C17_enum_id_absent_or_empty_witness :
    enum_id Unnamed 0 = some none ∧ enum_id Unnamed 1 = some (some []) :=
  ⟨(C17_enum_id_absent_or_empty Unnamed false [] none "Unnamed".data none
      [{ name := "Subcompact".data }, { name := "Compact".data, id := some [] }] [] 0
      { name := "Subcompact".data } 0 rfl rfl rfl (by decide)).2.1 rfl,
    (C17_enum_id_absent_or_empty Unnamed false [] none "Unnamed".data none
      [{ name := "Subcompact".data }, { name := "Compact".data, id := some [] }] [] 1
      { name := "Compact".data, id := some [] } 1 rfl rfl rfl (by decide)).2.2.1 rfl⟩

theorem SETUP_enum_names_All_false (isLeafValue : Bool) (globalPrefix : fixed_string)
    (parent : Option parent_view) (typeName : fixed_string) (underlying : Option int_type)
    (entries : List Entry) (specialisations : List Specialisation)
    (hname : NulFree (create_name parent globalPrefix typeName))
    (hentries : ∀ e ∈ entries, NulFree e.name)
    (hdef : EntriesDefined (SETUP.struct isLeafValue globalPrefix parent typeName underlying
      entries specialisations)) :
    enum_names (SETUP.struct isLeafValue globalPrefix parent typeName underlying entries specialisations)
        .All false =
      some ((entries.map Entry.name).map fun v =>
        create_name parent globalPrefix typeName ++ scopeResolution ++ v) := by
  rw [SETUP_enum_names_false _ _ _ _ _ _ _ .All hname hentries hdef,
    subsequence_classification_All _ _ (by rw [SETUP_subtypes_length])]
  simp [qualified, SETUP_internalName]

theorem enum_values_All (E : NestedEnum) : enum_values E .All = some E.enumValues := by
  simp [enum_values]

/-- C18: for every node whose entries have distinct local names and every value `v` of
`enum_values<All>()`, `enum_name(v, false)` is present and `enum_value` of that name returns
a value equal to `v`, also when several entries share the ordinal of `v`. -/
theorem C18_value_name_value (E : NestedEnum) (isLeafValue : Bool)
    (globalPrefix : fixed_string) (parent : Option parent_view) (typeName : fixed_string)
    (underlying : Option int_type) (entries : List Entry)
    (specialisations : List Specialisation) (values : List Int) (v : Int)
    (hE : SETUP isLeafValue globalPrefix parent typeName underlying entries specialisations =
      some E)
    (hdef : EntriesDefined E)
    (hname : NulFree (create_name parent globalPrefix typeName))
    (hentries : ∀ e ∈ entries, NulFree e.name)
    (hdistinct : (entries.map Entry.name).Nodup)
    (hvalues : enum_values E .All = some values) (hv : v ∈ values) :
    ∃ nm, enum_name E v false = some (some nm) ∧ enum_value E nm = some (some v) := by
  obtain rfl := SETUP_some _ _ _ _ _ _ _ _ hE
  rw [enum_values_All] at hvalues
  cases hvalues
  have hnames := SETUP_enum_names_All_false isLeafValue globalPrefix parent typeName underlying
    entries specialisations hname hentries hdef
  have hvl := SETUP_enumValues_length isLeafValue globalPrefix parent typeName underlying entries
    specialisations
  obtain ⟨i, hfi⟩ := find_index_exists _ v hv
  have hilt := find_index_lt _ _ _ hfi
  have hnd : ((entries.map Entry.name).map fun v =>
      create_name parent globalPrefix typeName ++ scopeResolution ++ v).Nodup :=
    hdistinct.map (fun a b hab => List.append_cancel_left hab)
  have hin : i < ((entries.map Entry.name).map fun v =>
      create_name parent globalPrefix typeName ++ scopeResolution ++ v).length := by
    simp; omega
  refine ⟨((entries.map Entry.name).map fun v =>
      create_name parent globalPrefix typeName ++ scopeResolution ++ v)[i], ?_, ?_⟩
  · simp only [enum_name, hnames, hfi, List.getElem?_eq_getElem hin, Option.map_some']
  · simp only [enum_value, hnames, find_index_of_nodup _ i hin hnd]
    rw [((find_index_eq_some _ v i).1 hfi).1]
    rfl

/-- Witness of C18: with `A = 1, B = 1` the value 1 is named `Pair::A`, and `Pair::A` has
the value 1. -/
theorem C18_value_name_value_witness :
    EntriesDefined Pair ∧
    ∃ nm, enum_name Pair 1 false = some (some nm) ∧ enum_value Pair nm = some (some 1) :=
  ⟨by decide, C18_value_name_value Pair false [] none "Pair".data none
    [{ name := "A".data, val := some 1 }, { name := "B".data, val := some 1 }] [] [1, 1] 1 rfl
    (by decide) (by decide) (by decide) (by decide) (by decide) (by decide)⟩

/-- C19: for every node and every entry declared with the id `s` such that no earlier entry
has the id `s` and no earlier entry has its ordinal, `enum_id` of the entry is `s` and
`enum_value_by_id(s)` is the entry. -/
theorem C19_id_round_trip (E : NestedEnum) (isLeafValue : Bool)
    (globalPrefix : fixed_string) (parent : Option parent_view) (typeName : fixed_string)
    (underlying : Option int_type) (entries : List Entry)
    (specialisations : List Specialisation) (i : Nat) (e : Entry) (v : Int) (s : fixed_string)
    (hE : SETUP isLeafValue globalPrefix parent typeName underlying entries specialisations =
      some E)
    (he : entries[i]? = some e) (hid : e.id = some s)
    (hfirstId : ∀ (j : Nat) (e2 : Entry), j < i → entries[j]? = some e2 → e2.id ≠ some s)
    (hv : E.enumValues[i]? = some v)
    (hfirst : ∀ j : Nat, j < i → E.enumValues[j]? ≠ some v) :
    enum_id E v = some (some s) ∧ enum_value_by_id E s = some (some v) := by
  obtain rfl := SETUP_some _ _ _ _ _ _ _ _ hE
  have hids := SETUP_enumIds isLeafValue globalPrefix parent typeName underlying entries
    specialisations
  have hfv := (find_index_eq_some _ v i).2 ⟨hv, hfirst⟩
  have hfi : find_index_optional (SETUP.struct isLeafValue globalPrefix parent typeName underlying
      entries specialisations).enumIds s = some i := by
    rw [find_index_optional_eq, find_index_eq_some, hids]
    refine ⟨by simp [List.getElem?_map, he, hid], fun j hj heq => ?_⟩
    rw [List.getElem?_map] at heq
    cases hj2 : entries[j]? with
    | none => simp [hj2] at heq
    | some e2 =>
      rw [hj2] at heq
      exact hfirstId j e2 hj hj2 (by simpa using heq)
  constructor
  · simp [enum_id, SETUP_enum_ids_All, hfv, List.getElem?_map, he, hid]
  · simp [enum_value_by_id, hfi, hv]

/-- Witness of C19: the entry `Compact` with the id `C-segment`. -/
theorem C19_id_round_trip_witness :
    enum_id Car 1 = some (some "C-segment".data) ∧
    enum_value_by_id Car "C-segment".data = some (some 1) :=
  C19_id_round_trip Car false [] none "Car".data none [{ name := "Subcompact".data },
    { name := "Compact".data, id := some "C-segment".data }] [] 1
    { name := "Compact".data, id := some "C-segment".data } 1 "C-segment".data rfl rfl rfl
    (by
      intro j e2 hj h
      obtain rfl : j = 0 := by omega
      simp only [List.getElem?_cons_zero, Option.some.injEq] at h
      rw [← h]
      decide)
    rfl (by decide)

/-! ## Facts about generated trees -/

mutual
theorem TREE_generated (P : members) (e : Entry) (value : Int) :
    (s : Specialisation) → Generated (TREE.struct P e value s)
  | .NONE => by simp [TREE.struct, TREE_, BODY_, Generated, Generated.all]
  | .ENUM underlying entries specialisations => by
    simp only [TREE.struct, Generated]
    refine ⟨?_, STRUCT_PREP_generated _ _ specialisations⟩
    simp [STRUCT_PREP_length, DEFINITION_enumValues_length]
  | .DEFER => by simp [TREE.struct, Generated, Generated.all, forward_declared]
  | .DEFER_FROM underlying entries specialisations => by
    simp only [TREE.struct, Generated]
    refine ⟨?_, STRUCT_PREP_generated _ _ specialisations⟩
    simp [STRUCT_PREP_length, DEFINITION_enumValues_length]
theorem STRUCT_PREP_generated (P : members) (entries : List (Entry × Int)) :
    (specialisations : List Specialisation) → Generated.all (STRUCT_PREP.structs P entries specialisations)
  | [] => by
    simp only [STRUCT_PREP.structs]
    induction entries with
    | nil => simp [Generated.all]
    | cons ev entries ih =>
      simp only [List.map_cons, Generated.all]
      exact ⟨by simp [TREE_, BODY_, Generated, Generated.all], ih⟩
  | s :: specialisations => by
    cases entries with
    | nil => simp [STRUCT_PREP.structs, Generated.all]
    | cons ev entries =>
      simp only [STRUCT_PREP.structs, Generated.all]
      exact ⟨TREE_generated P ev.1 ev.2 s, STRUCT_PREP_generated P entries specialisations⟩
end

theorem SETUP_generated (isLeafValue : Bool) (globalPrefix : fixed_string)
    (parent : Option parent_view) (typeName : fixed_string) (underlying : Option int_type)
    (entries : List Entry) (specialisations : List Specialisation) :
    Generated (SETUP.struct isLeafValue globalPrefix parent typeName underlying entries
      specialisations) := by
  simp only [SETUP.struct, Generated]
  refine ⟨?_, STRUCT_PREP_generated _ _ specialisations⟩
  simp [STRUCT_PREP_length, DEFINITION_enumValues_length]

/-! ## Facts about the recursive count -/

theorem TEST_INCLUSIVENESS_unit (selection : InnerOuterAll) (T : NestedEnum) :
    (if T.isComplete && !T.isLeaf then
        (if selection = .Inner ∨ selection = .All then 1 else 0)
      else if selection = .Outer ∨ selection = .All then 1 else 0) =
      if classified selection T then 1 else 0 := by
  cases selection <;> cases hc : T.isComplete <;> cases hl : T.isLeaf <;>
    simp [classified, hc, hl]

mutual
theorem enum_count_recursive_internal_eq (selection : InnerOuterAll) :
    (E : NestedEnum) → Generated E → Defined E →
      enum_count_recursive_internal selection E =
        some ((if selection = .Inner ∨ selection = .All then 1 else 0) +
          ((reachable E).map fun N => (N.subtypes.filter (classified selection)).length).sum)
  | .mk isComplete statics Ts, h, hd => by
    rw [enum_count_recursive_internal, subtypesSizes_eq selection Ts h.2 hd, reachable,
      List.map_cons, List.sum_cons]
    rfl
theorem subtypesSizes_eq (selection : InnerOuterAll) :
    (Ts : List NestedEnum) → Generated.all Ts → Defined.all Ts →
      enum_count_recursive_internal.subtypesSizes selection Ts =
        some ((Ts.filter (classified selection)).length +
          ((reachable.children Ts).map fun N =>
            (N.subtypes.filter (classified selection)).length).sum)
  | [], _, _ => by simp [enum_count_recursive_internal.subtypesSizes, reachable.children]
  | T :: Ts, h, hd => by
    rw [enum_count_recursive_internal.subtypesSizes, subtypesSizes_eq selection Ts h.2 hd.2.2,
      reachable.children, List.map_append, List.sum_append, List.filter_cons, if_pos hd.1]
    have hunit := TEST_INCLUSIVENESS_unit selection T
    by_cases hi : (T.isComplete && !T.isLeaf) = true
    · rw [if_pos hi, enum_count_recursive_internal_eq selection T h.1 hd.2.1]
      rw [if_pos hi] at hunit
      rw [if_pos hi, hunit]
      by_cases ht : classified selection T = true
      · simp only [ht, if_true, List.length_cons, Option.some.injEq]; omega
      · simp only [ht, if_false, Bool.false_eq_true, Option.some.injEq]; omega
    · rw [if_neg hi]
      rw [if_neg hi] at hunit
      rw [if_neg hi, hunit]
      by_cases ht : classified selection T = true
      · simp only [ht, if_true, List.length_cons, List.map_nil, List.sum_nil,
          Option.some.injEq]; omega
      · simp only [ht, if_false, Bool.false_eq_true, List.map_nil, List.sum_nil,
          Option.some.injEq]; omega
end

theorem Defined_all_entries : (Ts : List NestedEnum) → Defined.all Ts →
    ∀ T ∈ Ts, T.isComplete = true
  | [], _ => by simp
  | T :: Ts, h => by
    intro U hU
    rw [List.mem_cons] at hU
    rcases hU with rfl | hU
    · exact h.1
    · exact Defined_all_entries Ts h.2.2 U hU

theorem Defined_entries (E : NestedEnum) (h : Defined E) : EntriesDefined E := by
  cases E with
  | mk isComplete statics Ts => exact Defined_all_entries Ts h

mutual
theorem reachable_defined :
    (E : NestedEnum) → Generated E → Defined E →
      ∀ N ∈ reachable E, N.subtypes.length = N.enumValues.length ∧ EntriesDefined N
  | .mk isComplete statics Ts, h, hd => by
    intro N hN
    rw [reachable, List.mem_cons] at hN
    rcases hN with rfl | hN
    · exact ⟨h.1, Defined_all_entries Ts hd⟩
    · exact reachable_children_defined Ts h.2 hd N hN
theorem reachable_children_defined :
    (Ts : List NestedEnum) → Generated.all Ts → Defined.all Ts →
      ∀ N ∈ reachable.children Ts, N.subtypes.length = N.enumValues.length ∧ EntriesDefined N
  | [], _, _ => by simp [reachable.children]
  | T :: Ts, h, hd => by
    intro N hN
    rw [reachable.children, List.mem_append] at hN
    rcases hN with hN | hN
    · by_cases hi : (T.isComplete && !T.isLeaf) = true
      · rw [if_pos hi] at hN
        exact reachable_defined T h.1 hd.2.1 N hN
      · rw [if_neg hi] at hN
        cases hN
    · exact reachable_children_defined Ts h.2 hd.2.2 N hN
end

/-! ## Recursive count (C20) -/

theorem Vehicle_defined : Defined Vehicle :=
  ⟨rfl, ⟨rfl, trivial, rfl, trivial, trivial⟩, rfl, trivial, trivial⟩

/-- C20: for every tree in which no struct is left forward declared, node `R` and selection,
every node reachable from `R` through defined non-leaf child entries has a count, and
`R.enum_count_recursive(S)` is the sum of `N.enum_count(S)` over `R` and every such node `N`:
one unit per entry classified under `S` at every level, the root itself not counted. -/
theorem C20_count_recursive (R : NestedEnum) (isLeafValue : Bool) (globalPrefix : fixed_string)
    (parent : Option parent_view) (typeName : fixed_string) (underlying : Option int_type)
    (entries : List Entry) (specialisations : List Specialisation) (selection : InnerOuterAll)
    (hR : SETUP isLeafValue globalPrefix parent typeName underlying entries specialisations =
      some R)
    (hdef : Defined R) :
    ∃ counts : List Nat,
      List.Forall₂ (fun N count => enum_count N selection = some count) (reachable R) counts ∧
      enum_count_recursive R selection = some counts.sum := by
  obtain rfl := SETUP_some _ _ _ _ _ _ _ _ hR
  have hG := SETUP_generated isLeafValue globalPrefix parent typeName underlying entries
    specialisations
  refine ⟨(reachable (SETUP.struct isLeafValue globalPrefix parent typeName underlying entries
    specialisations)).map fun N => (N.subtypes.filter (classified selection)).length, ?_, ?_⟩
  · rw [List.forall₂_map_right_iff, List.forall₂_same]
    intro N hN
    obtain ⟨hl, hd⟩ := reachable_defined _ hG hdef N hN
    rw [enum_count_eq N selection hl hd]
    simp [classification, List.filter_map, Function.comp_def]
  · rw [enum_count_recursive, enum_count_recursive_internal_eq selection _ hG hdef]
    by_cases h : selection = .Inner ∨ selection = .All
    · simp only [h, if_true, Option.some.injEq]; omega
    · simp only [h, if_false, Option.some.injEq]; omega

/-- Witness of C20: `Vehicle{Land{Car, Truck}, Watercraft}` counts 4 under All, the sum of
the counts 2 and 2 of `Vehicle` and `Vehicle::Land`. -/
theorem C20_count_recursive_witness :
    Defined Vehicle ∧
    (∃ counts : List Nat,
      List.Forall₂ (fun N count => enum_count N .All = some count) (reachable Vehicle) counts ∧
      enum_count_recursive Vehicle .All = some counts.sum) ∧
    enum_count_recursive Vehicle .All = some 4 ∧
    (reachable Vehicle).map NestedEnum.internalName = ["Vehicle".data, "Vehicle::Land".data] :=
  ⟨Vehicle_defined,
    C20_count_recursive Vehicle false [] none "Vehicle".data none Vehicle.entries
      Vehicle.specialisations .All rfl Vehicle_defined,
    by decide, by decide⟩

/-! ## Facts about qualified names in a tree -/

theorem colon_cancel (a b r r2 : List Char) (ha : ColonFree a) (hb : ColonFree b)
    (h : a ++ r = b ++ r2) (hr : r = [] ∨ r.head? = some ':')
    (hr2 : r2 = [] ∨ r2.head? = some ':') : a = b := by
  induction a generalizing b with
  | nil =>
    cases b with
    | nil => rfl
    | cons d b =>
      have hd : d ≠ ':' := fun hd => hb (by simp [hd])
      rcases hr with hr | hr
      · subst hr; simp at h
      · simp only [List.nil_append] at h
        rw [h] at hr
        simp only [List.cons_append, List.head?_cons, Option.some.injEq] at hr
        exact absurd hr hd
  | cons c a ih =>
    have hc : c ≠ ':' := fun hc => ha (by simp [hc])
    cases b with
    | nil =>
      rcases hr2 with hr2 | hr2
      · subst hr2; simp at h
      · simp only [List.nil_append] at h
        rw [← h] at hr2
        simp only [List.cons_append, List.head?_cons, Option.some.injEq] at hr2
        exact absurd hr2 hc
    | cons d b =>
      simp only [List.cons_append, List.cons.injEq] at h
      rw [h.1, ih b (fun hm => ha (by simp [hm])) (fun hm => hb (by simp [hm])) h.2]

theorem StrictBelow_below (p x : fixed_string) (h : StrictBelow p x) : Below p x := by
  obtain ⟨t, rfl⟩ := h
  exact ⟨scopeResolution ++ t, by simp, Or.inr (by simp [scopeResolution])⟩

theorem Below_self (p : fixed_string) : Below p p := ⟨[], by simp, Or.inl rfl⟩

theorem Below_strict (p e x : fixed_string) (h : Below (p ++ scopeResolution ++ e) x) :
    StrictBelow p x := by
  obtain ⟨r, rfl, _⟩ := h
  exact ⟨e ++ r, by simp⟩

theorem StrictBelow_ne (p x : fixed_string) (h : StrictBelow p x) : x ≠ p := by
  obtain ⟨t, rfl⟩ := h
  intro heq
  have := congrArg List.length heq
  simp [scopeResolution] at this

theorem Below_same_entry (q e e2 x : fixed_string) (he : ColonFree e) (he2 : ColonFree e2)
    (h : Below (q ++ scopeResolution ++ e) x) (h2 : Below (q ++ scopeResolution ++ e2) x) :
    e = e2 := by
  obtain ⟨r, hx, hr⟩ := h
  obtain ⟨r2, hx2, hr2⟩ := h2
  rw [hx] at hx2
  simp only [List.append_assoc] at hx2
  have := List.append_cancel_left (List.append_cancel_left hx2)
  exact colon_cancel e e2 r r2 he he2 this hr hr2

theorem entry_names_SETUP (isLeafValue : Bool) (globalPrefix : fixed_string)
    (parent : Option parent_view) (typeName : fixed_string) (underlying : Option int_type)
    (entries : List Entry) (specialisations : List Specialisation)
    (hname : NulFree (create_name parent globalPrefix typeName))
    (hentries : ∀ e ∈ entries, NulFree e.name) :
    entry_names (SETUP.struct isLeafValue globalPrefix parent typeName underlying entries
        specialisations) =
      ((entries.map Entry.name).map fun v =>
        create_name parent globalPrefix typeName ++ scopeResolution ++ v) ++
      entry_names.children (STRUCT_PREP.structs
        (DEFINITION.statics isLeafValue globalPrefix parent typeName underlying entries)
        (entries.zip (DEFINITION.statics isLeafValue globalPrefix parent typeName underlying
          entries).enumValues) specialisations) := by
  have hvals : ∀ v ∈ entries.map Entry.name, NulFree v := by
    intro v hv
    obtain ⟨e, he, rfl⟩ := List.mem_map.1 hv
    exact hentries e he
  have h := names_table_false (create_name parent globalPrefix typeName) (entries.map Entry.name)
    hname hvals
  have hb := SETUP_enumNames isLeafValue globalPrefix parent typeName underlying entries
    specialisations
  have hl := SETUP_enumValues_length isLeafValue globalPrefix parent typeName underlying entries
    specialisations
  simp only [SETUP.struct, NestedEnum.enumNames, NestedEnum.enumValues, NestedEnum.statics]
    at hb hl ⊢
  rw [entry_names, hb, hl]
  rw [List.length_map] at h
  rw [if_pos rfl, h]

theorem node_names_SETUP (isLeafValue : Bool) (globalPrefix : fixed_string)
    (parent : Option parent_view) (typeName : fixed_string) (underlying : Option int_type)
    (entries : List Entry) (specialisations : List Specialisation) :
    node_names (SETUP.struct isLeafValue globalPrefix parent typeName underlying entries
        specialisations) =
      create_name parent globalPrefix typeName ::
      node_names.children (STRUCT_PREP.structs
        (DEFINITION.statics isLeafValue globalPrefix parent typeName underlying entries)
        (entries.zip (DEFINITION.statics isLeafValue globalPrefix parent typeName underlying
          entries).enumValues) specialisations) := by
  simp only [SETUP.struct]
  rw [node_names]
  simp [DEFINITION.statics]

theorem SETUP_names (isLeafValue : Bool) (globalPrefix : fixed_string)
    (parent : Option parent_view) (typeName : fixed_string) (underlying : Option int_type)
    (entries : List Entry) (specialisations : List Specialisation)
    (hname : NulFree (create_name parent globalPrefix typeName))
    (hd : distinct_identifiers entries)
    (hL : NamesBelow.all (STRUCT_PREP.structs
        (DEFINITION.statics isLeafValue globalPrefix parent typeName underlying entries)
        (entries.zip (DEFINITION.statics isLeafValue globalPrefix parent typeName underlying
          entries).enumValues) specialisations)
      (create_name parent globalPrefix typeName) (entries.map Entry.name)) :
    NamesBelow (SETUP.struct isLeafValue globalPrefix parent typeName underlying entries specialisations)
      (create_name parent globalPrefix typeName) := by
  obtain ⟨hL1, hL2, hL3, hL4⟩ := hL
  have hcf : ∀ v ∈ entries.map Entry.name, ColonFree v := by
    intro v hv
    obtain ⟨e, he, rfl⟩ := List.mem_map.1 hv
    exact (hd.2 e he).2
  unfold NamesBelow
  rw [entry_names_SETUP _ _ _ _ _ _ _ hname (fun e he => (hd.2 e he).1), node_names_SETUP]
  refine ⟨?_, ?_, ?_, ?_⟩
  · rw [List.nodup_append]
    refine ⟨hd.1.map (fun a b hab => List.append_cancel_left hab), hL1, ?_⟩
    intro x hx1 hx2
    obtain ⟨e, he, rfl⟩ := List.mem_map.1 hx1
    obtain ⟨e2, he2, hb⟩ := hL2 _ hx2
    have := Below_same_entry _ e e2 _ (hcf e he) (hcf e2 he2) (Below_self _)
      (StrictBelow_below _ _ hb)
    subst this
    exact StrictBelow_ne _ _ hb rfl
  · intro x hx
    rcases List.mem_append.1 hx with hx | hx
    · obtain ⟨e, _, rfl⟩ := List.mem_map.1 hx
      exact ⟨e, rfl⟩
    · obtain ⟨e, _, hb⟩ := hL2 _ hx
      exact Below_strict _ e _ (StrictBelow_below _ _ hb)
  · rw [List.nodup_cons]
    refine ⟨fun hx => ?_, hL3⟩
    obtain ⟨e, _, hb⟩ := hL4 _ hx
    exact StrictBelow_ne _ _ (Below_strict _ e _ hb) rfl
  · intro x hx
    rcases List.mem_cons.1 hx with hx | hx
    · subst hx; exact Below_self _
    · obtain ⟨e, _, hb⟩ := hL4 _ hx
      exact StrictBelow_below _ _ (Below_strict _ e _ hb)

theorem entry_names_TREE_ (P : members) (e : Entry) (value : Int) :
    entry_names (TREE_ P e value) = [] := by
  simp [TREE_, BODY_, entry_names, entry_names.children]

theorem node_names_TREE_ (P : members) (e : Entry) (value : Int) :
    node_names (TREE_ P e value) = [P.internalName ++ scopeResolution ++ e.name] := by
  simp [TREE_, BODY_, node_names, node_names.children, create_name, members.view,
    fixed_string.append_eq]

theorem NamesBelow_leaves (P : members) (entries : List (Entry × Int))
    (hnd : (entries.map fun ev => ev.1.name).Nodup) :
    NamesBelow.all (entries.map fun ev => TREE_ P ev.1 ev.2) P.internalName
      (entries.map fun ev => ev.1.name) := by
  have h1 : entry_names.children (entries.map fun ev => TREE_ P ev.1 ev.2) = [] := by
    induction entries with
    | nil => rfl
    | cons ev entries ih =>
      simp only [List.map_cons, entry_names.children, entry_names_TREE_, List.nil_append]
      exact ih (List.nodup_cons.1 hnd).2
  have h2 : node_names.children (entries.map fun ev => TREE_ P ev.1 ev.2) =
      (entries.map fun ev => ev.1.name).map fun v => P.internalName ++ scopeResolution ++ v := by
    clear h1 hnd
    induction entries with
    | nil => rfl
    | cons ev entries ih =>
      simp only [List.map_cons, node_names.children, node_names_TREE_, ih]
      rfl
  unfold NamesBelow.all
  rw [h1, h2]
  refine ⟨List.nodup_nil, fun x hx => by simp at hx,
    hnd.map (fun a b hab => List.append_cancel_left hab), ?_⟩
  intro x hx
  obtain ⟨e, he, rfl⟩ := List.mem_map.1 hx
  exact ⟨e, he, Below_self _⟩

theorem NamesBelow_cons (T : NestedEnum) (Ts : List NestedEnum) (q e : fixed_string)
    (names : List fixed_string) (hnd : (e :: names).Nodup)
    (hcf : ∀ v ∈ e :: names, ColonFree v)
    (hT : NamesBelow T (q ++ scopeResolution ++ e)) (hTs : NamesBelow.all Ts q names) :
    NamesBelow.all (T :: Ts) q (e :: names) := by
  obtain ⟨hT1, hT2, hT3, hT4⟩ := hT
  obtain ⟨hL1, hL2, hL3, hL4⟩ := hTs
  have he : e ∉ names := (List.nodup_cons.1 hnd).1
  unfold NamesBelow.all
  simp only [entry_names.children, node_names.children]
  refine ⟨?_, ?_, ?_, ?_⟩
  · rw [List.nodup_append]
    refine ⟨hT1, hL1, fun x hx1 hx2 => ?_⟩
    obtain ⟨e2, he2, hb⟩ := hL2 x hx2
    have := Below_same_entry q e e2 x (hcf e (by simp)) (hcf e2 (by simp [he2]))
      (StrictBelow_below _ _ (hT2 x hx1)) (StrictBelow_below _ _ hb)
    exact he (this ▸ he2)
  · intro x hx
    rcases List.mem_append.1 hx with hx | hx
    · exact ⟨e, by simp, hT2 x hx⟩
    · obtain ⟨e2, he2, hb⟩ := hL2 x hx
      exact ⟨e2, by simp [he2], hb⟩
  · rw [List.nodup_append]
    refine ⟨hT3, hL3, fun x hx1 hx2 => ?_⟩
    obtain ⟨e2, he2, hb⟩ := hL4 x hx2
    have := Below_same_entry q e e2 x (hcf e (by simp)) (hcf e2 (by simp [he2])) (hT4 x hx1) hb
    exact he (this ▸ he2)
  · intro x hx
    rcases List.mem_append.1 hx with hx | hx
    · exact ⟨e, by simp, hT4 x hx⟩
    · obtain ⟨e2, he2, hb⟩ := hL4 x hx
      exact ⟨e2, by simp [he2], hb⟩

theorem zip_names (entries : List Entry) (values : List Int) (h : values.length = entries.length) :
    ((entries.zip values).map fun ev => ev.1.name) = entries.map Entry.name := by
  induction entries generalizing values with
  | nil => simp
  | cons e entries ih =>
    cases values with
    | nil => simp at h
    | cons v values => simp [ih values (by simpa using h)]

theorem TREE_eq_SETUP_enum (P : members) (e : Entry) (value : Int)
    (underlying : Option int_type) (entries : List Entry)
    (specialisations : List Specialisation) :
    TREE.struct P e value (.ENUM underlying entries specialisations) =
      SETUP.struct false P.internalGlobalPrefix (some (P.view value)) e.name underlying entries
        specialisations := by
  simp [TREE.struct, SETUP.struct]

theorem TREE_eq_SETUP_from (P : members) (e : Entry) (value : Int)
    (underlying : Option int_type) (entries : List Entry)
    (specialisations : List Specialisation) :
    TREE.struct P e value (.DEFER_FROM underlying entries specialisations) =
      SETUP.struct false P.internalGlobalPrefix (some (P.view value)) e.name underlying entries
        specialisations := by
  simp [TREE.struct, SETUP.struct]

theorem create_name_nested (P : members) (value : Int) (globalPrefix name : fixed_string) :
    create_name (some (P.view value)) globalPrefix name =
      P.internalName ++ scopeResolution ++ name := by
  simp [create_name, members.view, fixed_string.append_eq]

mutual
theorem TREE_names (P : members) (e : Entry) (value : Int) (hP : NulFree P.internalName)
    (he : NulFree e.name) :
    (s : Specialisation) → WellNamed s →
      NamesBelow (TREE.struct P e value s) (P.internalName ++ scopeResolution ++ e.name)
  | .NONE, _ => by
    rw [TREE_NONE]
    unfold NamesBelow
    rw [entry_names_TREE_, node_names_TREE_]
    exact ⟨List.nodup_nil, fun x hx => by simp at hx, List.nodup_singleton _,
      fun x hx => by rw [List.mem_singleton.1 hx]; exact Below_self _⟩
  | .DEFER, _ => by
    simp [TREE.struct, NamesBelow, entry_names, entry_names.children, node_names, node_names.children]
  | .ENUM underlying entries specialisations, h => by
    have hq := NulFree_qualified _ _ hP he
    rw [TREE_eq_SETUP_enum, ← create_name_nested P value P.internalGlobalPrefix e.name]
    rw [← create_name_nested P value P.internalGlobalPrefix e.name] at hq
    refine SETUP_names _ _ _ _ _ _ _ hq h.1 ?_
    have hz := zip_names entries (DEFINITION.statics false P.internalGlobalPrefix (some (P.view value))
      e.name underlying entries).enumValues (DEFINITION_enumValues_length _ _ _ _ _ _)
    rw [← hz]
    refine STRUCT_PREP_names _ hq specialisations _ h.2 (by rw [hz]; exact h.1.1) ?_
    intro ev hev
    exact h.1.2 ev.1 (List.of_mem_zip hev).1
  | .DEFER_FROM underlying entries specialisations, h => by
    have hq := NulFree_qualified _ _ hP he
    rw [TREE_eq_SETUP_from, ← create_name_nested P value P.internalGlobalPrefix e.name]
    rw [← create_name_nested P value P.internalGlobalPrefix e.name] at hq
    refine SETUP_names _ _ _ _ _ _ _ hq h.1 ?_
    have hz := zip_names entries (DEFINITION.statics false P.internalGlobalPrefix (some (P.view value))
      e.name underlying entries).enumValues (DEFINITION_enumValues_length _ _ _ _ _ _)
    rw [← hz]
    refine STRUCT_PREP_names _ hq specialisations _ h.2 (by rw [hz]; exact h.1.1) ?_
    intro ev hev
    exact h.1.2 ev.1 (List.of_mem_zip hev).1
theorem STRUCT_PREP_names (P : members) (hP : NulFree P.internalName) :
    (specialisations : List Specialisation) → (entries : List (Entry × Int)) →
      WellNamed.all specialisations → (entries.map fun ev => ev.1.name).Nodup →
      (∀ ev ∈ entries, NulFree ev.1.name ∧ ColonFree ev.1.name) →
      NamesBelow.all (STRUCT_PREP.structs P entries specialisations) P.internalName
        (entries.map fun ev => ev.1.name)
  | [], entries, _, hnd, _ => by
    rw [STRUCT_PREP.structs]
    exact NamesBelow_leaves P entries hnd
  | s :: specialisations, [], _, _, _ => by
    simp [STRUCT_PREP.structs, NamesBelow.all, entry_names.children, node_names.children]
  | s :: specialisations, ev :: entries, h, hnd, hid => by
    rw [STRUCT_PREP.structs]
    refine NamesBelow_cons _ _ _ _ _ hnd ?_
      (TREE_names P ev.1 ev.2 hP (hid ev (by simp)).1 s h.1)
      (STRUCT_PREP_names P hP specialisations entries h.2 (List.nodup_cons.1 hnd).2
        (fun ev2 hev2 => hid ev2 (by simp [hev2])))
    intro v hv
    have hv2 : v ∈ (ev :: entries).map fun ev => ev.1.name := hv
    obtain ⟨ev2, hev2, rfl⟩ := List.mem_map.1 hv2
    exact (hid ev2 hev2).2
end

/-! ## Uniqueness of qualified names (C12) -/

/-- C12: in every tree in which, at every node, the local names (identifiers) are unique among
siblings, the qualified name of the root and the qualified names of all entries of all nodes,
as `get_string_values` composes them, are pairwise different, and so are the qualified names
of all defined structs, as `create_name` composes them; the names of the entries of the root
are among them. -/
theorem C12_qualified_names_unique (R : NestedEnum) (name : fixed_string)
    (underlying : Option int_type) (globalPrefix : fixed_string) (entries : List Entry)
    (specialisations : List Specialisation)
    (hR : NESTED_ENUM name underlying globalPrefix entries specialisations = some R)
    (hroot : NulFree (create_name none globalPrefix name))
    (hentries : distinct_identifiers entries) (hbelow : WellNamed.all specialisations) :
    (qualified_names R).Nodup ∧ (node_names R).Nodup ∧
    (∀ e ∈ entries, R.internalName ++ scopeResolution ++ e.name ∈ qualified_names R) := by
  obtain rfl := SETUP_some _ _ _ _ _ _ _ _ hR
  have hmem : ∀ e ∈ entries,
      (SETUP.struct false globalPrefix none name underlying entries specialisations).internalName ++
        scopeResolution ++ e.name ∈
      qualified_names (SETUP.struct false globalPrefix none name underlying entries
        specialisations) := by
    intro e he
    rw [qualified_names,
      entry_names_SETUP _ _ _ _ _ _ _ hroot (fun e he => (hentries.2 e he).1), SETUP_internalName]
    refine List.mem_cons_of_mem _ (List.mem_append_left _ ?_)
    exact List.mem_map.2 ⟨e.name, List.mem_map.2 ⟨e, he, rfl⟩, rfl⟩
  have hz := zip_names entries (DEFINITION.statics false globalPrefix none name underlying
    entries).enumValues (DEFINITION_enumValues_length _ _ _ _ _ _)
  have hL := STRUCT_PREP_names (DEFINITION.statics false globalPrefix none name underlying entries) hroot
    specialisations (entries.zip (DEFINITION.statics false globalPrefix none name underlying
      entries).enumValues) hbelow (by rw [hz]; exact hentries.1)
    (fun ev hev => hentries.2 ev.1 (List.of_mem_zip hev).1)
  rw [hz] at hL
  obtain ⟨h1, h2, h3, _⟩ := SETUP_names false globalPrefix none name underlying entries
    specialisations hroot hentries hL
  refine ⟨?_, h3, hmem⟩
  rw [qualified_names, List.nodup_cons]
  exact ⟨fun hx => StrictBelow_ne _ _ (h2 _ hx) rfl, h1⟩

/-- Witness of C12: the five qualified names of `Vehicle{Land{Car, Truck}, Watercraft}`. -/
theorem C12_qualified_names_unique_witness :
    (qualified_names Vehicle).Nodup ∧ (node_names Vehicle).Nodup ∧
    qualified_names Vehicle = ["Vehicle".data, "Vehicle::Land".data, "Vehicle::Watercraft".data,
      "Vehicle::Land::Car".data, "Vehicle::Land::Truck".data] := by
  have h := C12_qualified_names_unique Vehicle "Vehicle".data none [] Vehicle.entries
    Vehicle.specialisations rfl (by decide) ⟨by decide, by decide⟩
    (by
      simp only [Vehicle.specialisations, WellNamed.all, WellNamed, distinct_identifiers, and_true]
      decide)
  exact ⟨h.1, h.2.1, by decide⟩

/-! ## Facts about the structs of a tree -/

theorem mem_structs_self (E : NestedEnum) : E ∈ structs E := by
  cases E with
  | mk c m Ts => simp [structs]

theorem structs_subtypes (E : NestedEnum) : structs E = E :: structs.children E.subtypes := by
  cases E with
  | mk c m Ts => simp [structs, NestedEnum.subtypes]

/-! ## Facts about the structs of a generated tree -/

theorem TREE__eq_SETUP (P : members) (e : Entry) (value : Int) :
    TREE_ P e value =
      SETUP.struct true P.internalGlobalPrefix (some (P.view value)) e.name none [] [] := by
  rw [TREE__eq]
  simp [SETUP.struct, STRUCT_PREP.structs]

theorem structs_SETUP (isLeafValue : Bool) (globalPrefix : fixed_string)
    (parent : Option parent_view) (typeName : fixed_string) (underlying : Option int_type)
    (entries : List Entry) (specialisations : List Specialisation) :
    structs (SETUP.struct isLeafValue globalPrefix parent typeName underlying entries
        specialisations) =
      SETUP.struct isLeafValue globalPrefix parent typeName underlying entries specialisations ::
      structs.children (STRUCT_PREP.structs
        (DEFINITION.statics isLeafValue globalPrefix parent typeName underlying entries)
        (entries.zip (DEFINITION.statics isLeafValue globalPrefix parent typeName underlying
          entries).enumValues) specialisations) := by
  simp only [SETUP.struct]
  rw [structs]

theorem structs_TREE_ (P : members) (e : Entry) (value : Int) :
    structs (TREE_ P e value) = [TREE_ P e value] := by
  simp [TREE_, structs, structs.children]

theorem declared_TREE_ (P : members) (e : Entry) (value : Int) (hP : NulFree P.internalName)
    (he : NulFree e.name) :
    Declared (TREE_ P e value) ∧ ((TREE_ P e value).isLeaf = true → (TREE_ P e value).subtypes = []) := by
  refine ⟨⟨true, P.internalGlobalPrefix, some (P.view value), e.name, none, [], [],
    TREE__eq_SETUP P e value, ?_, ?_⟩, fun _ => rfl⟩
  · rw [create_name_nested]
    exact NulFree_qualified _ _ hP he
  · exact ⟨List.nodup_nil, fun e he => by simp at he⟩

mutual
theorem TREE_declared (P : members) (e : Entry) (value : Int) (hP : NulFree P.internalName)
    (he : NulFree e.name) :
    (s : Specialisation) → WellNamed s →
      ∀ N ∈ (if (TREE.struct P e value s).isComplete then structs (TREE.struct P e value s) else []),
        Declared N ∧ (N.isLeaf = true → N.subtypes = [])
  | .NONE, _ => by
    rw [TREE_NONE]
    intro N hN
    have hc : (TREE_ P e value).isComplete = true := rfl
    rw [if_pos hc, structs_TREE_, List.mem_singleton] at hN
    rw [hN]
    exact declared_TREE_ P e value hP he
  | .DEFER, _ => by
    intro N hN
    simp [TREE.struct, NestedEnum.isComplete] at hN
  | .ENUM underlying entries specialisations, h => by
    have hq := NulFree_qualified _ _ hP he
    rw [← create_name_nested P value P.internalGlobalPrefix e.name] at hq
    rw [TREE_eq_SETUP_enum]
    intro N hN
    have hc : (SETUP.struct false P.internalGlobalPrefix (some (P.view value)) e.name underlying entries
      specialisations).isComplete = true := rfl
    rw [if_pos hc, structs_SETUP] at hN
    rcases List.mem_cons.1 hN with hN | hN
    · rw [hN]
      exact ⟨⟨_, _, _, _, _, _, _, rfl, hq, h.1⟩, fun hl => by simp [SETUP.struct, NestedEnum.isLeaf,
        NestedEnum.statics, DEFINITION.statics] at hl⟩
    · exact STRUCT_PREP_declared _ hq specialisations _ h.2
        (fun ev hev => (h.1.2 ev.1 (List.of_mem_zip hev).1).1) N hN
  | .DEFER_FROM underlying entries specialisations, h => by
    have hq := NulFree_qualified _ _ hP he
    rw [← create_name_nested P value P.internalGlobalPrefix e.name] at hq
    rw [TREE_eq_SETUP_from]
    intro N hN
    have hc : (SETUP.struct false P.internalGlobalPrefix (some (P.view value)) e.name underlying entries
      specialisations).isComplete = true := rfl
    rw [if_pos hc, structs_SETUP] at hN
    rcases List.mem_cons.1 hN with hN | hN
    · rw [hN]
      exact ⟨⟨_, _, _, _, _, _, _, rfl, hq, h.1⟩, fun hl => by simp [SETUP.struct, NestedEnum.isLeaf,
        NestedEnum.statics, DEFINITION.statics] at hl⟩
    · exact STRUCT_PREP_declared _ hq specialisations _ h.2
        (fun ev hev => (h.1.2 ev.1 (List.of_mem_zip hev).1).1) N hN
theorem STRUCT_PREP_declared (P : members) (hP : NulFree P.internalName) :
    (specialisations : List Specialisation) → (entries : List (Entry × Int)) →
      WellNamed.all specialisations → (∀ ev ∈ entries, NulFree ev.1.name) →
      ∀ N ∈ structs.children (STRUCT_PREP.structs P entries specialisations),
        Declared N ∧ (N.isLeaf = true → N.subtypes = [])
  | [], entries, _, hid => by
    rw [STRUCT_PREP.structs]
    induction entries with
    | nil => intro N hN; simp [structs.children] at hN
    | cons ev entries ih =>
      intro N hN
      have hc : (TREE_ P ev.1 ev.2).isComplete = true := rfl
      rw [List.map_cons, structs.children, if_pos hc, structs_TREE_] at hN
      rcases List.mem_append.1 hN with hN | hN
      · rw [List.mem_singleton.1 hN]
        exact declared_TREE_ P ev.1 ev.2 hP (hid ev (by simp))
      · exact ih (fun ev2 hev2 => hid ev2 (by simp [hev2])) N hN
  | s :: specialisations, [], _, _ => by
    intro N hN
    simp [STRUCT_PREP.structs, structs.children] at hN
  | s :: specialisations, ev :: entries, h, hid => by
    intro N hN
    rw [STRUCT_PREP.structs, structs.children] at hN
    rcases List.mem_append.1 hN with hN | hN
    · exact TREE_declared P ev.1 ev.2 hP (hid ev (by simp)) s h.1 N hN
    · exact STRUCT_PREP_declared P hP specialisations entries h.2
        (fun ev2 hev2 => hid ev2 (by simp [hev2])) N hN
end

/-- Every defined struct of a tree declared with identifiers is generated by
`NESTED_ENUM_INTERNAL_SETUP` from identifiers, and below the root a leaf has no subtypes. -/
theorem SETUP_declared (isLeafValue : Bool) (globalPrefix : fixed_string)
    (parent : Option parent_view) (typeName : fixed_string) (underlying : Option int_type)
    (entries : List Entry) (specialisations : List Specialisation)
    (hname : NulFree (create_name parent globalPrefix typeName))
    (hentries : distinct_identifiers entries) (hbelow : WellNamed.all specialisations) :
    (∀ N ∈ structs (SETUP.struct isLeafValue globalPrefix parent typeName underlying entries
      specialisations), Declared N) ∧
    (∀ N ∈ structs.children (SETUP.struct isLeafValue globalPrefix parent typeName underlying entries
      specialisations).subtypes, N.isLeaf = true → N.subtypes = []) := by
  have h := STRUCT_PREP_declared (DEFINITION.statics isLeafValue globalPrefix parent typeName underlying
    entries) hname specialisations (entries.zip (DEFINITION.statics isLeafValue globalPrefix parent
      typeName underlying entries).enumValues) hbelow
    (fun ev hev => (hentries.2 ev.1 (List.of_mem_zip hev).1).1)
  constructor
  · intro N hN
    rw [structs_SETUP] at hN
    rcases List.mem_cons.1 hN with hN | hN
    · rw [hN]; exact ⟨_, _, _, _, _, _, _, rfl, hname, hentries⟩
    · exact (h N hN).1
  · intro N hN
    exact (h N hN).2

/-! ## Facts about the tables of a declared struct -/

theorem Declared_lengths (N : NestedEnum) (h : Declared N) :
    N.subtypes.length = N.enumValues.length ∧ N.enumIds.length = N.subtypes.length := by
  obtain ⟨i, gp, p, tn, ut, entries, specs, rfl, _, _⟩ := h
  exact ⟨SETUP_lengths _ _ _ _ _ _ _, by rw [SETUP_enumIds, SETUP_subtypes_length]; simp [GET_ID]⟩

theorem Declared_names (N : NestedEnum) (h : Declared N) (hdef : EntriesDefined N)
    (S : InnerOuterAll) (clean : Bool) :
    enum_names N S clean = some (subsequence (classification N S) (all_names N clean)) ∧
    enum_names N .All clean = some (all_names N clean) ∧
    (all_names N clean).length = N.subtypes.length := by
  obtain ⟨i, gp, p, tn, ut, entries, specs, rfl, hname, hd⟩ := h
  have hvals : ∀ v ∈ entries.map Entry.name, NulFree v := by
    intro v hv
    obtain ⟨e, he, rfl⟩ := List.mem_map.1 hv
    exact (hd.2 e he).1
  have hn : (entries.map Entry.name).length =
      (SETUP.struct i gp p tn ut entries specs).subtypes.length := by
    rw [SETUP_subtypes_length, List.length_map]
  have hall := enum_names_eq _ .All clean (create_name p gp tn) (entries.map Entry.name)
    (SETUP_lengths _ _ _ _ _ _ _) hn rfl hname hvals hdef
  rw [subsequence_classification_All _ _ (by simpa using hn)] at hall
  have htab : all_names (SETUP.struct i gp p tn ut entries specs) clean =
      (List.range (entries.map Entry.name).length).map fun k =>
        (get_substring (get_string_values (create_name p gp tn) (entries.map Entry.name)) k
          clean).getD [] := by
    rw [all_names, hall]; rfl
  refine ⟨?_, ?_, ?_⟩
  · rw [htab]
    exact enum_names_eq _ S clean (create_name p gp tn) (entries.map Entry.name)
      (SETUP_lengths _ _ _ _ _ _ _) hn rfl hname hvals hdef
  · rw [htab]; exact hall
  · rw [htab]; simpa using hn

/-! ## Recursive aggregates (C21) -/

/-- C21 (failing input): in `Branch{A{B{D}, C}}` under `Outer` the root has no entry of its
own to give and one subtype to query, so `return_recursive_internal` returns a tuple of one
element, the tuple of `A` (the array of `C` and the tuple of `B`). `flatten` hands its one
element to the overloads declared before `flatten(std::tuple<T>)`, of which `flatten(auto)`
returns it as it is: the aggregate that is not flattened stays nested, and the flattened
aggregates `enum_names_recursive<Outer, true>()`, `enum_ids_recursive<Outer, true>()` and
`enum_names_and_ids_recursive<Outer, true>()` have no result, where the concatenation of the
filtered tables in pre-order is `Branch::A::C`, `Branch::A::B::D`. Under `All` the aggregate
is that concatenation. -/
theorem C21_aggregate_of_one_branch :
    return_recursive_internal (fun T => enum_names T .Outer false) .Outer Branch =
      some (.tuple [.tuple [.array ["Branch::A::C".data],
        .tuple [.array ["Branch::A::B::D".data]]]]) ∧
    enum_names_recursive Branch .Outer false false =
      some (.tuple [.array ["Branch::A::C".data], .tuple [.array ["Branch::A::B::D".data]]]) ∧
    enum_names_recursive Branch .Outer true false = none ∧
    enum_ids_recursive Branch .Outer true = none ∧
    enum_names_and_ids_recursive Branch .Outer true false = none ∧
    (structs Branch).flatMap (fun N => subsequence (classification N .Outer) (all_names N false)) =
      ["Branch::A::C".data, "Branch::A::B::D".data] ∧
    enum_names_recursive Branch .All true false =
      some (.array ((structs Branch).flatMap fun N =>
        subsequence (classification N .All) (all_names N false))) :=
  ⟨rfl, rfl, rfl, rfl, rfl, by decide, rfl⟩

/-! ## Facts about the recursive search -/

mutual
theorem TREE_table_lengths (P : members) (e : Entry) (value : Int) :
    (s : Specialisation) →
      ∀ N ∈ (if (TREE.struct P e value s).isComplete then structs (TREE.struct P e value s) else []),
        N.enumIds.length = N.enumValues.length
  | .NONE => by
    rw [TREE_NONE]
    intro N hN
    have hc : (TREE_ P e value).isComplete = true := rfl
    rw [if_pos hc, structs_TREE_, List.mem_singleton] at hN
    rw [hN, TREE__eq_SETUP, SETUP_enumIds, SETUP_enumValues_length]
    rfl
  | .DEFER => by
    intro N hN
    simp [TREE.struct, NestedEnum.isComplete] at hN
  | .ENUM underlying entries specialisations => by
    rw [TREE_eq_SETUP_enum]
    intro N hN
    have hc : (SETUP.struct false P.internalGlobalPrefix (some (P.view value)) e.name underlying entries
      specialisations).isComplete = true := rfl
    rw [if_pos hc, structs_SETUP] at hN
    rcases List.mem_cons.1 hN with hN | hN
    · rw [hN, SETUP_enumIds, SETUP_enumValues_length, List.length_map]
    · exact STRUCT_PREP_table_lengths _ specialisations _ N hN
  | .DEFER_FROM underlying entries specialisations => by
    rw [TREE_eq_SETUP_from]
    intro N hN
    have hc : (SETUP.struct false P.internalGlobalPrefix (some (P.view value)) e.name underlying entries
      specialisations).isComplete = true := rfl
    rw [if_pos hc, structs_SETUP] at hN
    rcases List.mem_cons.1 hN with hN | hN
    · rw [hN, SETUP_enumIds, SETUP_enumValues_length, List.length_map]
    · exact STRUCT_PREP_table_lengths _ specialisations _ N hN
theorem STRUCT_PREP_table_lengths (P : members) :
    (specialisations : List Specialisation) → (entries : List (Entry × Int)) →
      ∀ N ∈ structs.children (STRUCT_PREP.structs P entries specialisations),
        N.enumIds.length = N.enumValues.length
  | [], entries => by
    rw [STRUCT_PREP.structs]
    induction entries with
    | nil => intro N hN; simp [structs.children] at hN
    | cons ev entries ih =>
      intro N hN
      have hc : (TREE_ P ev.1 ev.2).isComplete = true := rfl
      rw [List.map_cons, structs.children, if_pos hc, structs_TREE_] at hN
      rcases List.mem_append.1 hN with hN | hN
      · rw [List.mem_singleton.1 hN, TREE__eq_SETUP, SETUP_enumIds, SETUP_enumValues_length]
        rfl
      · exact ih N hN
  | s :: specialisations, [] => by
    intro N hN
    simp [STRUCT_PREP.structs, structs.children] at hN
  | s :: specialisations, ev :: entries => by
    intro N hN
    rw [STRUCT_PREP.structs, structs.children] at hN
    rcases List.mem_append.1 hN with hN | hN
    · exact TREE_table_lengths P ev.1 ev.2 s N hN
    · exact STRUCT_PREP_table_lengths P specialisations entries N hN
end

/-- At every defined struct of a tree, each entry has its place in the table of ids. -/
theorem SETUP_table_lengths (isLeafValue : Bool) (globalPrefix : fixed_string)
    (parent : Option parent_view) (typeName : fixed_string) (underlying : Option int_type)
    (entries : List Entry) (specialisations : List Specialisation) :
    ∀ N ∈ structs (SETUP.struct isLeafValue globalPrefix parent typeName underlying entries
      specialisations), N.enumIds.length = N.enumValues.length := by
  intro N hN
  rw [structs_SETUP] at hN
  rcases List.mem_cons.1 hN with hN | hN
  · rw [hN, SETUP_enumIds, SETUP_enumValues_length, List.length_map]
  · exact STRUCT_PREP_table_lengths _ specialisations _ N hN

theorem lookup_by_id_isSome (N : NestedEnum) (hlen : N.enumIds.length = N.enumValues.length)
    (id : fixed_string) :
    (enum_value_by_id N id).map Option.isSome = some (decide (some id ∈ N.enumIds)) ∧
    (enum_integer_by_id N id).map Option.isSome = some (decide (some id ∈ N.enumIds)) ∧
    (some id ∈ N.enumIds → ∃ v, enum_value_by_id N id = some (some v) ∧
      enum_integer_by_id N id = some (some v)) ∧
    (some id ∉ N.enumIds → enum_value_by_id N id = some none ∧
      enum_integer_by_id N id = some none) := by
  unfold enum_value_by_id enum_integer_by_id
  rw [find_index_optional_eq]
  cases hf : find_index N.enumIds (some id) with
  | none =>
    have hmem := (find_index_eq_none _ _).1 hf
    simp [hmem]
  | some i =>
    have hilt := find_index_lt _ _ _ hf
    have hmem : some id ∈ N.enumIds := List.getElem?_mem ((find_index_eq_some _ _ i).1 hf).1
    have hiv : i < N.enumValues.length := by omega
    simp [hmem, List.getElem?_eq_getElem hiv]

theorem lookup_by_name_isSome (N : NestedEnum) (hD : Declared N) (hdef : EntriesDefined N)
    (key : fixed_string) :
    (enum_value N key).map Option.isSome = some (decide (key ∈ all_names N false)) ∧
    (enum_integer N key).map Option.isSome = some (decide (key ∈ all_names N false)) ∧
    (key ∈ all_names N false → ∃ v, enum_value N key = some (some v) ∧
      enum_integer N key = some (some v)) ∧
    (key ∉ all_names N false → enum_value N key = some none ∧
      enum_integer N key = some none) := by
  obtain ⟨_, hall, hlen⟩ := Declared_names N hD hdef .All false
  have hl := Declared_lengths N hD
  unfold enum_value enum_integer
  rw [hall]
  cases hf : find_index (all_names N false) key with
  | none =>
    have hmem := (find_index_eq_none _ _).1 hf
    simp [hmem, hf]
  | some i =>
    have hilt := find_index_lt _ _ _ hf
    have hmem : key ∈ all_names N false := List.getElem?_mem ((find_index_eq_some _ _ i).1 hf).1
    have hiv : i < N.enumValues.length := by omega
    simp [hmem, hf, List.getElem?_eq_getElem hiv]

mutual
theorem find_type_eq (Predicate : NestedEnum → Option Bool) (p : NestedEnum → Bool)
    (user : Option Int) :
    (E : NestedEnum) → (∀ N ∈ structs E, Predicate N = some (p N)) →
      ((structs E).filter p).length ≤ 1 →
      find_type_recursive_internal Predicate user E = some ((structs E).filter p)
  | .mk c m Ts, hP, hone => by
    have hE := hP _ (mem_structs_self _)
    have hrec := subtypesResult_eq Predicate p user Ts
      (fun N hN => hP N (by rw [structs]; exact List.mem_cons_of_mem _ hN))
    rw [find_type_recursive_internal, hE]
    rw [structs, List.filter_cons] at hone ⊢
    cases hp : p (NestedEnum.mk c m Ts) with
    | true =>
      simp only [hp, if_true, List.length_cons] at hone ⊢
      rw [List.length_eq_zero.1 (by omega : (List.filter p (structs.children Ts)).length = 0)]
    | false =>
      simp only [hp, Bool.false_eq_true, if_false] at hone ⊢
      by_cases h0 : Ts.length = 0
      · rw [if_pos h0, List.length_eq_zero.1 h0]
        rfl
      · rw [if_neg h0]
        simp only [hrec hone]
        by_cases hr : (List.filter p (structs.children Ts)).length > 0
        · rw [if_pos hr, if_neg (by omega)]
        · rw [if_neg hr, List.length_eq_zero.1 (by omega :
            (List.filter p (structs.children Ts)).length = 0)]
theorem subtypesResult_eq (Predicate : NestedEnum → Option Bool) (p : NestedEnum → Bool)
    (user : Option Int) :
    (Ts : List NestedEnum) → (∀ N ∈ structs.children Ts, Predicate N = some (p N)) →
      ((structs.children Ts).filter p).length ≤ 1 →
      find_type_recursive_internal.subtypesResult Predicate user Ts =
        some ((structs.children Ts).filter p)
  | [], _, _ => rfl
  | T :: Ts, hP, hone => by
    rw [structs.children, List.filter_append, List.length_append] at hone
    rw [find_type_recursive_internal.subtypesResult, structs.children, List.filter_append,
      subtypesResult_eq Predicate p user Ts
        (fun N hN => hP N (by rw [structs.children]; exact List.mem_append_right _ hN))
        (by omega)]
    by_cases hc : T.isComplete = true
    · rw [if_pos hc] at hone
      rw [if_pos hc, if_pos hc, find_type_eq Predicate p user T
        (fun N hN => hP N (by
          rw [structs.children, if_pos hc]; exact List.mem_append_left _ hN))
        (by omega)]
    · rw [if_neg hc, if_neg hc]
      rfl
end

mutual
theorem find_type_found (Predicate : NestedEnum → Option Bool) (p : NestedEnum → Bool)
    (user : Option Int) :
    (E : NestedEnum) → (∀ N ∈ structs E, Predicate N = some (p N)) →
      (∃ N ∈ structs E, p N = true) →
      find_type_recursive_internal Predicate user E ≠ some []
  | .mk c m Ts, hP, hex => by
    have hE := hP _ (mem_structs_self _)
    rw [find_type_recursive_internal, hE]
    cases hp : p (NestedEnum.mk c m Ts) with
    | true => simp
    | false =>
      have hex2 : ∃ N ∈ structs.children Ts, p N = true := by
        obtain ⟨N, hN, hpN⟩ := hex
        rw [structs] at hN
        rcases List.mem_cons.1 hN with hN | hN
        · rw [hN, hp] at hpN; cases hpN
        · exact ⟨N, hN, hpN⟩
      have hrec := subtypesResult_found Predicate p user Ts
        (fun N hN => hP N (by rw [structs]; exact List.mem_cons_of_mem _ hN)) hex2
      have h0 : ¬ Ts.length = 0 := by
        intro h0
        obtain ⟨N, hN, _⟩ := hex2
        rw [List.length_eq_zero.1 h0] at hN
        simp [structs.children] at hN
      simp only [if_neg h0]
      cases hr : find_type_recursive_internal.subtypesResult Predicate user Ts with
      | none => simp
      | some r =>
        have hr0 : r ≠ [] := fun h => hrec (by rw [hr, h])
        have hlen : r.length > 0 := List.length_pos.2 hr0
        simp only [if_pos hlen]
        by_cases ha : multiple_results_assert user = true ∧ r.length ≠ 1
        · rw [if_pos ha]; simp
        · rw [if_neg ha]; simpa using hr0
theorem subtypesResult_found (Predicate : NestedEnum → Option Bool) (p : NestedEnum → Bool)
    (user : Option Int) :
    (Ts : List NestedEnum) → (∀ N ∈ structs.children Ts, Predicate N = some (p N)) →
      (∃ N ∈ structs.children Ts, p N = true) →
      find_type_recursive_internal.subtypesResult Predicate user Ts ≠ some []
  | [], _, hex => by
    obtain ⟨N, hN, _⟩ := hex
    simp [structs.children] at hN
  | T :: Ts, hP, hex => by
    rw [find_type_recursive_internal.subtypesResult]
    obtain ⟨N, hN, hpN⟩ := hex
    rw [structs.children] at hN
    cases h1 : (if T.isComplete = true then find_type_recursive_internal Predicate user T
        else some []) with
    | none => simp
    | some r1 =>
      cases h2 : find_type_recursive_internal.subtypesResult Predicate user Ts with
      | none => simp
      | some r2 =>
        simp only [Option.some.injEq, ne_eq, List.append_eq_nil, not_and]
        intro hr1 hr2
        rcases List.mem_append.1 hN with hN | hN
        · by_cases hc : T.isComplete = true
          · rw [if_pos hc] at hN h1
            exact find_type_found Predicate p user T
              (fun M hM => hP M (by
                rw [structs.children, if_pos hc]; exact List.mem_append_left _ hM))
              ⟨N, hN, hpN⟩ (by rw [h1, hr1])
          · rw [if_neg hc] at hN
            simp at hN
        · exact subtypesResult_found Predicate p user Ts
            (fun M hM => hP M (by rw [structs.children]; exact List.mem_append_right _ hM))
            ⟨N, hN, hpN⟩ (by rw [h2, hr2])
end

/-- The results of the subtypes hold one struct at least for every subtype in whose tree
the predicate holds somewhere. -/
theorem subtypesResult_length (Predicate : NestedEnum → Option Bool) (p : NestedEnum → Bool)
    (user : Option Int) (Ts : List NestedEnum)
    (hP : ∀ N ∈ structs.children Ts, Predicate N = some (p N)) (r : List NestedEnum)
    (hr : find_type_recursive_internal.subtypesResult Predicate user Ts = some r) :
    (Ts.filter fun T => T.isComplete && (structs T).any p).length ≤ r.length := by
  induction Ts generalizing r with
  | nil => simp
  | cons T Ts ih =>
    rw [find_type_recursive_internal.subtypesResult] at hr
    cases h1 : (if T.isComplete = true then find_type_recursive_internal Predicate user T
        else some []) with
    | none => simp [h1] at hr
    | some r1 =>
      cases h2 : find_type_recursive_internal.subtypesResult Predicate user Ts with
      | none => simp [h1, h2] at hr
      | some r2 =>
        simp only [h1, h2, Option.some.injEq] at hr
        have ih2 := ih (fun M hM => hP M (by
          rw [structs.children]; exact List.mem_append_right _ hM)) r2 h2
        rw [← hr, List.length_append, List.filter_cons]
        by_cases hT : (T.isComplete && (structs T).any p) = true
        · rw [if_pos hT, List.length_cons]
          rw [Bool.and_eq_true, List.any_eq_true] at hT
          obtain ⟨hc, N, hN, hpN⟩ := hT
          rw [if_pos hc] at h1
          have hne : r1 ≠ [] := fun h => find_type_found Predicate p user T
            (fun M hM => hP M (by
              rw [structs.children, if_pos hc]; exact List.mem_append_left _ hM))
            ⟨N, hN, hpN⟩ (by rw [h1, h])
          have := List.length_pos.2 hne
          omega
        · rw [if_neg hT]
          omega

theorem find_type_ambiguous (Predicate : NestedEnum → Option Bool) (p : NestedEnum → Bool)
    (user : Option Int) (E : NestedEnum) (hP : ∀ N ∈ structs E, Predicate N = some (p N))
    (hE : p E = false)
    (htwo : 2 ≤ (E.subtypes.filter fun T => T.isComplete && (structs T).any p).length) :
    find_type_recursive_internal Predicate user E = none := by
  cases E with
  | mk c m Ts =>
    have hPE := hP _ (mem_structs_self _)
    rw [find_type_recursive_internal, hPE, hE]
    simp only [NestedEnum.subtypes] at htwo
    have h0 : ¬ Ts.length = 0 := by
      intro h0
      rw [List.length_eq_zero.1 h0] at htwo
      simp at htwo
    simp only [if_neg h0]
    cases hr : find_type_recursive_internal.subtypesResult Predicate user Ts with
    | none => rfl
    | some r =>
      have hlen := subtypesResult_length Predicate p user Ts
        (fun N hN => hP N (by rw [structs]; exact List.mem_cons_of_mem _ hN)) r hr
      have hassert : multiple_results_assert user = true := by cases user <;> rfl
      simp only [if_pos (by omega : r.length > 0)]
      rw [if_pos ⟨hassert, by omega⟩]

theorem find_type_self (Predicate : NestedEnum → Option Bool) (user : Option Int)
    (E : NestedEnum) (hE : Predicate E = some true) :
    find_type_recursive_internal Predicate user E = some [E] := by
  cases E with
  | mk c m Ts => rw [find_type_recursive_internal, hE]

/-! ## Search uniqueness (C22) -/

/-- C22 (counterexample): in `Nested` the id `x` is in the root and in its child `A`, two
different nodes of the searched subtree, and the recursive search by `x` under the default
configuration returns the result of the root, the ordinal 0 of `A`. -/
theorem C22_counterexample :
    some "x".data ∈ Nested.enumIds ∧ some "x".data ∈ (Nested.subtypes.getD 0 Nested).enumIds ∧
    ((structs Nested).filter fun N => decide (some "x".data ∈ N.enumIds)).length = 2 ∧
    enum_value_by_id_recursive Nested "x".data = some (some 0) ∧
    enum_integer_by_id_recursive Nested "x".data = some (some 0) := by
  decide

/-- C22 (amended): for every tree, searched node `R` and id, under the default
configuration: when `R` has no entry with that id and at least two of its subtypes hold, in
their subtrees, a struct with an entry with that id, `enum_value_by_id_recursive` and
`enum_integer_by_id_recursive` have no result (the build fails); when `R` itself has an
entry with that id they return the result of the local lookup of `R`, which is present,
whatever the structs below hold. -/
theorem C22_search_ambiguity (R : NestedEnum) (isLeafValue : Bool)
    (globalPrefix : fixed_string) (parent : Option parent_view) (typeName : fixed_string)
    (underlying : Option int_type) (entries : List Entry)
    (specialisations : List Specialisation) (id : fixed_string)
    (hR : SETUP isLeafValue globalPrefix parent typeName underlying entries specialisations =
      some R) :
    (some id ∉ R.enumIds →
      2 ≤ (R.subtypes.filter fun T =>
        T.isComplete && (structs T).any fun N => decide (some id ∈ N.enumIds)).length →
      enum_value_by_id_recursive R id none = none ∧
      enum_integer_by_id_recursive R id none = none) ∧
    (some id ∈ R.enumIds →
      enum_value_by_id_recursive R id none = enum_value_by_id R id ∧
      enum_integer_by_id_recursive R id none = enum_integer_by_id R id ∧
      ∃ v, enum_value_by_id R id = some (some v) ∧ enum_integer_by_id R id = some (some v)) := by
  obtain rfl := SETUP_some _ _ _ _ _ _ _ _ hR
  have hlen := SETUP_table_lengths isLeafValue globalPrefix parent typeName underlying entries
    specialisations
  constructor
  · intro hroot htwo
    rw [enum_value_by_id_recursive, enum_integer_by_id_recursive,
      find_type_ambiguous _ (fun N => decide (some id ∈ N.enumIds)) none _
        (fun N hN => (lookup_by_id_isSome N (hlen N hN) id).1) (by simpa using hroot) htwo,
      find_type_ambiguous _ (fun N => decide (some id ∈ N.enumIds)) none _
        (fun N hN => (lookup_by_id_isSome N (hlen N hN) id).2.1) (by simpa using hroot) htwo]
    exact ⟨rfl, rfl⟩
  · intro hroot
    have hl := lookup_by_id_isSome _ (hlen _ (mem_structs_self _)) id
    rw [enum_value_by_id_recursive, enum_integer_by_id_recursive,
      find_type_self _ none _ (by rw [hl.1]; simp [hroot]),
      find_type_self _ none _ (by rw [hl.2.1]; simp [hroot])]
    exact ⟨rfl, rfl, hl.2.2.1 hroot⟩

/-- Witness of C22: in `Siblings` the id `x` is in the children `A` and `B` and not in the
root, and the search has no result; in `Nested` it is in the root. -/
theorem C22_search_ambiguity_witness :
    (enum_value_by_id_recursive Siblings "x".data none = none ∧
      enum_integer_by_id_recursive Siblings "x".data none = none) ∧
    enum_value_by_id_recursive Nested "x".data none = enum_value_by_id Nested "x".data :=
  ⟨(C22_search_ambiguity Siblings false [] none "Siblings".data none
      [{ name := "A".data }, { name := "B".data }]
      [.ENUM none [{ name := "X".data, id := some "x".data }] [],
       .ENUM none [{ name := "Y".data, id := some "x".data }] []] "x".data rfl).1
      (by decide) (by decide),
    ((C22_search_ambiguity Nested false [] none "Nested".data none
      [{ name := "A".data, id := some "x".data }]
      [.ENUM none [{ name := "B".data, id := some "x".data }] []] "x".data rfl).2
      (by decide)).1⟩

/-! ## The flag of the recursive search (C23) -/

/-- C23 (failing input): whatever the user defines, the `static_assert` of
`find_type_recursive_internal` stays in the build, a flag defined to 1 is defined to 0
again by the header; so in `Siblings`, where the id `x` is in the children `A` and `B`,
`enum_value_by_id_recursive<"x">()` has no result with the flag defined to 1, where the
first match `Siblings::A` holds `x` at ordinal 0. -/
theorem C23_flag_without_effect :
    (∀ user : Option Int, multiple_results_assert user = true) ∧
    NESTED_ENUM_SUPPRESS_MULTIPLE_RESULTS_ASSERT (some 1) = some 0 ∧
    enum_value_by_id_recursive Siblings "x".data (some 1) = none ∧
    enum_integer_by_id_recursive Siblings "x".data (some 1) = none ∧
    enum_value_by_id Siblings.A "x".data = some (some 0) := by
  refine ⟨fun user => ?_, by decide, by decide, by decide, by decide⟩
  cases user <;> rfl

/-! ## Recursive lookups (C24) -/

theorem filter_nil_of_forall {α : Type} (p : α → Bool) (l : List α) (h : ∀ x ∈ l, p x = false) :
    l.filter p = [] := by
  rw [List.filter_eq_nil_iff]
  intro x hx
  simp [h x hx]

mutual
theorem Defined_structs :
    (E : NestedEnum) → Defined E → ∀ N ∈ structs E, EntriesDefined N
  | .mk c m Ts, h => by
    intro N hN
    rw [structs, List.mem_cons] at hN
    rcases hN with rfl | hN
    · exact Defined_all_entries Ts h
    · exact Defined_structs_children Ts h N hN
theorem Defined_structs_children :
    (Ts : List NestedEnum) → Defined.all Ts → ∀ N ∈ structs.children Ts, EntriesDefined N
  | [], _ => by simp [structs.children]
  | T :: Ts, h => by
    intro N hN
    rw [structs.children, if_pos h.1, List.mem_append] at hN
    rcases hN with hN | hN
    · exact Defined_structs T h.2.1 N hN
    · exact Defined_structs_children Ts h.2.2 N hN
end

/-- C24: for every tree declared with identifiers in which no struct is left forward
declared, searched node `R` and key, whatever the user defines for the flag: when no defined struct of the subtree of `R` has an entry with
the id, `enum_value_by_id_recursive` and `enum_integer_by_id_recursive` return the empty
optional, and when exactly one struct `N` has one they return what the local lookups
`N::enum_value_by_id` and `N::enum_integer_by_id` return, a present value; likewise by
qualified name for `enum_value_recursive` and `enum_integer_recursive` with
`N::enum_value` and `N::enum_integer`. -/
theorem C24_recursive_lookup (R : NestedEnum) (isLeafValue : Bool)
    (globalPrefix : fixed_string) (parent : Option parent_view) (typeName : fixed_string)
    (underlying : Option int_type) (entries : List Entry)
    (specialisations : List Specialisation) (key : fixed_string) (user : Option Int)
    (N : NestedEnum)
    (hR : SETUP isLeafValue globalPrefix parent typeName underlying entries specialisations =
      some R)
    (hdef : Defined R)
    (hname : NulFree (create_name parent globalPrefix typeName))
    (hentries : distinct_identifiers entries) (hbelow : WellNamed.all specialisations) :
    ((∀ M ∈ structs R, some key ∉ M.enumIds) →
      enum_value_by_id_recursive R key user = some none ∧
      enum_integer_by_id_recursive R key user = some none) ∧
    (((structs R).filter fun M => decide (some key ∈ M.enumIds)) = [N] →
      enum_value_by_id_recursive R key user = enum_value_by_id N key ∧
      enum_integer_by_id_recursive R key user = enum_integer_by_id N key ∧
      ∃ v, enum_value_by_id N key = some (some v) ∧ enum_integer_by_id N key = some (some v)) ∧
    ((∀ M ∈ structs R, key ∉ all_names M false) →
      enum_value_recursive R key user = some none ∧
      enum_integer_recursive R key user = some none) ∧
    (((structs R).filter fun M => decide (key ∈ all_names M false)) = [N] →
      enum_value_recursive R key user = enum_value N key ∧
      enum_integer_recursive R key user = enum_integer N key ∧
      ∃ v, enum_value N key = some (some v) ∧ enum_integer N key = some (some v)) := by
  obtain rfl := SETUP_some _ _ _ _ _ _ _ _ hR
  have hED := Defined_structs _ hdef
  have hlen := SETUP_table_lengths isLeafValue globalPrefix parent typeName underlying entries
    specialisations
  obtain ⟨hD, _⟩ := SETUP_declared isLeafValue globalPrefix parent typeName underlying entries
    specialisations hname hentries hbelow
  have hid1 := find_type_eq (fun T => (enum_value_by_id T key).map Option.isSome)
    (fun M => decide (some key ∈ M.enumIds)) user _
    (fun M hM => (lookup_by_id_isSome M (hlen M hM) key).1)
  have hid2 := find_type_eq (fun T => (enum_integer_by_id T key).map Option.isSome)
    (fun M => decide (some key ∈ M.enumIds)) user _
    (fun M hM => (lookup_by_id_isSome M (hlen M hM) key).2.1)
  have hnm1 := find_type_eq (fun T => (enum_value T key).map Option.isSome)
    (fun M => decide (key ∈ all_names M false)) user _
    (fun M hM => (lookup_by_name_isSome M (hD M hM) (hED M hM) key).1)
  have hnm2 := find_type_eq (fun T => (enum_integer T key).map Option.isSome)
    (fun M => decide (key ∈ all_names M false)) user _
    (fun M hM => (lookup_by_name_isSome M (hD M hM) (hED M hM) key).2.1)
  refine ⟨fun hnone => ?_, fun hone => ?_, fun hnone => ?_, fun hone => ?_⟩
  · have hf := filter_nil_of_forall (fun M : NestedEnum => decide (some key ∈ M.enumIds)) _
      (fun M hM => by simpa using hnone M hM)
    rw [hf] at hid1 hid2
    rw [enum_value_by_id_recursive, enum_integer_by_id_recursive, hid1 (by simp),
      hid2 (by simp)]
    exact ⟨rfl, rfl⟩
  · have hmem : N ∈ (structs (SETUP.struct isLeafValue globalPrefix parent typeName underlying entries
        specialisations)).filter fun M => decide (some key ∈ M.enumIds) := by
      rw [hone]; simp
    rw [List.mem_filter] at hmem
    rw [hone] at hid1 hid2
    rw [enum_value_by_id_recursive, enum_integer_by_id_recursive, hid1 (by simp),
      hid2 (by simp)]
    exact ⟨rfl, rfl, (lookup_by_id_isSome N (hlen N hmem.1) key).2.2.1 (by simpa using hmem.2)⟩
  · have hf := filter_nil_of_forall (fun M : NestedEnum => decide (key ∈ all_names M false)) _
      (fun M hM => by simpa using hnone M hM)
    rw [hf] at hnm1 hnm2
    rw [enum_value_recursive, enum_integer_recursive, hnm1 (by simp), hnm2 (by simp)]
    exact ⟨rfl, rfl⟩
  · have hmem : N ∈ (structs (SETUP.struct isLeafValue globalPrefix parent typeName underlying entries
        specialisations)).filter fun M => decide (key ∈ all_names M false) := by
      rw [hone]; simp
    rw [List.mem_filter] at hmem
    rw [hone] at hnm1 hnm2
    rw [enum_value_recursive, enum_integer_recursive, hnm1 (by simp), hnm2 (by simp)]
    exact ⟨rfl, rfl,
      (lookup_by_name_isSome N (hD N hmem.1) (hED N hmem.1) key).2.2.1 (by simpa using hmem.2)⟩

/-- Witness of C24: in `Vehicle{Land{Car, Truck}, Watercraft}` the name `Vehicle::Land::Car`
is found in `Vehicle::Land` alone, with ordinal 0, and no struct has the id `x`. -/
theorem C24_recursive_lookup_witness :
    Defined Vehicle ∧
    enum_value_recursive Vehicle "Vehicle::Land::Car".data none =
      enum_value Vehicle.Land "Vehicle::Land::Car".data ∧
    enum_value Vehicle.Land "Vehicle::Land::Car".data = some (some 0) ∧
    enum_value_by_id_recursive Vehicle "x".data none = some none := by
  have h := C24_recursive_lookup Vehicle false [] none "Vehicle".data none Vehicle.entries
    Vehicle.specialisations "Vehicle::Land::Car".data none Vehicle.Land rfl Vehicle_defined
    (by decide) ⟨by decide, by decide⟩
    (by
      simp only [Vehicle.specialisations, WellNamed.all, WellNamed, distinct_identifiers, and_true]
      decide)
  have h2 := C24_recursive_lookup Vehicle false [] none "Vehicle".data none Vehicle.entries
    Vehicle.specialisations "x".data none Vehicle.Land rfl Vehicle_defined (by decide)
    ⟨by decide, by decide⟩
    (by
      simp only [Vehicle.specialisations, WellNamed.all, WellNamed, distinct_identifiers, and_true]
      decide)
  exact ⟨Vehicle_defined, (h.2.2.2 (by rfl)).1, by decide, (h2.1 (by decide)).1⟩

/-! ## Facts about the names of the structs of a tree -/

mutual
theorem structs_sublist_node_names :
    (E : NestedEnum) → E.isComplete = true →
      ((structs E).map NestedEnum.internalName).Sublist (node_names E)
  | .mk c m Ts, hc => by
    have hc2 : c = true := hc
    subst hc2
    rw [structs, node_names, List.map_cons]
    simp only [if_true, List.singleton_append]
    exact List.Sublist.cons₂ _ (structs_children_sublist_node_names Ts)
theorem structs_children_sublist_node_names :
    (Ts : List NestedEnum) →
      ((structs.children Ts).map NestedEnum.internalName).Sublist (node_names.children Ts)
  | [] => by simp [structs.children, node_names.children]
  | T :: Ts => by
    rw [structs.children, node_names.children, List.map_append]
    refine List.Sublist.append ?_ (structs_children_sublist_node_names Ts)
    by_cases hc : T.isComplete = true
    · rw [if_pos hc]
      exact structs_sublist_node_names T hc
    · rw [if_neg hc]
      exact List.nil_sublist _
end

theorem SETUP_node_names_nodup (isLeafValue : Bool) (globalPrefix : fixed_string)
    (parent : Option parent_view) (typeName : fixed_string) (underlying : Option int_type)
    (entries : List Entry) (specialisations : List Specialisation)
    (hname : NulFree (create_name parent globalPrefix typeName))
    (hentries : distinct_identifiers entries) (hbelow : WellNamed.all specialisations) :
    (node_names (SETUP.struct isLeafValue globalPrefix parent typeName underlying entries
      specialisations)).Nodup := by
  have hz := zip_names entries (DEFINITION.statics isLeafValue globalPrefix parent typeName underlying
    entries).enumValues (DEFINITION_enumValues_length _ _ _ _ _ _)
  have hL := STRUCT_PREP_names (DEFINITION.statics isLeafValue globalPrefix parent typeName underlying
    entries) hname specialisations (entries.zip (DEFINITION.statics isLeafValue globalPrefix parent
      typeName underlying entries).enumValues) hbelow (by rw [hz]; exact hentries.1)
    (fun ev hev => hentries.2 ev.1 (List.of_mem_zip hev).1)
  rw [hz] at hL
  exact (SETUP_names isLeafValue globalPrefix parent typeName underlying entries
    specialisations hname hentries hL).2.2.1

theorem filter_of_nodup_map {α β : Type} [DecidableEq β] (f : α → β) (l : List α) (x : α)
    (hnd : (l.map f).Nodup) (hx : x ∈ l) :
    l.filter (fun y => decide (f x = f y)) = [x] := by
  induction l with
  | nil => simp at hx
  | cons a l ih =>
    rw [List.map_cons, List.nodup_cons] at hnd
    rw [List.filter_cons]
    rcases List.mem_cons.1 hx with hx | hx
    · subst hx
      simp only [decide_True, if_true, List.cons.injEq, true_and]
      rw [List.filter_eq_nil_iff]
      intro y hy
      simp only [decide_eq_true_eq]
      intro h
      exact hnd.1 (by rw [h]; exact List.mem_map_of_mem f hy)
    · have hne : f x ≠ f a := by
        intro h
        exact hnd.1 (by rw [← h]; exact List.mem_map_of_mem f hx)
      simp only [hne, decide_False, Bool.false_eq_true, if_false]
      exact ih hnd.2 hx

/-! ## Names found in the subtree (C25) -/

/-- C25: for every tree declared with identifiers in which no struct is left forward
declared, searched node `R`, defined struct `N` of
the subtree of `R` (`R` itself too) and entry `e` of `N` that is the first entry of `N` with
its ordinal, `R::enum_name_recursive` applied to the value of `e`, a value of the enum
`N::Value`, returns the qualified name of `N`, `::` and the local name of `e`; and for a
value of the enum of a struct that is not a defined struct of the subtree of `R` it returns
the empty optional. -/
theorem C25_enum_name_recursive (R N : NestedEnum) (isLeafValue : Bool)
    (globalPrefix : fixed_string) (parent : Option parent_view) (typeName : fixed_string)
    (underlying : Option int_type) (entries : List Entry)
    (specialisations : List Specialisation)
    (isLeafValueN : Bool) (globalPrefixN : fixed_string) (parentN : Option parent_view)
    (typeNameN : fixed_string) (underlyingN : Option int_type) (entriesN : List Entry)
    (specialisationsN : List Specialisation) (i : Nat) (e : Entry) (v : Int) (value : Value)
    (clean : Bool) (user : Option Int)
    (hR : SETUP isLeafValue globalPrefix parent typeName underlying entries specialisations =
      some R)
    (hdef : Defined R)
    (hname : NulFree (create_name parent globalPrefix typeName))
    (hentries : distinct_identifiers entries) (hbelow : WellNamed.all specialisations) :
    (N ∈ structs R →
      N = SETUP.struct isLeafValueN globalPrefixN parentN typeNameN underlyingN entriesN
        specialisationsN →
      (∀ e ∈ entriesN, NulFree e.name) →
      entriesN[i]? = some e → N.enumValues[i]? = some v →
      (∀ j : Nat, j < i → N.enumValues[j]? ≠ some v) →
      enum_name_recursive R ⟨N.internalName, v⟩ false user = some (some (qualified N e))) ∧
    (value.type ∉ node_names R → enum_name_recursive R value clean user = some none) := by
  obtain rfl := SETUP_some _ _ _ _ _ _ _ _ hR
  have hED := Defined_structs _ hdef
  obtain ⟨hD, _⟩ := SETUP_declared isLeafValue globalPrefix parent typeName underlying entries
    specialisations hname hentries hbelow
  have hnd := SETUP_node_names_nodup isLeafValue globalPrefix parent typeName underlying entries
    specialisations hname hentries hbelow
  have hsub := structs_sublist_node_names (SETUP.struct isLeafValue globalPrefix parent typeName
    underlying entries specialisations) rfl
  constructor
  · intro hN hNeq hnul he hv hfirst
    have hfilter := filter_of_nodup_map NestedEnum.internalName _ N (hnd.sublist hsub) hN
    have hfind := find_type_eq
      (fun T => some (decide (N.internalName = T.internalName)))
      (fun T => decide (N.internalName = T.internalName)) user _ (fun _ _ => rfl)
      (by rw [hfilter]; simp)
    rw [enum_name_recursive, hfind, hfilter]
    have hNname : NulFree (create_name parentN globalPrefixN typeNameN) := by
      obtain ⟨i2, gp2, p2, tn2, ut2, en2, sp2, hN2, hname2, _⟩ := hD N hN
      have h1 : N.internalName = create_name p2 gp2 tn2 := by rw [hN2]; rfl
      have h2 : N.internalName = create_name parentN globalPrefixN typeNameN := by
        rw [hNeq]; rfl
      rw [← h2, h1]
      exact hname2
    have hNdef := hED N hN
    subst hNeq
    have hnames := SETUP_enum_names_All_false isLeafValueN globalPrefixN parentN typeNameN
      underlyingN entriesN specialisationsN hNname hnul hNdef
    have hfi := (find_index_eq_some _ v i).2 ⟨hv, hfirst⟩
    simp only [enum_name, hnames, hfi]
    simp [List.getElem?_map, he, qualified, SETUP_internalName]
  · intro hout
    have hfilter : (structs (SETUP.struct isLeafValue globalPrefix parent typeName underlying entries
        specialisations)).filter (fun T => decide (value.type = T.internalName)) = [] := by
      rw [List.filter_eq_nil_iff]
      intro T hT
      simp only [decide_eq_true_eq]
      intro h
      exact hout (hsub.subset (by rw [h]; exact List.mem_map_of_mem _ hT))
    have hfind := find_type_eq
      (fun T => some (decide (value.type = T.internalName)))
      (fun T => decide (value.type = T.internalName)) user _ (fun _ _ => rfl)
      (by rw [hfilter]; simp)
    rw [enum_name_recursive, hfind, hfilter]

theorem Land_defined : Defined Vehicle.Land := ⟨rfl, trivial, rfl, trivial, trivial⟩

/-- Witness of C25: `Vehicle::enum_name_recursive(Car)` is `Vehicle::Land::Car`, and
`Vehicle::Land::enum_name_recursive` has no name for a value of `Vehicle`. -/
theorem C25_enum_name_recursive_witness :
    Defined Vehicle ∧
    enum_name_recursive Vehicle ⟨"Vehicle::Land".data, 0⟩ false none =
      some (some "Vehicle::Land::Car".data) ∧
    enum_name_recursive Vehicle.Land ⟨"Vehicle".data, 0⟩ false none = some none := by
  have h := C25_enum_name_recursive Vehicle Vehicle.Land false [] none "Vehicle".data none
    Vehicle.entries Vehicle.specialisations false []
    (some ⟨"Vehicle".data, [0, 1], [none, none], 0⟩) "Land".data none
    [{ name := "Car".data }, { name := "Truck".data }] [] 0 { name := "Car".data } 0
    ⟨"Vehicle".data, 0⟩ false none rfl Vehicle_defined (by decide) ⟨by decide, by decide⟩
    (by
      simp only [Vehicle.specialisations, WellNamed.all, WellNamed, distinct_identifiers, and_true]
      decide)
  have h2 := C25_enum_name_recursive Vehicle.Land Vehicle.Land false []
    (some ⟨"Vehicle".data, [0, 1], [none, none], 0⟩) "Land".data none
    [{ name := "Car".data }, { name := "Truck".data }] [] false []
    (some ⟨"Vehicle".data, [0, 1], [none, none], 0⟩) "Land".data none
    [{ name := "Car".data }, { name := "Truck".data }] [] 0 { name := "Car".data } 0
    ⟨"Vehicle".data, 0⟩ false none rfl Land_defined (by decide) ⟨by decide, by decide⟩ trivial
  exact ⟨Vehicle_defined,
    h.1 (List.Mem.tail _ (List.Mem.head _)) rfl (by decide) rfl rfl (by intro j hj; omega),
    h2.2 (by decide)⟩

/-! ## Facts about the search by id -/

theorem lookup_zip {α β : Type} [DecidableEq α] (ids : List (Option α)) (names : List β)
    (hlen : names.length = ids.length) (s : α) :
    (match find_index_optional ids s with
      | none => some none
      | some index => (names[index]?).map some) =
      some (((ids.zip names).find? fun q => decide (q.1 = some s)).map Prod.snd) := by
  induction ids generalizing names with
  | nil => simp [find_index_optional]
  | cons a ids ih =>
    cases names with
    | nil => simp at hlen
    | cons n names =>
      have hlen2 : names.length = ids.length := by simpa using hlen
      have ih2 := ih names hlen2
      rw [find_index_optional, List.zip_cons_cons, List.find?_cons]
      by_cases ha : a = some s
      · subst ha
        simp
      · have hcond : ¬ (a.isSome = true ∧ a = some s) := fun h => ha h.2
        rw [if_neg hcond]
        simp only [ha, decide_False]
        rw [← ih2]
        cases hf : find_index_optional ids s with
        | none => rfl
        | some k => simp

theorem enum_name_by_id_eq (N : NestedEnum) (hD : Declared N) (hdef : EntriesDefined N)
    (s : fixed_string) (clean : Bool) :
    enum_name_by_id N s clean =
      some (((N.enumIds.zip (all_names N clean)).find? fun q => decide (q.1 = some s)).map
        Prod.snd) := by
  obtain ⟨_, hall, hlen⟩ := Declared_names N hD hdef .All clean
  have hl := Declared_lengths N hD
  rw [enum_name_by_id, hall]
  exact lookup_zip N.enumIds (all_names N clean) (by omega) s

mutual
theorem enum_name_by_id_recursive_eq (s : fixed_string) (clean : Bool) :
    (E : NestedEnum) → Defined E → (∀ N ∈ structs E, Declared N) →
      enum_name_by_id_recursive s clean E =
        some ((((structs E).flatMap fun N => N.enumIds.zip (all_names N clean)).find?
          fun q => decide (q.1 = some s)).map Prod.snd)
  | .mk c m Ts, hdef, hD => by
    have hE := enum_name_by_id_eq _ (hD _ (mem_structs_self _))
      (Defined_all_entries Ts hdef) s clean
    have hl := Declared_lengths _ (hD _ (mem_structs_self _))
    have hrec := recurse_eq s clean Ts hdef
      (fun N hN => hD N (by rw [structs]; exact List.mem_cons_of_mem _ hN))
    rw [enum_name_by_id_recursive, hE, structs, List.flatMap_cons, List.find?_append]
    by_cases h0 : m.enumValues.length = 0
    · rw [if_pos h0]
      have hTs : Ts = [] := by
        apply List.length_eq_zero.1
        have := hl.1
        simp only [NestedEnum.subtypes, NestedEnum.enumValues, NestedEnum.statics] at this
        omega
      rw [hTs]
      cases hf : (List.find? (fun q => decide (q.1 = some s))
          ((NestedEnum.mk c m []).enumIds.zip (all_names (NestedEnum.mk c m []) clean))) with
      | some q => simp
      | none => simp [structs.children]
    · rw [if_neg h0, hrec]
      cases hf : (List.find? (fun q => decide (q.1 = some s))
          ((NestedEnum.mk c m Ts).enumIds.zip (all_names (NestedEnum.mk c m Ts) clean))) with
      | some q => simp
      | none => simp
theorem recurse_eq (s : fixed_string) (clean : Bool) :
    (Ts : List NestedEnum) → Defined.all Ts → (∀ N ∈ structs.children Ts, Declared N) →
      enum_name_by_id_recursive.recurse s clean Ts =
        some ((((structs.children Ts).flatMap fun N => N.enumIds.zip (all_names N clean)).find?
          fun q => decide (q.1 = some s)).map Prod.snd)
  | [], _, _ => rfl
  | U :: Us, hdef, hD => by
    have hc : U.isComplete = true := hdef.1
    have hU := enum_name_by_id_recursive_eq s clean U hdef.2.1
      (fun N hN => hD N (by rw [structs.children, if_pos hc]; exact List.mem_append_left _ hN))
    have hUs := recurse_eq s clean Us hdef.2.2
      (fun N hN => hD N (by rw [structs.children]; exact List.mem_append_right _ hN))
    rw [enum_name_by_id_recursive.recurse, if_pos hc, hU, hUs, structs.children, if_pos hc,
      List.flatMap_append, List.find?_append]
    cases hf : (List.find? (fun q => decide (q.1 = some s))
        ((structs U).flatMap fun N => N.enumIds.zip (all_names N clean))) with
    | some q => simp
    | none => simp
end

/-! ## Search by id, top down (C26) -/

/-- C26: for every tree declared with identifiers in which every deferred struct is defined,
every node `R` and id `s`, `R::enum_name_by_id_recursive(s, clean)` returns the name of the
first entry with id `s` in the pre-order of the subtree of `R` (the table of a struct in the
order of declaration, then the subtree of each subtype in the order of declaration),
whether or not the id is repeated in several structs, and the empty optional exactly when
no entry of the subtree has id `s`. -/
theorem C26_search_by_id_top_down (R : NestedEnum) (isLeafValue : Bool)
    (globalPrefix : fixed_string) (parent : Option parent_view) (typeName : fixed_string)
    (underlying : Option int_type) (entries : List Entry)
    (specialisations : List Specialisation) (s : fixed_string) (clean : Bool)
    (hR : SETUP isLeafValue globalPrefix parent typeName underlying entries specialisations =
      some R)
    (hname : NulFree (create_name parent globalPrefix typeName))
    (hentries : distinct_identifiers entries) (hbelow : WellNamed.all specialisations)
    (hdef : Defined R) :
    enum_name_by_id_recursive s clean R =
      some (((ids_and_names R clean).find? fun q => decide (q.1 = some s)).map Prod.snd) ∧
    (enum_name_by_id_recursive s clean R = some none ↔ ∀ N ∈ structs R, some s ∉ N.enumIds) := by
  obtain rfl := SETUP_some _ _ _ _ _ _ _ _ hR
  obtain ⟨hD, _⟩ := SETUP_declared isLeafValue globalPrefix parent typeName underlying entries
    specialisations hname hentries hbelow
  have h := enum_name_by_id_recursive_eq s clean _ hdef hD
  refine ⟨h, ?_⟩
  rw [h]
  simp only [Option.some.injEq, Option.map_eq_none', List.find?_eq_none, List.mem_flatMap,
    decide_eq_true_eq]
  constructor
  · intro hnone N hN hmem
    obtain ⟨k, hk, hke⟩ := List.getElem_of_mem hmem
    have hl := Declared_lengths N (hD N hN)
    have hn := (Declared_names N (hD N hN) (Defined_structs _ hdef N hN) .All clean).2.2
    have hk2 : k < (all_names N clean).length := by omega
    refine hnone (N.enumIds[k], (all_names N clean)[k]) ⟨N, hN, ?_⟩ hke
    rw [List.mem_iff_getElem]
    exact ⟨k, by simp; omega, by simp⟩
  · rintro hnone q ⟨N, hN, hq⟩ hqs
    exact hnone N hN (by rw [← hqs]; exact (List.of_mem_zip hq).1)

/-- Witness of C26: in `Siblings`, where both `A` and `B` hold the id `x`, the search
returns the name of the entry of `A`; in `Nested`, where the root and its child hold it, the
name of the entry of the root. -/
theorem C26_search_by_id_top_down_witness :
    enum_name_by_id_recursive "x".data false Siblings = some (some "Siblings::A::X".data) ∧
    enum_name_by_id_recursive "x".data false Nested = some (some "Nested::A".data) ∧
    enum_name_by_id_recursive "y".data false Siblings = some none := by
  have hS : Defined Siblings := ⟨rfl, ⟨rfl, trivial, trivial⟩, rfl, ⟨rfl, trivial, trivial⟩, trivial⟩
  have hN : Defined Nested := ⟨rfl, ⟨rfl, trivial, trivial⟩, trivial⟩
  have h1 := (C26_search_by_id_top_down Siblings false [] none "Siblings".data none
    [{ name := "A".data }, { name := "B".data }]
    [.ENUM none [{ name := "X".data, id := some "x".data }] [],
     .ENUM none [{ name := "Y".data, id := some "x".data }] []] "x".data false rfl (by decide)
    ⟨by decide, by decide⟩
    (by simp only [WellNamed.all, WellNamed, distinct_identifiers, and_true]; decide) hS).1
  have h2 := (C26_search_by_id_top_down Nested false [] none "Nested".data none
    [{ name := "A".data, id := some "x".data }]
    [.ENUM none [{ name := "B".data, id := some "x".data }] []] "x".data false rfl (by decide)
    ⟨by decide, by decide⟩
    (by simp only [WellNamed.all, WellNamed, distinct_identifiers, and_true]; decide) hN).1
  have h3 := (C26_search_by_id_top_down Siblings false [] none "Siblings".data none
    [{ name := "A".data }, { name := "B".data }]
    [.ENUM none [{ name := "X".data, id := some "x".data }] [],
     .ENUM none [{ name := "Y".data, id := some "x".data }] []] "y".data false rfl (by decide)
    ⟨by decide, by decide⟩
    (by simp only [WellNamed.all, WellNamed, distinct_identifiers, and_true]; decide) hS).1
  rw [h1, h2, h3]
  decide

/-! ## Nodes without entries (C27) -/

theorem SETUP_no_entries (isLeafValue : Bool) (globalPrefix : fixed_string)
    (parent : Option parent_view) (typeName : fixed_string) (underlying : Option int_type)
    (specialisations : List Specialisation) :
    SETUP.struct isLeafValue globalPrefix parent typeName underlying [] specialisations =
      .mk true (DEFINITION.statics isLeafValue globalPrefix parent typeName underlying []) [] := by
  cases specialisations <;> simp [SETUP.struct, STRUCT_PREP.structs]

theorem subtypesTuples_skip {α : Type} (Predicate : NestedEnum → Option (List α))
    (Selection : InnerOuterAll) (E : NestedEnum)
    (hE : return_recursive_internal.checkQueries Selection E = false) (before after : List NestedEnum) :
    return_recursive_internal.subtypesTuples Predicate Selection (before ++ E :: after) =
      return_recursive_internal.subtypesTuples Predicate Selection (before ++ after) := by
  induction before with
  | nil => simp [return_recursive_internal.subtypesTuples, hE]
  | cons T before ih => simp [return_recursive_internal.subtypesTuples, ih]

/-- C27: a node without entries builds; it has `enum_count(S) = 0` and
`enum_count_recursive(S) = 0` for every selection `S`, its tables are empty, each of its
local lookups returns the empty optional, and as a subtype, wherever it stands among the
subtypes of a struct, it is left out of `subtypesToQuery`, so that it adds nothing, not even
an empty array, to the tuple that `return_recursive_internal` builds for that struct and for
the structs above. -/
theorem C27_node_without_entries (isLeafValue : Bool) (globalPrefix : fixed_string)
    (parent : Option parent_view) (typeName : fixed_string) (underlying : Option int_type)
    (specialisations : List Specialisation) (S : InnerOuterAll) (clean : Bool)
    (value t : Int) (key : fixed_string) :
    ∃ E, SETUP isLeafValue globalPrefix parent typeName underlying [] specialisations = some E ∧
    enum_count E S = some 0 ∧ enum_count_recursive E S = some 0 ∧
    enum_values E S = some [] ∧ enum_ids E S = some [] ∧ enum_names E S clean = some [] ∧
    enum_names_and_ids E S clean = some [] ∧
    enum_name E value clean = some none ∧ enum_name_by_id E key clean = some none ∧
    enum_id E value = some none ∧ enum_value E key = some none ∧
    enum_value_by_id E key = some none ∧ enum_integer E key = some none ∧
    enum_integer_by_id E key = some none ∧ make_enum E t = none ∧
    (structs E = [E] ∧ reachable E = [E]) ∧
    (∀ (α : Type) (Predicate : NestedEnum → Option (List α)) (before after : List NestedEnum),
      return_recursive_internal.subtypesToQuery S (before ++ E :: after) =
        return_recursive_internal.subtypesToQuery S (before ++ after) ∧
      return_recursive_internal.subtypesTuples Predicate S (before ++ E :: after) =
        return_recursive_internal.subtypesTuples Predicate S (before ++ after)) := by
  have hbuild : SETUP isLeafValue globalPrefix parent typeName underlying [] specialisations =
      some (SETUP.struct isLeafValue globalPrefix parent typeName underlying []
        specialisations) := by
    cases specialisations <;> rfl
  refine ⟨_, hbuild, ?_⟩
  generalize hEdef : SETUP.struct isLeafValue globalPrefix parent typeName underlying []
    specialisations = E
  have hE : E = .mk true (DEFINITION.statics isLeafValue globalPrefix parent typeName underlying []) [] := by
    rw [← hEdef]; exact SETUP_no_entries _ _ _ _ _ _
  have hv : E.enumValues = [] := by
    rw [hE]; simp [NestedEnum.enumValues, NestedEnum.statics, DEFINITION.statics,
      get_array_of_values.ordinals]
  have hi : E.enumIds = [] := by
    rw [hE]; simp [NestedEnum.enumIds, NestedEnum.statics, DEFINITION.statics]
  have hs : E.subtypes = [] := by rw [hE]; rfl
  have hc : ∀ S, enum_count E S = some 0 := fun S => by simp [enum_count, hv]
  have hn : ∀ S clean, enum_names E S clean = some [] := fun S clean => by
    simp [enum_names, hc]
  have hq : return_recursive_internal.checkQueries S E = false := by
    simp [return_recursive_internal.checkQueries, hs]
  refine ⟨hc S, ?_, ?_, ?_, hn S clean, ?_, ?_, ?_, ?_, ?_, ?_, ?_, ?_, ?_, ?_, ?_⟩
  · rw [hE]
    cases S <;> simp [enum_count_recursive, enum_count_recursive_internal,
      enum_count_recursive_internal.subtypesSizes]
  · simp [enum_values, hv]
  · simp [enum_ids, hi]
  · simp [enum_names_and_ids, hc]
  · simp [enum_name, hn, hv, find_index]
  · simp [enum_name_by_id, hn, hi, find_index_optional]
  · simp [enum_id, enum_ids, hi, hv, find_index]
  · simp [enum_value, hn, find_index]
  · simp [enum_value_by_id, hi, find_index_optional]
  · simp [enum_integer, hn, find_index]
  · simp [enum_integer_by_id, hi, find_index_optional]
  · simp [make_enum, enum_value_of_integer, hv]
  · rw [hE]; simp [structs, structs.children, reachable, reachable.children]
  · intro α Predicate before after
    exact ⟨by simp [return_recursive_internal.subtypesToQuery, List.filter_cons, hq],
      subtypesTuples_skip Predicate S E hq before after⟩

/-! ## Instances by integer (C28) -/

theorem enum_value_of_integer_eq_some (E : NestedEnum) (integer v : Int) :
    enum_value_of_integer E integer = some v →
      v = E.statics.underlying_type.wrap integer ∧ v ∈ E.enumValues := by
  intro h
  unfold enum_value_of_integer at h
  have h1 := List.find?_some h
  have h2 := List.mem_of_find?_eq_some h
  exact ⟨by simpa using h1, h2⟩

theorem enum_value_of_integer_isSome (E : NestedEnum) (integer : Int) :
    (enum_value_of_integer E integer).isSome ↔
      E.statics.underlying_type.wrap integer ∈ E.enumValues := by
  unfold enum_value_of_integer
  rw [List.find?_isSome]
  constructor
  · rintro ⟨x, hx, hxe⟩
    have : x = E.statics.underlying_type.wrap integer := by simpa using hxe
    rw [← this]; exact hx
  · intro h
    exact ⟨_, h, by simp⟩

/-- C28 (counterexample): in the node `Byte` of underlying type `std::uint8_t`, whose one
entry has ordinal 1, `make_enum(257)` is present and has ordinal 1, though no entry has
ordinal 257. -/
theorem C28_counterexample :
    make_enum Byte 257 = some 1 ∧ Byte.enumValues = [1] ∧ (257 : Int) ∉ Byte.enumValues := by
  decide

/-- C28 (amended): for every struct `E` and every integer `t`, `make_enum(t)` is present
exactly when some entry has the ordinal that `t` converts to in the underlying type (`t`
modulo `2 ^ w`), and the instance has that ordinal; so when `t` is representable in the
underlying type, `make_enum(t)` is present exactly when some entry has ordinal `t`, and the
instance has ordinal `t`. -/
theorem C28_make_enum_converts (E : NestedEnum) (t : Int) :
    ((make_enum E t).isSome ↔ E.statics.underlying_type.wrap t ∈ E.enumValues) ∧
    (∀ v, make_enum E t = some v → v = E.statics.underlying_type.wrap t) ∧
    (E.statics.underlying_type.InRange t →
      ((make_enum E t).isSome ↔ t ∈ E.enumValues) ∧ ∀ v, make_enum E t = some v → v = t) := by
  have h1 : (make_enum E t).isSome ↔ E.statics.underlying_type.wrap t ∈ E.enumValues := by
    rw [make_enum, enum_value_of_integer_isSome, int_type.wrap_wrap]
  have h2 : ∀ v, make_enum E t = some v → v = E.statics.underlying_type.wrap t := by
    intro v hv
    rw [make_enum] at hv
    rw [(enum_value_of_integer_eq_some E _ v hv).1, int_type.wrap_wrap]
  refine ⟨h1, h2, fun hr => ?_⟩
  rw [int_type.wrap_of_inRange _ _ hr] at h1 h2
  exact ⟨h1, h2⟩

/-- Witness of C28: in `Byte`, `make_enum(1)` is present with ordinal 1 and `make_enum(2)`
is absent. -/
theorem C28_make_enum_converts_witness :
    Byte.statics.underlying_type.InRange 1 ∧ make_enum Byte 1 = some 1 ∧
    ((make_enum Byte 1).isSome ↔ (1 : Int) ∈ Byte.enumValues) :=
  ⟨by decide, by decide, ((C28_make_enum_converts Byte 1).2.2 (by decide)).1⟩

/-! ## The id of a node (C29) -/

/-- C29 (failing input): in `Twins`, whose entries `A` and `B` have the same ordinal 1 and
the ids `a` and `b`, `Twins::B::id()` returns `a`, the id of `A`; `Twins::enum_id` finds
the first entry of that ordinal. -/
theorem C29_id_of_duplicate_ordinal :
    Twins.B.id = some (some "a".data) ∧ Twins.enumIds = [some "a".data, some "b".data] ∧
    Twins.enumValues = [1, 1] ∧ Twins.B.internalName = "Twins::B".data ∧ Twins.id = some none := by
  decide

/-! ## Name composition (C31) -/

theorem intercalate_cons_eq {α : Type} (sep x : List α) (xs : List (List α)) :
    List.intercalate sep (x :: xs) = x ++ xs.flatMap fun y => sep ++ y := by
  induction xs generalizing x with
  | nil => simp [List.intercalate]
  | cons y ys ih =>
    have h := ih y
    simp only [List.intercalate, List.intersperse_cons_cons, List.flatten_cons,
      List.flatMap_cons] at h ⊢
    rw [h]
    simp

theorem foldl_create_name (globalPrefix : fixed_string) (path : List fixed_string)
    (start : fixed_string) :
    path.foldl (fun parent name => create_name (some (named parent)) globalPrefix name) start =
      start ++ path.flatMap fun name => scopeResolution ++ name := by
  induction path generalizing start with
  | nil => simp
  | cons name path ih =>
    rw [List.foldl_cons, ih]
    simp [create_name, named, fixed_string.append_eq]

theorem length_flatMap_scope (path : List fixed_string) :
    (path.flatMap fun name => scopeResolution ++ name).length =
      (path.map List.length).sum + scopeResolution.length * path.length := by
  induction path with
  | nil => simp
  | cons name path ih =>
    simp only [List.flatMap_cons, List.length_append, List.map_cons, List.sum_cons,
      List.length_cons, ih]
    ring

/-- C31: `append` is associative, `a.append(b).append(c)` is `a.append(b.append(c))`; so
the name that `create_name` builds level by level for a root and a path of names is the
single concatenation of the parts with `::` between them (the global prefix first when
there is one), and its length is the sum of the lengths of the parts and of the
separators. -/
theorem C31_append_associative (a b c globalPrefix root : fixed_string)
    (path : List fixed_string) :
    (a.append b).append c = a.append (b.append c) ∧
    level_by_level [] root path = List.intercalate scopeResolution (root :: path) ∧
    (globalPrefix ≠ [] →
      level_by_level globalPrefix root path =
        List.intercalate scopeResolution (globalPrefix :: root :: path)) ∧
    (level_by_level [] root path).length =
      ((root :: path).map List.length).sum + scopeResolution.length * path.length ∧
    level_by_level [] "root".data ["a".data, "b".data] = "root::a::b".data := by
  have h1 : level_by_level [] root path = List.intercalate scopeResolution (root :: path) := by
    rw [level_by_level, foldl_create_name, intercalate_cons_eq]
    simp [create_name, fixed_string.size]
  refine ⟨?_, h1, ?_, ?_, by decide⟩
  · simp [fixed_string.append_eq, List.append_assoc]
  · intro hp
    rw [level_by_level, foldl_create_name, intercalate_cons_eq]
    have : ¬ globalPrefix.length = 0 := fun h => hp (List.length_eq_zero.1 h)
    simp [create_name, fixed_string.size, this, fixed_string.append_eq]
  · rw [level_by_level, foldl_create_name, List.length_append, length_flatMap_scope]
    simp only [create_name, fixed_string.size, List.length_nil, if_true, List.map_cons,
      List.sum_cons]
    omega

/-! ## Recursive counts by selection (C33) -/

mutual
theorem internal_All_eq :
    (E : NestedEnum) → Defined E →
      ∃ inner outer : Nat,
        enum_count_recursive_internal .Inner E = some (inner + 1) ∧
        enum_count_recursive_internal .Outer E = some outer ∧
        enum_count_recursive_internal .All E = some (inner + outer + 1)
  | .mk c m Ts, hd => by
    obtain ⟨inner, outer, hi, ho, ha⟩ := subtypesSizes_All_eq Ts hd
    refine ⟨inner, outer, ?_, ?_, ?_⟩
    · simp only [enum_count_recursive_internal, hi]
      simp
      omega
    · simp only [enum_count_recursive_internal, ho]
      simp
    · simp only [enum_count_recursive_internal, ha]
      simp
      omega
theorem subtypesSizes_All_eq :
    (Ts : List NestedEnum) → Defined.all Ts →
      ∃ inner outer : Nat,
        enum_count_recursive_internal.subtypesSizes .Inner Ts = some inner ∧
        enum_count_recursive_internal.subtypesSizes .Outer Ts = some outer ∧
        enum_count_recursive_internal.subtypesSizes .All Ts = some (inner + outer)
  | [], _ => ⟨0, 0, rfl, rfl, rfl⟩
  | T :: Ts, hd => by
    obtain ⟨inner, outer, hi, ho, ha⟩ := subtypesSizes_All_eq Ts hd.2.2
    by_cases h : (T.isComplete && !T.isLeaf) = true
    · obtain ⟨inner2, outer2, hi2, ho2, ha2⟩ := internal_All_eq T hd.2.1
      refine ⟨inner2 + 1 + inner, outer2 + outer, ?_, ?_, ?_⟩
      · rw [enum_count_recursive_internal.subtypesSizes, if_pos hd.1, if_pos h, hi2, hi]
      · rw [enum_count_recursive_internal.subtypesSizes, if_pos hd.1, if_pos h, ho2, ho]
      · rw [enum_count_recursive_internal.subtypesSizes, if_pos hd.1, if_pos h, ha2, ha]
        simp only [Option.some.injEq]
        omega
    · refine ⟨inner, 1 + outer, ?_, ?_, ?_⟩
      · rw [enum_count_recursive_internal.subtypesSizes, if_pos hd.1, if_neg h, hi]
        simp
      · rw [enum_count_recursive_internal.subtypesSizes, if_pos hd.1, if_neg h, ho]
        simp
      · rw [enum_count_recursive_internal.subtypesSizes, if_pos hd.1, if_neg h, ha]
        simp only [or_true, if_true, Option.some.injEq]
        omega
end

/-- C33: for every struct `R` of a tree in which no struct is left forward declared, the
recursive counts have values, `enum_count_recursive(All)` is the sum of
`enum_count_recursive(Inner)` and `enum_count_recursive(Outer)`, and
`enum_count_recursive_internal` is one more than `enum_count_recursive` under `Inner` and
under `All`, so at least 1 for every struct, one without entries too: `--count` takes the
unit of the struct itself and never goes below 0. -/
theorem C33_count_recursive_sum (R : NestedEnum) (hdef : Defined R) :
    ∃ inner outer : Nat,
      enum_count_recursive R .Inner = some inner ∧
      enum_count_recursive R .Outer = some outer ∧
      enum_count_recursive R .All = some (inner + outer) ∧
      enum_count_recursive_internal .Inner R = some (inner + 1) ∧
      enum_count_recursive_internal .All R = some (inner + outer + 1) := by
  obtain ⟨inner, outer, hi, ho, ha⟩ := internal_All_eq R hdef
  refine ⟨inner, outer, ?_, ?_, ?_, hi, ha⟩
  · simp [enum_count_recursive, hi]
  · simp [enum_count_recursive, ho]
  · simp [enum_count_recursive, ha]

/-- Witness of C33: `Vehicle{Land{Car, Truck}, Watercraft}` counts 1 under `Inner`, 3 under
`Outer` and 4 under `All`; for a struct without entries the internal count under `Inner`
is 1. -/
theorem C33_count_recursive_sum_witness :
    Defined Vehicle ∧
    (∃ inner outer : Nat,
      enum_count_recursive Vehicle .Inner = some inner ∧
      enum_count_recursive Vehicle .Outer = some outer ∧
      enum_count_recursive Vehicle .All = some (inner + outer) ∧
      enum_count_recursive_internal .Inner Vehicle = some (inner + 1) ∧
      enum_count_recursive_internal .All Vehicle = some (inner + outer + 1)) ∧
    enum_count_recursive Vehicle .Inner = some 1 ∧
    enum_count_recursive Vehicle .Outer = some 3 ∧
    enum_count_recursive Vehicle .All = some 4 ∧
    (SETUP false [] none "E".data none [] []).bind
      (enum_count_recursive_internal .Inner) = some 1 :=
  ⟨Vehicle_defined, C33_count_recursive_sum Vehicle Vehicle_defined, by decide, by decide,
    by decide, by decide⟩

/-- Witness of C31: with the global prefix `ns` the name of `root`, `a`, `b` is
`ns::root::a::b`. -/
theorem C31_append_associative_witness :
    level_by_level "ns".data "root".data ["a".data, "b".data] = "ns::root::a::b".data ∧
    List.intercalate scopeResolution ["ns".data, "root".data, "a".data, "b".data] =
      "ns::root::a::b".data :=
  ⟨((C31_append_associative [] [] [] "ns".data "root".data ["a".data, "b".data]).2.2.1
      (by decide)).trans (by decide), by decide⟩

/-! ## The scan of the name buffer (C39) -/

theorem buffer_cons (string : fixed_string) (strings : List fixed_string) :
    buffer (string :: strings) = string ++ NUL :: buffer strings := by
  simp [buffer]

theorem get_string_values_eq_buffer (type : fixed_string) (values : List fixed_string) :
    get_string_values type values =
      buffer (values.map fun value => type ++ scopeResolution ++ value) := by
  induction values with
  | nil => rfl
  | cons value values ih => rw [get_string_values_cons, List.map_cons, buffer_cons, ih]

theorem scan_of_buffer (strings : List fixed_string) (i : Nat)
    (hnul : ∀ s ∈ strings, NulFree s) (hi : i < strings.length) :
    get_substring.scan (buffer strings) i =
      some (strings[i] ++ NUL :: buffer (strings.drop (i + 1))) := by
  induction strings generalizing i with
  | nil => simp at hi
  | cons string strings ih =>
    rw [buffer_cons]
    cases i with
    | zero =>
      rw [get_substring.scan_zero]
      simp
    | succ i =>
      rw [get_substring.scan_skip _ _ _ (hnul string (by simp)),
        ih i (fun s h => hnul s (by simp [h])) (by simpa using hi)]
      simp

theorem scope_inside_drop (view : List Char) (h : scopeResolution <:+: view) :
    ∃ pos, pos ≤ view.length ∧ scopeResolution.isPrefixOf (view.drop pos) = true := by
  obtain ⟨s, t, hst⟩ := h
  refine ⟨s.length, by rw [← hst]; simp, ?_⟩
  rw [List.isPrefixOf_iff_prefix, ← hst]
  simp

/-- C39: for every buffer made of `n` strings without `NUL`, each followed by `NUL`, the
buffers that `get_string_values` builds among them, and every index `i < n`, the scan of
`get_substring` ends inside the buffer, at the start of string `i`, and `get_substring`
returns string `i`; with `clean = true` and a string `i` that holds `::`, the number of
characters removed is at most the length of the string and the result is what is left of
the string. -/
theorem C39_scan_within_buffer (strings : List fixed_string) (i : Nat)
    (type : fixed_string) (values : List fixed_string)
    (hnul : ∀ s ∈ strings, NulFree s) (hi : i < strings.length) :
    get_substring.scan (buffer strings) i =
      some (strings[i] ++ NUL :: buffer (strings.drop (i + 1))) ∧
    get_substring (buffer strings) i false = some strings[i] ∧
    (scopeResolution <:+: strings[i] →
      rfind strings[i] scopeResolution + scopeResolution.length ≤ strings[i].length ∧
      ∃ n, n ≤ strings[i].length ∧
        get_substring (buffer strings) i true = some (strings[i].drop n)) ∧
    get_string_values type values =
      buffer (values.map fun value => type ++ scopeResolution ++ value) := by
  have hs := scan_of_buffer strings i hnul hi
  have hg := fun clean => get_substring_of_scan (buffer strings) strings[i]
    (buffer (strings.drop (i + 1))) i clean (hnul _ (List.getElem_mem hi)) hs
  refine ⟨hs, by simpa using hg false, fun hscope => ?_, get_string_values_eq_buffer type values⟩
  obtain ⟨pos, hpos, hpre⟩ := scope_inside_drop _ hscope
  have hr := rfind_found strings[i] scopeResolution pos hpos hpre
  refine ⟨hr, (rfind strings[i] scopeResolution + scopeResolution.length) % 2 ^ 64,
    Nat.le_trans (Nat.mod_le _ _) hr, ?_⟩
  rw [hg true]
  simp only [if_true, remove_scope]
  rw [if_pos (Nat.le_trans (Nat.mod_le _ _) hr)]

/-- Witness of C39: string 1 of the buffer of `Vehicle`, `Vehicle::Watercraft`, and its
clean form. -/
theorem C39_scan_within_buffer_witness :
    get_substring (buffer ["Vehicle::Land".data, "Vehicle::Watercraft".data]) 1 false =
      some "Vehicle::Watercraft".data ∧
    get_substring (buffer ["Vehicle::Land".data, "Vehicle::Watercraft".data]) 1 true =
      some "Watercraft".data ∧
    Vehicle.enumNames = buffer ["Vehicle::Land".data, "Vehicle::Watercraft".data] :=
  ⟨(C39_scan_within_buffer ["Vehicle::Land".data, "Vehicle::Watercraft".data] 1 [] []
      (by decide) (by decide)).2.1, by decide, by decide⟩

/-! ## Facts about the tables of names and ids -/

theorem subsequence_zip {α β : Type} (flags : List Bool) (xs : List α) (ys : List β) :
    subsequence flags (xs.zip ys) = (subsequence flags xs).zip (subsequence flags ys) := by
  induction flags generalizing xs ys with
  | nil => simp [subsequence]
  | cons b flags ih =>
    cases xs with
    | nil => simp [subsequence_nil]
    | cons x xs =>
      cases ys with
      | nil => simp [subsequence_nil]
      | cons y ys =>
        rw [List.zip_cons_cons, subsequence_cons, subsequence_cons, subsequence_cons, ih]
        cases b <;> simp

/-- The table of names of a struct, entry by entry: the qualified name, or what
`remove_prefix` leaves of it. -/
theorem SETUP_names_table (isLeafValue : Bool) (globalPrefix : fixed_string)
    (parent : Option parent_view) (typeName : fixed_string) (underlying : Option int_type)
    (entries : List Entry) (specialisations : List Specialisation) (S : InnerOuterAll)
    (clean : Bool)
    (hname : NulFree (create_name parent globalPrefix typeName))
    (hentries : ∀ e ∈ entries, NulFree e.name)
    (hdef : EntriesDefined (SETUP.struct isLeafValue globalPrefix parent typeName underlying
      entries specialisations)) :
    enum_names (SETUP.struct isLeafValue globalPrefix parent typeName underlying entries specialisations)
        S clean =
      some (subsequence (classification (SETUP.struct isLeafValue globalPrefix parent typeName underlying
        entries specialisations) S)
        (entries.map fun e =>
          if clean then (remove_scope (qualified (SETUP.struct isLeafValue globalPrefix parent typeName
            underlying entries specialisations) e)).getD []
          else qualified (SETUP.struct isLeafValue globalPrefix parent typeName underlying entries
            specialisations) e)) := by
  have hvals : ∀ v ∈ entries.map Entry.name, NulFree v := by
    intro v hv
    obtain ⟨e, he, rfl⟩ := List.mem_map.1 hv
    exact hentries e he
  rw [enum_names_eq _ S clean (create_name parent globalPrefix typeName)
    (entries.map Entry.name) (SETUP_lengths _ _ _ _ _ _ _)
    (by rw [SETUP_subtypes_length, List.length_map]) rfl hname hvals hdef]
  congr 2
  apply List.ext_getElem
  · simp
  · intro k h1 h2
    have hk : k < (entries.map Entry.name).length := by simpa using h1
    simp only [List.getElem_map, List.getElem_range]
    rw [get_substring_buffer _ _ k clean hname hvals hk]
    cases clean <;> simp [qualified, SETUP_internalName]

/-- The table of names and ids of a struct, entry by entry. -/
theorem SETUP_names_and_ids_table (isLeafValue : Bool) (globalPrefix : fixed_string)
    (parent : Option parent_view) (typeName : fixed_string) (underlying : Option int_type)
    (entries : List Entry) (specialisations : List Specialisation) (S : InnerOuterAll)
    (clean : Bool)
    (hname : NulFree (create_name parent globalPrefix typeName))
    (hentries : ∀ e ∈ entries, NulFree e.name)
    (hdef : EntriesDefined (SETUP.struct isLeafValue globalPrefix parent typeName underlying
      entries specialisations)) :
    enum_names_and_ids (SETUP.struct isLeafValue globalPrefix parent typeName underlying entries
        specialisations) S clean =
      some (subsequence (classification (SETUP.struct isLeafValue globalPrefix parent typeName underlying
        entries specialisations) S)
        (entries.map fun e =>
          (if clean then (remove_scope (qualified (SETUP.struct isLeafValue globalPrefix parent typeName
            underlying entries specialisations) e)).getD []
          else qualified (SETUP.struct isLeafValue globalPrefix parent typeName underlying entries
            specialisations) e, e.id))) := by
  have hl := SETUP_lengths isLeafValue globalPrefix parent typeName underlying entries
    specialisations
  have hs := SETUP_subtypes_length isLeafValue globalPrefix parent typeName underlying entries
    specialisations
  have hvals : ∀ v ∈ entries.map Entry.name, NulFree v := by
    intro v hv
    obtain ⟨e, he, rfl⟩ := List.mem_map.1 hv
    exact hentries e he
  unfold enum_names_and_ids
  rw [enum_count_eq _ S hl hdef]
  have hlen := subsequence_length (classification (SETUP.struct isLeafValue globalPrefix parent
    typeName underlying entries specialisations) S)
    (entries.map fun e =>
      (if clean then (remove_scope (qualified (SETUP.struct isLeafValue globalPrefix parent typeName
        underlying entries specialisations) e)).getD []
      else qualified (SETUP.struct isLeafValue globalPrefix parent typeName underlying entries
        specialisations) e, e.id))
    (by rw [classification_length, hs]; simp)
  cases h0 : ((classification (SETUP.struct isLeafValue globalPrefix parent typeName underlying
      entries specialisations) S).filter fun b => b).length with
  | zero =>
    rw [h0] at hlen
    rw [List.length_eq_zero.1 hlen]
  | succ n =>
    simp only []
    rw [get_needed_values_eq _ S hl hdef]
    rw [copy_needed_eq _ _
      (entries.map fun e => (qualified (SETUP.struct isLeafValue globalPrefix parent typeName
        underlying entries specialisations) e, e.id))]
    rotate_left
    · rw [classification_length, hs, List.length_map]
    · intro k hk
      have hk2 : k < entries.length := by simpa using hk
      have hk3 : k < (entries.map Entry.name).length := by simpa using hk2
      rw [SETUP_enumNames, get_substring_buffer _ _ k false hname hvals hk3, SETUP_enumIds]
      simp [List.getElem?_map, List.getElem?_eq_getElem hk2, qualified, SETUP_internalName]
    have hclean : ∀ q ∈ subsequence (classification (SETUP.struct isLeafValue globalPrefix parent
        typeName underlying entries specialisations) S)
        (entries.map fun e => (qualified (SETUP.struct isLeafValue globalPrefix parent typeName
          underlying entries specialisations) e, e.id)),
        remove_scope q.1 = some ((remove_scope q.1).getD []) := by
      intro q hq
      obtain ⟨e, _, rfl⟩ := List.mem_map.1 (mem_subsequence _ _ _ hq)
      obtain ⟨r, hr⟩ := remove_scope_qualified (create_name parent globalPrefix typeName) e.name
      simp only [qualified, SETUP_internalName, hr, Option.getD_some]
    simp only [stringsAndIdsClean_eq (fun s => (remove_scope s).getD []) _ hclean]
    cases clean
    · simp
    · simp [← subsequence_map, Function.comp_def]

/-! ## Names and ids paired (C34) -/

/-- C34: for every node declared with names without `NUL` of which no entry is left forward
declared, every selection `S` and both
values of `clean`, `enum_names<S>(clean)`, `enum_ids<S>()` and `enum_names_and_ids<S>(clean)`
have results, the first two of the same length, and the third is their pairing position by
position: element `i` is `(enum_names<S>(clean)[i], enum_ids<S>()[i])`; the clean strings
of `stringsAndIdsClean` are those of `get_substring`. -/
theorem C34_names_and_ids_pairing (E : NestedEnum) (isLeafValue : Bool)
    (globalPrefix : fixed_string) (parent : Option parent_view) (typeName : fixed_string)
    (underlying : Option int_type) (entries : List Entry)
    (specialisations : List Specialisation) (S : InnerOuterAll) (clean : Bool)
    (hE : SETUP isLeafValue globalPrefix parent typeName underlying entries specialisations =
      some E)
    (hdef : EntriesDefined E)
    (hname : NulFree (create_name parent globalPrefix typeName))
    (hentries : ∀ e ∈ entries, NulFree e.name) :
    ∃ names ids, enum_names E S clean = some names ∧ enum_ids E S = some ids ∧
      names.length = ids.length ∧ enum_count E S = some names.length ∧
      enum_names_and_ids E S clean = some (names.zip ids) ∧
      ∀ (i : Nat) (name : fixed_string) (id : Option fixed_string),
        names[i]? = some name → ids[i]? = some id → (names.zip ids)[i]? = some (name, id) := by
  obtain rfl := SETUP_some _ _ _ _ _ _ _ _ hE
  have hl := SETUP_lengths isLeafValue globalPrefix parent typeName underlying entries
    specialisations
  have hs := SETUP_subtypes_length isLeafValue globalPrefix parent typeName underlying entries
    specialisations
  have hi : (SETUP.struct isLeafValue globalPrefix parent typeName underlying entries
      specialisations).enumIds = entries.map Entry.id := by
    rw [SETUP_enumIds]
  refine ⟨_, _, SETUP_names_table _ _ _ _ _ _ _ S clean hname hentries hdef,
    enum_ids_eq _ S hl (by rw [hi, hs, List.length_map]) (Or.inr hdef), ?_, ?_, ?_, ?_⟩
  · rw [subsequence_length _ _ (by rw [classification_length, hs, List.length_map]),
      subsequence_length _ _ (by rw [classification_length, hs, hi, List.length_map])]
  · rw [subsequence_length _ _ (by rw [classification_length, hs, List.length_map]),
      enum_count_eq _ S hl hdef]
  · rw [SETUP_names_and_ids_table _ _ _ _ _ _ _ S clean hname hentries hdef, hi, ← subsequence_zip,
      List.zip_map']
  · intro i name id h1 h2
    exact List.getElem?_zip_eq_some.2 ⟨h1, h2⟩

/-- Witness of C34: the names and ids of `Twins` under `All`. -/
theorem C34_names_and_ids_pairing_witness :
    EntriesDefined Twins ∧ ∃ names ids, enum_names Twins .All false = some names ∧ enum_ids Twins .All = some ids ∧
      enum_names_and_ids Twins .All false = some (names.zip ids) ∧
      names.zip ids = [("Twins::A".data, some "a".data), ("Twins::B".data, some "b".data)] := by
  obtain ⟨names, ids, h1, h2, _, _, h3, _⟩ := C34_names_and_ids_pairing Twins false [] none
    "Twins".data none
    [{ name := "A".data, val := some 1, id := some "a".data },
     { name := "B".data, val := some 1, id := some "b".data }] [] .All false rfl (by decide)
    (by decide) (by decide)
  refine ⟨by decide, names, ids, h1, h2, h3, ?_⟩
  have h4 : enum_names_and_ids Twins .All false =
      some [("Twins::A".data, some "a".data), ("Twins::B".data, some "b".data)] := by decide
  rw [h3] at h4
  exact Option.some.inj h4

/-! ## The members that unwrap a lookup (C35) -/

/-- C35: for every node declared with names without `NUL` of which no entry is left forward
declared and every instance whose held
value is the ordinal of some entry, the index that `find_index` returns lies within the
tables of names, of names and ids, and of ids, the local lookups `enum_name(E, clean)` and
`enum_name_and_id(E, clean)` are present, and the members `enum_name(clean)` and
`enum_name_and_id(clean)` return what they hold: `value()` is never called on an empty
optional. -/
theorem C35_members_unwrap (E : NestedEnum) (isLeafValue : Bool)
    (globalPrefix : fixed_string) (parent : Option parent_view) (typeName : fixed_string)
    (underlying : Option int_type) (entries : List Entry)
    (specialisations : List Specialisation) (v : Int) (clean : Bool)
    (hE : SETUP isLeafValue globalPrefix parent typeName underlying entries specialisations =
      some E)
    (hdef : EntriesDefined E)
    (hname : NulFree (create_name parent globalPrefix typeName))
    (hentries : ∀ e ∈ entries, NulFree e.name) (hv : v ∈ E.enumValues) :
    ∃ (index : Nat) (names : List fixed_string)
      (namesAndIds : List (fixed_string × Option fixed_string)) (name : fixed_string)
      (nameAndId : fixed_string × Option fixed_string),
      find_index E.enumValues v = some index ∧
      enum_names E .All clean = some names ∧
      enum_names_and_ids E .All clean = some namesAndIds ∧
      index < names.length ∧ index < namesAndIds.length ∧ index < E.enumIds.length ∧
      names[index]? = some name ∧ namesAndIds[index]? = some nameAndId ∧
      enum_name E v clean = some (some name) ∧
      enum_name_and_id E v clean = some (some nameAndId) ∧
      member.enum_name E v clean = some name ∧
      member.enum_name_and_id E v clean = some nameAndId := by
  obtain rfl := SETUP_some _ _ _ _ _ _ _ _ hE
  have hs := SETUP_subtypes_length isLeafValue globalPrefix parent typeName underlying entries
    specialisations
  have hvl := SETUP_enumValues_length isLeafValue globalPrefix parent typeName underlying entries
    specialisations
  have hil : (SETUP.struct isLeafValue globalPrefix parent typeName underlying entries
      specialisations).enumIds.length = entries.length := by
    rw [SETUP_enumIds, List.length_map]
  have hn := SETUP_names_table isLeafValue globalPrefix parent typeName underlying entries
    specialisations .All clean hname hentries hdef
  have hp := SETUP_names_and_ids_table isLeafValue globalPrefix parent typeName underlying
    entries specialisations .All clean hname hentries hdef
  rw [subsequence_classification_All _ _ (by rw [hs, List.length_map])] at hn hp
  obtain ⟨index, hfi⟩ := find_index_exists _ v hv
  have hilt := find_index_lt _ _ _ hfi
  have h1 : index < (entries.map fun e =>
      if clean then (remove_scope (qualified (SETUP.struct isLeafValue globalPrefix parent typeName
        underlying entries specialisations) e)).getD []
      else qualified (SETUP.struct isLeafValue globalPrefix parent typeName underlying entries
        specialisations) e).length := by
    rw [List.length_map]; omega
  have h2 : index < (entries.map fun e =>
      (if clean then (remove_scope (qualified (SETUP.struct isLeafValue globalPrefix parent typeName
        underlying entries specialisations) e)).getD []
      else qualified (SETUP.struct isLeafValue globalPrefix parent typeName underlying entries
        specialisations) e, e.id)).length := by
    rw [List.length_map]; omega
  refine ⟨index, _, _, _, _, hfi, hn, hp, h1, h2, by omega, List.getElem?_eq_getElem h1,
    List.getElem?_eq_getElem h2, ?_, ?_, ?_, ?_⟩
  · simp only [enum_name, hn, hfi, List.getElem?_eq_getElem h1, Option.map_some']
  · simp only [enum_name_and_id, hp, hfi, List.getElem?_eq_getElem h2, Option.map_some']
  · simp only [member.enum_name, enum_name, hn, hfi, List.getElem?_eq_getElem h1,
      Option.map_some']
  · simp only [member.enum_name_and_id, enum_name_and_id, hp, hfi, List.getElem?_eq_getElem h2,
      Option.map_some']

/-- Witness of C35: an instance of `Twins` that holds 1 has the name `Twins::A` and the id
`a`. -/
theorem C35_members_unwrap_witness :
    EntriesDefined Twins ∧ (∃ name nameAndId, member.enum_name Twins 1 false = some name ∧
      member.enum_name_and_id Twins 1 false = some nameAndId) ∧
    member.enum_name Twins 1 false = some "Twins::A".data ∧
    member.enum_name_and_id Twins 1 false = some ("Twins::A".data, some "a".data) := by
  obtain ⟨index, names, namesAndIds, name, nameAndId, _, _, _, _, _, _, _, _, _, _, h1, h2⟩ :=
    C35_members_unwrap Twins false [] none "Twins".data none
      [{ name := "A".data, val := some 1, id := some "a".data },
       { name := "B".data, val := some 1, id := some "b".data }] [] 1 false rfl (by decide)
      (by decide) (by decide) (by decide)
  exact ⟨by decide, ⟨name, nameAndId, h1, h2⟩, by decide, by decide⟩

/-! ## From a name to its value and back (C36) -/

/-- C36: for every node declared with names without `NUL` that differ from one another, of
which no entry is left forward declared, and
every index `i`, with `names` the table `enum_names<All>()`, `enum_value(names[i])` is the
ordinal `v` of entry `i`, and `enum_name` of that value is `names[j]` for the least index
`j` whose ordinal is `v`; it is `names[i]` exactly when no earlier entry has the ordinal of
entry `i`. -/
theorem C36_name_value_name (E : NestedEnum) (isLeafValue : Bool)
    (globalPrefix : fixed_string) (parent : Option parent_view) (typeName : fixed_string)
    (underlying : Option int_type) (entries : List Entry)
    (specialisations : List Specialisation) (i : Nat)
    (hE : SETUP isLeafValue globalPrefix parent typeName underlying entries specialisations =
      some E)
    (hdef : EntriesDefined E)
    (hname : NulFree (create_name parent globalPrefix typeName))
    (hentries : ∀ e ∈ entries, NulFree e.name)
    (hdistinct : (entries.map Entry.name).Nodup) (hi : i < entries.length) :
    ∃ (names : List fixed_string) (name : fixed_string) (v : Int) (j : Nat)
      (first : fixed_string),
      enum_names E .All false = some names ∧ names[i]? = some name ∧
      E.enumValues[i]? = some v ∧ enum_value E name = some (some v) ∧
      E.enumValues[j]? = some v ∧ (∀ k : Nat, k < j → E.enumValues[k]? ≠ some v) ∧ j ≤ i ∧
      names[j]? = some first ∧ enum_name E v false = some (some first) ∧
      (first = name ↔ ∀ k : Nat, k < i → E.enumValues[k]? ≠ some v) := by
  obtain rfl := SETUP_some _ _ _ _ _ _ _ _ hE
  have hnames := SETUP_enum_names_All_false isLeafValue globalPrefix parent typeName underlying
    entries specialisations hname hentries hdef
  have hvl := SETUP_enumValues_length isLeafValue globalPrefix parent typeName underlying entries
    specialisations
  have hnd : ((entries.map Entry.name).map fun v =>
      create_name parent globalPrefix typeName ++ scopeResolution ++ v).Nodup :=
    hdistinct.map (fun a b hab => List.append_cancel_left hab)
  have hin : i < ((entries.map Entry.name).map fun v =>
      create_name parent globalPrefix typeName ++ scopeResolution ++ v).length := by
    simp; omega
  have hiv : i < (SETUP.struct isLeafValue globalPrefix parent typeName underlying entries
      specialisations).enumValues.length := by omega
  obtain ⟨j, hfj⟩ := find_index_exists _ _ (List.getElem_mem hiv)
  have hj := (find_index_eq_some _ _ j).1 hfj
  have hjlt := find_index_lt _ _ _ hfj
  have hji : j ≤ i := by
    by_contra hlt
    exact hj.2 i (by omega) (List.getElem?_eq_getElem hiv)
  have hjn : j < ((entries.map Entry.name).map fun v =>
      create_name parent globalPrefix typeName ++ scopeResolution ++ v).length := by
    simp; omega
  refine ⟨_, _, _, j, _, hnames, List.getElem?_eq_getElem hin, List.getElem?_eq_getElem hiv,
    ?_, hj.1, hj.2, hji, List.getElem?_eq_getElem hjn, ?_, ?_⟩
  · simp only [enum_value, hnames, find_index_of_nodup _ i hin hnd,
      List.getElem?_eq_getElem hiv, Option.map_some']
  · simp only [enum_name, hnames, hfj, List.getElem?_eq_getElem hjn, Option.map_some']
  · rw [List.Nodup.getElem_inj_iff hnd]
    constructor
    · intro h
      rw [h] at hj
      exact hj.2
    · intro h
      by_contra hne
      exact h j (by omega) hj.1

/-- Witness of C36: in `Twins`, where `A` and `B` have the ordinal 1, the name `Twins::B`
has the value 1, whose name is `Twins::A`. -/
theorem C36_name_value_name_witness :
    EntriesDefined Twins ∧ (∃ name v first, Twins.enumValues[1]? = some v ∧ enum_value Twins name = some (some v) ∧
      enum_name Twins v false = some (some first)) ∧
    enum_value Twins "Twins::B".data = some (some 1) ∧
    enum_name Twins 1 false = some (some "Twins::A".data) := by
  obtain ⟨names, name, v, j, first, _, _, h1, h2, _, _, _, _, h3, _⟩ :=
    C36_name_value_name Twins false [] none "Twins".data none
      [{ name := "A".data, val := some 1, id := some "a".data },
       { name := "B".data, val := some 1, id := some "b".data }] [] 1 rfl (by decide)
      (by decide) (by decide) (by decide) (by decide)
  exact ⟨by decide, ⟨name, v, first, h1, h2, h3⟩, by decide, by decide⟩

/-! ## The size of the recursive aggregates (C32) -/

/-- C32 (failing input): in `Branch{A{B{D}, C}}` the recursive count under `Outer` is 2, the
entries `C` of `Branch::A` and `D` of `Branch::A::B`, and the flattened aggregates
`enum_names_recursive<Outer, true, clean>()` and `enum_ids_recursive<Outer, true>()` have no
result, so no number of elements: the tuple of the one queried subtype `A` is not
flattened, its two arrays stay at different depths (the aggregate of ids that is not
flattened shows them), and `tuple_of_arrays_to_array` does not take it. Under `Inner`, where
the root has an entry of its own, the aggregates have the 2 elements that the recursive
count counts. -/
theorem C32_size_of_one_branch :
    enum_count_recursive Branch .Outer = some 2 ∧
    enum_names_recursive Branch .Outer true true = none ∧
    enum_ids_recursive Branch .Outer true = none ∧
    enum_ids_recursive Branch .Outer false = some (.tuple [.array [none], .tuple [.array [none]]]) ∧
    enum_count_recursive Branch .Inner = some 2 ∧
    enum_names_recursive Branch .Inner true true = some (.array ["A".data, "B".data]) ∧
    enum_ids_recursive Branch .Inner true = some (.array [none, none]) :=
  ⟨by decide, rfl, rfl, rfl, by decide, rfl, rfl⟩

/-! ## Facts about conversions modulo `2 ^ bits` -/

theorem int_type.wrap_modEq (T : int_type) (x : Int) :
    T.wrap x ≡ x [ZMOD Int.ofNat (2 ^ T.bits)] := by
  unfold int_type.wrap
  by_cases hs : T.isSigned = true
  · rw [if_pos hs]
    have h := (Int.mod_modEq (x + Int.ofNat (2 ^ (T.bits - 1))) (Int.ofNat (2 ^ T.bits))).sub_right
      (Int.ofNat (2 ^ (T.bits - 1)))
    simpa using h
  · rw [if_neg hs]
    exact Int.mod_modEq _ _

theorem int_type.wrap_congr (T : int_type) (x y : Int)
    (h : x ≡ y [ZMOD Int.ofNat (2 ^ T.bits)]) : T.wrap x = T.wrap y := by
  unfold int_type.wrap
  by_cases hs : T.isSigned = true
  · rw [if_pos hs, if_pos hs]
    have h2 : (x + Int.ofNat (2 ^ (T.bits - 1))) % Int.ofNat (2 ^ T.bits) =
        (y + Int.ofNat (2 ^ (T.bits - 1))) % Int.ofNat (2 ^ T.bits) := h.add_right _
    rw [h2]
  · rw [if_neg hs, if_neg hs]
    exact h

theorem int_type.wrap_int64 (T : int_type) (x : Int) :
    T.wrap (int_type.int64_t.wrap x) = T.wrap x := by
  apply int_type.wrap_congr
  have h := int_type.wrap_modEq .int64_t x
  have hd : (Int.ofNat (2 ^ T.bits)) ∣ Int.ofNat (2 ^ int_type.int64_t.bits) := by
    cases T <;> decide
  exact h.of_dvd hd

theorem int_type.wrap_zero (T : int_type) : T.wrap 0 = 0 := by
  cases T <;> decide

/-! ## Facts about `get_int_from_string` of the legacy header -/

theorem findIdx?_pad (p : Char → Bool) (a : Nat) (c : Char) (rest : List Char)
    (hc : p c = true) (hx : p ' ' = false) :
    (List.replicate a ' ' ++ c :: rest).findIdx? p = some a := by
  rw [List.findIdx?_append, List.findIdx?_replicate, List.findIdx?_cons]
  simp [hc, hx]

theorem trim_padded (core : List Char) (a b : Nat) (hne : core ≠ [])
    (hhead : core.head? ≠ some ' ') (hlast : core.getLast? ≠ some ' ') :
    legacy.trim_white_space (List.replicate a ' ' ++ core ++ List.replicate b ' ') = core := by
  obtain ⟨c, rest, hc⟩ := List.exists_cons_of_ne_nil hne
  obtain ⟨l, init, hl⟩ := List.exists_cons_of_ne_nil
    (fun h => hne (List.reverse_eq_nil_iff.1 h) : core.reverse ≠ [])
  have hcs : c ≠ ' ' := by
    intro h
    apply hhead
    rw [hc, h]
    rfl
  have hls : l ≠ ' ' := by
    intro h
    apply hlast
    rw [← List.head?_reverse, hl, h]
    rfl
  have h1 : (List.replicate a ' ' ++ core ++ List.replicate b ' ').findIdx?
      (fun c => c != ' ') = some a := by
    rw [List.append_assoc, hc, List.cons_append]
    exact findIdx?_pad _ a c _ (by simpa using hcs) (by decide)
  have h2 : (List.replicate a ' ' ++ core ++ List.replicate b ' ').reverse.findIdx?
      (fun c => c != ' ') = some b := by
    rw [List.reverse_append, List.reverse_append, List.reverse_replicate,
      List.reverse_replicate, hl, List.cons_append]
    exact findIdx?_pad _ b l _ (by simpa using hls) (by decide)
  unfold legacy.trim_white_space
  rw [h1, h2]
  have hlen : 0 < core.length := List.length_pos.2 hne
  simp only [List.length_append, List.length_replicate]
  rw [List.append_assoc, List.drop_left' (List.length_replicate _ _)]
  have : a + core.length + b - 1 - b - a + 1 = core.length := by omega
  rw [this, List.take_left' rfl]

theorem char_le_toNat (a c : Char) (h : a ≤ c) : a.toNat ≤ c.toNat := by
  have := Char.le_def.1 h
  simpa [Char.toNat, UInt32.le_def, Fin.le_def] using this

theorem getDigit_nonneg (c : Char) : 0 ≤ legacy.getDigit c := by
  unfold legacy.getDigit
  split
  · rename_i h
    have := char_le_toNat _ _ h.1
    omega
  · split
    · rename_i h
      have := char_le_toNat _ _ h.1
      omega
    · split
      · rename_i h
        have := char_le_toNat _ _ h.1
        omega
      · exact le_refl 0

theorem getDigit_digitChar (d : Nat) (hd : d < 10) :
    legacy.getDigit (Nat.digitChar d) = d ∧ Nat.digitChar d ≠ legacy.separator ∧
    Nat.digitChar d ≠ ' ' ∧ Nat.digitChar d ≠ '-' ∧ Nat.digitChar d ≠ ',' ∧
    Nat.digitChar d ≠ '=' := by
  interval_cases d <;> decide

theorem digits_cons (c : Char) (rest : List Char) :
    legacy.digits (c :: rest) =
      if c = legacy.separator then legacy.digits rest
      else (legacy.getDigit c).toNat :: legacy.digits rest := by
  by_cases h : c = legacy.separator <;> simp [legacy.digits, List.filter_cons, h]

theorem digits_append (l1 l2 : List Char) :
    legacy.digits (l1 ++ l2) = legacy.digits l1 ++ legacy.digits l2 := by
  simp [legacy.digits]

/-- The loop of `get_int_from_string` adds to `number` the digits it reads, weighted by
`decimal` and the powers of 10, modulo `2 ^ bits`. -/
theorem get_int_loop_eq (T : int_type) (characters : List Char) (number decimal : Int) :
    T.wrap (legacy.get_int_from_string.loop T characters number decimal) =
      T.wrap (number + decimal * ((Nat.ofDigits 10 (legacy.digits characters) : Nat) : Int)) := by
  induction characters generalizing number decimal with
  | nil => simp [legacy.get_int_from_string.loop, legacy.digits, Nat.ofDigits]
  | cons c rest ih =>
    rw [legacy.get_int_from_string.loop, digits_cons]
    by_cases hc : c = legacy.separator
    · rw [if_pos hc, if_pos hc, ih]
    · rw [if_neg hc, if_neg hc, ih, Nat.ofDigits_cons]
      apply int_type.wrap_congr
      have h1 := int_type.wrap_modEq T (number + legacy.getDigit c * decimal)
      have h2 := int_type.wrap_modEq T (decimal * 10)
      have h3 := h1.add (h2.mul_right (((Nat.ofDigits 10 (legacy.digits rest) : Nat) : Int)))
      have hg : (((legacy.getDigit c).toNat : Nat) : Int) = legacy.getDigit c :=
        Int.toNat_of_nonneg (getDigit_nonneg c)
      refine h3.trans ?_
      have : number + legacy.getDigit c * decimal +
          decimal * 10 * ((Nat.ofDigits 10 (legacy.digits rest) : Nat) : Int) =
          number + decimal * (((legacy.getDigit c).toNat +
            10 * Nat.ofDigits 10 (legacy.digits rest) : Nat) : Int) := by
        push_cast
        rw [hg]
        ring
      rw [this]

theorem get_int_loop_wrapped (T : int_type) (characters : List Char) (number decimal : Int)
    (h : T.wrap number = number) :
    T.wrap (legacy.get_int_from_string.loop T characters number decimal) =
      legacy.get_int_from_string.loop T characters number decimal := by
  induction characters generalizing number decimal with
  | nil => simpa [legacy.get_int_from_string.loop] using h
  | cons c rest ih =>
    rw [legacy.get_int_from_string.loop]
    by_cases hc : c = legacy.separator
    · rw [if_pos hc, ih _ _ h]
    · rw [if_neg hc, ih _ _ (int_type.wrap_wrap T _)]

theorem get_int_loop_start (T : int_type) (characters : List Char) :
    legacy.get_int_from_string.loop T characters 0 1 =
      T.wrap (((Nat.ofDigits 10 (legacy.digits characters) : Nat) : Int)) := by
  rw [← get_int_loop_wrapped T characters 0 1 (int_type.wrap_zero T), get_int_loop_eq]
  simp

theorem digits_decimal (n : Nat) :
    ((Nat.ofDigits 10 (legacy.digits (decimal n).reverse) : Nat) : Int) = n := by
  unfold decimal
  by_cases h0 : n = 0
  · subst h0
    decide
  · rw [if_neg h0, List.map_reverse, List.reverse_reverse]
    have hd : legacy.digits ((Nat.digits 10 n).map Nat.digitChar) = Nat.digits 10 n := by
      have hlt : ∀ d ∈ Nat.digits 10 n, d < 10 := fun d hd =>
        Nat.digits_lt_base (by norm_num) hd
      generalize Nat.digits 10 n = ds at hlt
      induction ds with
      | nil => rfl
      | cons d ds ih =>
        have hdc := getDigit_digitChar d (hlt d (by simp))
        rw [List.map_cons, digits_cons, if_neg hdc.2.1, hdc.1,
          ih (fun x hx => hlt x (by simp [hx]))]
        simp
    rw [hd, Nat.ofDigits_digits]

theorem decimal_ne_nil (n : Nat) : decimal n ≠ [] := by
  unfold decimal
  by_cases h0 : n = 0
  · simp [h0]
  · rw [if_neg h0]
    simpa using Nat.digits_ne_nil_iff_ne_zero.2 h0

theorem mem_decimal (n : Nat) (c : Char) (h : c ∈ decimal n) :
    ∃ d, d < 10 ∧ c = Nat.digitChar d := by
  unfold decimal at h
  by_cases h0 : n = 0
  · rw [if_pos h0] at h
    exact ⟨0, by norm_num, by simpa using h⟩
  · rw [if_neg h0] at h
    simp only [List.mem_map, List.mem_reverse] at h
    obtain ⟨d, hd, rfl⟩ := h
    exact ⟨d, Nat.digits_lt_base (by norm_num) hd, rfl⟩

theorem digits_filter (characters : List Char) :
    legacy.digits (characters.filter fun c => c ≠ legacy.separator) =
      legacy.digits characters := by
  simp [legacy.digits, List.filter_filter]

theorem digits_reverse_of_filter (body text : List Char)
    (h : (body.filter fun c => c ≠ legacy.separator) = text) :
    legacy.digits body.reverse = legacy.digits text.reverse := by
  rw [← digits_filter body.reverse, ← h, List.filter_reverse]

theorem body_characters (body : List Char) (V : Nat)
    (h : (body.filter fun c => c ≠ legacy.separator) = decimal V) :
    body ≠ [] ∧ ∀ c ∈ body, c ≠ ' ' ∧ c ≠ '-' ∧ c ≠ ',' ∧ c ≠ '=' := by
  constructor
  · intro hb
    rw [hb] at h
    exact decimal_ne_nil V h.symm
  · intro c hc
    by_cases hs : c = legacy.separator
    · rw [hs]
      decide
    · have hm : c ∈ decimal V := by
        rw [← h]
        exact List.mem_filter.2 ⟨hc, by simpa using hs⟩
      obtain ⟨d, hd, rfl⟩ := mem_decimal V c hm
      have := getDigit_digitChar d hd
      exact ⟨this.2.2.1, this.2.2.2.1, this.2.2.2.2⟩

theorem head?_ne_of_forall (l : List Char) (x : Char) (h : ∀ c ∈ l, c ≠ x) :
    l.head? ≠ some x := by
  cases l with
  | nil => simp
  | cons a l =>
    intro ha
    exact h a (by simp) (by simpa using ha)

theorem getLast?_ne_of_forall (l : List Char) (x : Char) (h : ∀ c ∈ l, c ≠ x) :
    l.getLast? ≠ some x := by
  intro hl
  exact h x (List.mem_of_getLast?_eq_some hl) rfl

theorem get_int_of_body (T : int_type) (negative : Bool) (body : List Char) (V before after : Nat)
    (h : (body.filter fun c => c ≠ legacy.separator) = decimal V) :
    legacy.get_int_from_string (legacy.padded negative body before after) T =
      T.wrap (if negative then -(V : Int) else V) := by
  obtain ⟨hne, hch⟩ := body_characters body V h
  have hcore : legacy.trim_white_space (legacy.padded negative body before after) =
      (if negative then ['-'] else []) ++ body := by
    unfold legacy.padded
    rw [List.append_assoc (List.replicate before ' '), ]
    apply trim_padded
    · simp [hne]
    · cases negative
      · simpa using head?_ne_of_forall body ' ' fun c hc => (hch c hc).1
      · simp
    · rw [List.getLast?_append_of_ne_nil _ hne]
      exact getLast?_ne_of_forall body ' ' fun c hc => (hch c hc).1
  have hloop : legacy.get_int_from_string.loop T body.reverse 0 1 = T.wrap V := by
    rw [get_int_loop_start, digits_reverse_of_filter body _ h, digits_decimal]
  unfold legacy.get_int_from_string
  simp only [hcore]
  cases negative
  · have hh : body.head? ≠ some '-' := head?_ne_of_forall body '-' fun c hc => (hch c hc).2.1
    simp only [Bool.false_eq_true, if_false, List.nil_append, if_neg hh, hloop]
  · simp only [if_true, List.singleton_append, List.head?_cons, List.drop_succ_cons, List.drop_zero,
      hloop]
    apply int_type.wrap_congr
    exact (int_type.wrap_modEq T V).neg

/-- C37: `get_int_from_string` of the legacy header reads the decimal text of an
integer `n` - `-` first when `n` is negative, any number of spaces around it, digit
separators among the digits - as `n` modulo `2 ^ bits`, and as `n` itself when `n` is a
value of the result type; so for the default `int64_t`, modulo `2 ^ 64`. -/
theorem C37_get_int_from_string (T : int_type) (n : Int) (body : List Char) (before after : Nat)
    (hbody : (body.filter fun c => c ≠ legacy.separator) = decimal n.natAbs) :
    legacy.get_int_from_string (legacy.padded (decide (n < 0)) body before after) T = T.wrap n ∧
    (T.InRange n →
      legacy.get_int_from_string (legacy.padded (decide (n < 0)) body before after) T = n) ∧
    (T = .int64_t →
      legacy.get_int_from_string (legacy.padded (decide (n < 0)) body before after) =
        (n + 2 ^ 63) % 2 ^ 64 - 2 ^ 63) := by
  have h := get_int_of_body T (decide (n < 0)) body n.natAbs before after hbody
  have hn : (if decide (n < 0) = true then -(n.natAbs : Int) else n.natAbs) = n := by
    by_cases h0 : n < 0
    · simp only [h0, decide_True, if_true]
      omega
    · simp only [h0, decide_False, Bool.false_eq_true, if_false]
      omega
  rw [hn] at h
  refine ⟨h, fun hr => h.trans (T.wrap_of_inRange n hr), fun hT => ?_⟩
  subst hT
  rw [h]
  simp [int_type.wrap, int_type.isSigned, int_type.bits]

/-- Witness of C37: the text `  -12'345   ` is read as -12345 in `std::int32_t`. -/
theorem C37_get_int_from_string_witness :
    legacy.padded (decide ((-12345 : Int) < 0)) "12'345".data 2 3 = "  -12'345   ".data ∧
    ("12'345".data.filter fun c => c ≠ legacy.separator) = decimal (-12345 : Int).natAbs ∧
    int_type.int32_t.InRange (-12345) ∧
    legacy.get_int_from_string (legacy.padded (decide ((-12345 : Int) < 0)) "12'345".data 2 3)
      .int32_t = -12345 :=
  ⟨by decide, by simp [decimal]; decide, by decide,
    (C37_get_int_from_string .int32_t (-12345) "12'345".data 2 3
      (by simp [decimal]; decide)).2.1 (by decide)⟩

/-! ## Facts about the legacy `get_array_of_values` -/

theorem findIdx?_of_not_mem (p : Char → Bool) (l : List Char) (h : ∀ c ∈ l, p c = false) :
    l.findIdx? p = none :=
  List.findIdx?_eq_none_iff.2 h

theorem findIdx?_first (p : Char → Bool) (l : List Char) (x : Char) (rest : List Char)
    (h : ∀ c ∈ l, p c = false) (hx : p x = true) :
    (l ++ x :: rest).findIdx? p = some l.length := by
  rw [List.findIdx?_append, findIdx?_of_not_mem p l h, List.findIdx?_cons]
  simp [hx]

theorem ofDigits_digits_zero (l : List Char) (h : ∀ c ∈ l, legacy.getDigit c = 0) :
    Nat.ofDigits 10 (legacy.digits l) = 0 := by
  induction l with
  | nil => rfl
  | cons c l ih =>
    rw [digits_cons]
    by_cases hc : c = legacy.separator
    · rw [if_pos hc]
      exact ih fun x hx => h x (by simp [hx])
    · rw [if_neg hc, Nat.ofDigits_cons, ih fun x hx => h x (by simp [hx]), h c (by simp)]
      rfl

/-- The text from `=` on of an item `Name = V` is read as `V` modulo `2 ^ 64`: the `=` and
the blanks count as leading zeros. -/
theorem get_int_of_override (blanks V after : Nat) (literal : List Char)
    (h : (literal.filter fun c => c ≠ legacy.separator) = decimal V) :
    legacy.get_int_from_string
        ('=' :: (List.replicate blanks ' ' ++ literal ++ List.replicate after ' ')) =
      int_type.int64_t.wrap V := by
  obtain ⟨hne, hch⟩ := body_characters literal V h
  have hcore : legacy.trim_white_space
      ('=' :: (List.replicate blanks ' ' ++ literal ++ List.replicate after ' ')) =
      '=' :: (List.replicate blanks ' ' ++ literal) := by
    have h := trim_padded ('=' :: (List.replicate blanks ' ' ++ literal)) 0 after (by simp)
      (by simp) (by
        rw [← List.singleton_append, ← List.append_assoc, List.getLast?_append_of_ne_nil _ hne]
        exact getLast?_ne_of_forall _ ' ' fun c hc => (hch c hc).1)
    simpa using h
  have hdigits : Nat.ofDigits 10 (legacy.digits
      ('=' :: (List.replicate blanks ' ' ++ literal)).reverse) = V := by
    have h0 : Nat.ofDigits 10 (legacy.digits ((List.replicate blanks ' ').reverse ++ ['='])) = 0 := by
      apply ofDigits_digits_zero
      intro c hc
      simp only [List.reverse_replicate, List.mem_append, List.mem_replicate,
        List.mem_singleton] at hc
      rcases hc with ⟨_, rfl⟩ | rfl <;> decide
    have hV := digits_decimal V
    rw [List.reverse_cons, List.reverse_append, List.append_assoc, digits_append,
      Nat.ofDigits_append, h0, digits_reverse_of_filter literal _ h]
    exact_mod_cast hV
  unfold legacy.get_int_from_string
  simp only [hcore]
  have hh : ('=' :: (List.replicate blanks ' ' ++ literal)).head? ≠ some '-' := by
    simp
  rw [if_neg hh, if_neg hh, get_int_loop_start, hdigits]

theorem Item_opt_eq (T : int_type) (item : legacy.Item) :
    legacy.Item.opt T item =
      match item.override with
      | none => { isInitialised := false, value := T.wrap 0 }
      | some o => { isInitialised := true, value := T.wrap o.V } := by
  unfold legacy.Item.opt GET_VAL legacy.Item.entry
  cases item.override with
  | none => rfl
  | some o => rfl

theorem text_characters (item : legacy.Item) (h : item.WellFormed) :
    item.text ≠ [] ∧ ∀ c ∈ item.text, (c == ',') = false := by
  obtain ⟨hne, hcomma, _, hlit⟩ := h
  unfold legacy.Item.text
  cases ho : item.override with
  | none =>
    refine ⟨hne, fun c hc => ?_⟩
    simp only [beq_eq_false_iff_ne]
    rintro rfl
    exact hcomma hc
  | some o =>
    have hch := (body_characters o.literal o.V (hlit o (by simp [ho]))).2
    refine ⟨by simp, fun c hc => ?_⟩
    simp only [beq_eq_false_iff_ne]
    rintro rfl
    simp only [List.mem_append, List.mem_cons, List.mem_replicate] at hc
    rcases hc with hc | hc | (⟨_, hc⟩ | hc) | ⟨_, hc⟩
    · exact hcomma hc
    · exact absurd hc (by decide)
    · exact absurd hc (by decide)
    · exact (hch _ hc).2.2.1 rfl
    · exact absurd hc (by decide)

/-- The value that a round of the legacy loop reads from an item: none without `=`, the
override of the new header with it. -/
theorem override_cases (T : int_type) (item : legacy.Item) (h : item.WellFormed) :
    ((item.text.findIdx? fun c => c == '=') = none ∧
      (legacy.Item.opt T item).isInitialised = false) ∨
    ∃ equalsIndex, (item.text.findIdx? fun c => c == '=') = some equalsIndex ∧
      T.wrap (legacy.get_int_from_string (item.text.drop equalsIndex)) =
        (legacy.Item.opt T item).value ∧
      (legacy.Item.opt T item).isInitialised = true := by
  obtain ⟨_, _, heq, hlit⟩ := h
  have hleft : ∀ x ∈ item.left, (x == '=') = false := by
    intro x hx
    simp only [beq_eq_false_iff_ne]
    rintro rfl
    exact heq hx
  rw [Item_opt_eq]
  unfold legacy.Item.text
  cases ho : item.override with
  | none => exact Or.inl ⟨findIdx?_of_not_mem _ item.left hleft, rfl⟩
  | some o =>
    refine Or.inr ⟨item.left.length, findIdx?_first _ item.left '=' _ hleft (by decide), ?_, rfl⟩
    simp only [List.drop_left, get_int_of_override _ _ _ _ (hlit o (by simp [ho])),
      int_type.wrap_int64]

theorem stringify_cons_cons (item next : legacy.Item) (items : List legacy.Item) :
    legacy.stringify (item :: next :: items) =
      item.text ++ ',' :: legacy.stringify (next :: items) := rfl

theorem stringify_ne_nil (items : List legacy.Item) (hne : items ≠ [])
    (hwf : ∀ item ∈ items, item.WellFormed) : legacy.stringify items ≠ [] := by
  match items, hne with
  | [item], _ => exact (text_characters item (hwf item (by simp))).1
  | item :: next :: items, _ =>
    rw [stringify_cons_cons]
    simp

theorem stringify_length (items : List legacy.Item) :
    items.length ≤ (legacy.stringify items).length + 1 := by
  induction items with
  | nil => simp
  | cons item items ih =>
    cases items with
    | nil => simp
    | cons next items =>
      rw [stringify_cons_cons]
      simp only [List.length_append, List.length_cons] at ih ⊢
      omega

theorem stringify_count (items : List legacy.Item) (hwf : ∀ item ∈ items, item.WellFormed) :
    (legacy.stringify items).count ',' + 1 = items.length ∨ items = [] := by
  induction items with
  | nil => exact Or.inr rfl
  | cons item items ih =>
    left
    have h0 : item.text.count ',' = 0 := by
      rw [List.count_eq_zero]
      intro hm
      simpa using (text_characters item (hwf item (by simp))).2 _ hm
    cases items with
    | nil => simpa [legacy.stringify] using h0
    | cons next items =>
      rcases ih (fun x hx => hwf x (by simp [hx])) with ih | ih
      · rw [stringify_cons_cons, List.count_append, List.count_cons, h0]
        simp only [List.length_cons] at ih ⊢
        simp only [beq_self_eq_true, if_true]
        omega
      · exact absurd ih (by simp)

theorem set_eq_append (arr : List Int) (i : Nat) (v : Int) (h : i < arr.length) :
    arr.set i v = arr.take i ++ v :: arr.drop (i + 1) := by
  rw [List.set_eq_take_append_cons_drop, if_pos h]

theorem table_step (arr : List Int) (i k : Nat) (v : Int) (table : List Int)
    (h : i < arr.length) :
    (arr.set i v).take (i + 1) ++ table ++ (arr.set i v).drop (i + 1 + k) =
      arr.take i ++ v :: table ++ arr.drop (i + (k + 1)) := by
  rw [List.drop_set_of_lt _ _ (by omega), set_eq_append _ _ _ h,
    List.take_append_eq_append_take]
  have hl : (arr.take i).length = i := by
    rw [List.length_take]
    omega
  have hk : i + 1 + k = i + (k + 1) := by omega
  simp [hl, hk]

theorem new_loop_cons (T : int_type) (c : Int) (o : opt) (values : List opt) :
    get_array_of_values.loop T c (o :: values) =
      if T.isSigned ∧ T.maxVal ≤ (if o.isInitialised then o.value else c) then none
      else
        (get_array_of_values.loop T (T.wrap ((if o.isInitialised then o.value else c) + 1))
          values).map fun enumValues => (if o.isInitialised then o.value else c) :: enumValues := by
  rw [get_array_of_values.loop]
  generalize (if o.isInitialised = true then o.value else c) = p
  cases get_array_of_values.loop T (T.wrap (p + 1)) values <;> rfl

/-- The legacy loop over the stringified items writes, from the index `i` on, the table
that the loop of the new header makes of the overrides of the items, and has no result
where that loop has none. -/
theorem legacy_loop_eq (T : int_type) (items : List legacy.Item) (hne : items ≠ [])
    (hwf : ∀ item ∈ items, item.WellFormed) (fuel : Nat) (c : Int) (i : Nat) (arr : List Int)
    (hfuel : items.length ≤ fuel) (hi : i + items.length ≤ arr.length) :
    legacy.get_array_of_values.loop T fuel (legacy.stringify items) c i arr =
      (get_array_of_values.loop T c (items.map (legacy.Item.opt T))).map fun table =>
        arr.take i ++ table ++ arr.drop (i + items.length) := by
  induction items generalizing fuel c i arr with
  | nil => exact absurd rfl hne
  | cons item items ih =>
    obtain ⟨fuel, rfl⟩ : ∃ f, fuel = f + 1 := ⟨fuel - 1, by
      simp only [List.length_cons] at hfuel; omega⟩
    have hitem := hwf item (by simp)
    have htext := text_characters item hitem
    have hlt : i < arr.length := by
      simp only [List.length_cons] at hi; omega
    rw [legacy.get_array_of_values.loop, List.map_cons, new_loop_cons]
    cases items with
    | nil =>
      have hv : legacy.stringify [item] = item.text := rfl
      rw [hv]
      have hemp : item.text.isEmpty = false := by
        simpa [List.isEmpty_iff] using htext.1
      have hstep := fun v => table_step arr i 0 v [] hlt
      simp only [List.append_nil, List.take_append_drop] at hstep
      rcases override_cases T item hitem with ⟨hfind, hinit⟩ | ⟨e, hfind, hval, hinit⟩
      · simp only [hemp, Bool.false_eq_true, if_false, findIdx?_of_not_mem _ item.text htext.2,
          hfind, if_pos hlt, hinit]
        by_cases hov : T.isSigned = true ∧ T.maxVal ≤ c
        · rw [if_pos hov, if_pos hov]
          rfl
        · rw [if_neg hov, if_neg hov]
          simp only [List.map_nil, get_array_of_values.loop, Option.map_some', hstep]
          simp
      · simp only [hemp, Bool.false_eq_true, if_false, findIdx?_of_not_mem _ item.text htext.2,
          hfind, if_pos hlt, hinit, hval, if_true]
        by_cases hov : T.isSigned = true ∧ T.maxVal ≤ (legacy.Item.opt T item).value
        · rw [if_pos hov, if_pos hov]
          rfl
        · rw [if_neg hov, if_neg hov]
          simp only [List.map_nil, get_array_of_values.loop, Option.map_some', hstep]
          simp
    | cons next items =>
      rw [stringify_cons_cons]
      have hemp : (item.text ++ ',' :: legacy.stringify (next :: items)).isEmpty = false := by
        simp [List.isEmpty_iff]
      have hd : (item.text ++ ',' :: legacy.stringify (next :: items)).drop
          (item.text.length + 1) = legacy.stringify (next :: items) := by
        rw [List.drop_append_eq_append_drop]
        simp
      have hstep := fun v table => table_step arr i (next :: items).length v table hlt
      have hrec := fun v => ih (by simp) (fun x hx => hwf x (by simp [hx])) fuel
        (T.wrap (v + 1)) (i + 1) (arr.set i v)
        (by simp only [List.length_cons] at hfuel ⊢; omega)
        (by simp only [List.length_cons, List.length_set] at hi ⊢; omega)
      rcases override_cases T item hitem with ⟨hfind, hinit⟩ | ⟨e, hfind, hval, hinit⟩
      · simp only [hemp, Bool.false_eq_true, if_false,
          findIdx?_first _ item.text ',' _ htext.2 (by decide), List.take_left,
          hfind, if_pos hlt, hinit, hd]
        by_cases hov : T.isSigned = true ∧ T.maxVal ≤ c
        · rw [if_pos hov, if_pos hov]
          rfl
        · rw [if_neg hov, if_neg hov, hrec]
          cases get_array_of_values.loop T (T.wrap (c + 1))
              ((next :: items).map (legacy.Item.opt T)) with
          | none => rfl
          | some table =>
            simp only [Option.map_some', hstep]
            rfl
      · simp only [hemp, Bool.false_eq_true, if_false,
          findIdx?_first _ item.text ',' _ htext.2 (by decide), List.take_left,
          hfind, if_pos hlt, hinit, hval, if_true, hd]
        by_cases hov : T.isSigned = true ∧ T.maxVal ≤ (legacy.Item.opt T item).value
        · rw [if_pos hov, if_pos hov]
          rfl
        · rw [if_neg hov, if_neg hov, hrec]
          cases get_array_of_values.loop T (T.wrap ((legacy.Item.opt T item).value + 1))
              ((next :: items).map (legacy.Item.opt T)) with
          | none => rfl
          | some table =>
            simp only [Option.map_some', hstep]
            rfl

/-- The legacy `get_array_of_values` on the stringified items is the `get_array_of_values`
of the new header on the overrides of the items. -/
theorem legacy_table_eq (T : int_type) (items : List legacy.Item)
    (hwf : ∀ item ∈ items, item.WellFormed)
    (hfirst : (legacy.stringify items).head? ≠ some ' ')
    (hlast : (legacy.stringify items).getLast? ≠ some ' ') :
    legacy.get_array_of_values (legacy.stringify items) T =
      get_array_of_values T (items.map (legacy.Item.opt T)) := by
  by_cases hne : items = []
  · subst hne
    rfl
  · have hs := stringify_ne_nil items hne hwf
    have htrim : legacy.trim_white_space (legacy.stringify items) = legacy.stringify items := by
      simpa using trim_padded (legacy.stringify items) 0 0 hs hfirst hlast
    have hcount := (stringify_count items hwf).resolve_right hne
    have hemp : (legacy.stringify items).isEmpty = false := by
      simpa [List.isEmpty_iff] using hs
    unfold legacy.get_array_of_values
    simp only [htrim, hemp, Bool.false_eq_true, if_false, hcount]
    have hlen : items.length ≠ 0 := by
      simpa using hne
    rw [if_pos hlen, legacy_loop_eq T items hne hwf _ 0 0 _ (stringify_length items)
      (by simp), get_array_of_values]
    cases get_array_of_values.loop T 0 (items.map (legacy.Item.opt T)) with
    | none => rfl
    | some table => simp

/-! ## Facts about the enumerators and the macro of the legacy header -/

theorem DEFINE_ENUM_cons (T : int_type) (e : Entry) (entries : List Entry)
    (previous : Option Int) :
    DEFINE_ENUM T previous (e :: entries) =
      if T.InRange (e.val.getD (previous.elim 0 (· + 1))) then
        (DEFINE_ENUM T (some (e.val.getD (previous.elim 0 (· + 1)))) entries).map fun values =>
          e.val.getD (previous.elim 0 (· + 1)) :: values
      else none := by
  obtain ⟨name, val, id⟩ := e
  cases val <;> cases previous <;>
    · simp only [DEFINE_ENUM, Option.getD, Option.elim]
      split
      · cases DEFINE_ENUM T _ entries <;> rfl
      · rfl

/-- The values of the enumerators that the compiler accepts are the ordinals that the loop
of `get_array_of_values` makes of the overrides. -/
theorem DEFINE_ENUM_eq_some (T : int_type) (entries : List Entry) (previous : Option Int)
    (table : List Int) (h : DEFINE_ENUM T previous entries = some table) :
    table = get_array_of_values.ordinals T (T.wrap (previous.elim 0 (· + 1)))
      (entries.map (GET_VAL T)) := by
  induction entries generalizing previous table with
  | nil =>
    simp only [DEFINE_ENUM, Option.some.injEq] at h
    rw [← h]
    rfl
  | cons e entries ih =>
    rw [DEFINE_ENUM_cons] at h
    by_cases hr : T.InRange (e.val.getD (previous.elim 0 (· + 1)))
    · rw [if_pos hr] at h
      cases hrec : DEFINE_ENUM T (some (e.val.getD (previous.elim 0 (· + 1)))) entries with
      | none => simp [hrec] at h
      | some values =>
        simp only [hrec, Option.map_some', Option.some.injEq] at h
        have hvalues : values = get_array_of_values.ordinals T
            (T.wrap (e.val.getD (previous.elim 0 (· + 1)) + 1)) (entries.map (GET_VAL T)) :=
          ih _ _ hrec
        have hhead : (if (GET_VAL T e).isInitialised = true then (GET_VAL T e).value
            else T.wrap (previous.elim 0 (· + 1))) = e.val.getD (previous.elim 0 (· + 1)) := by
          unfold GET_VAL
          cases hv : e.val with
          | none =>
            simp only [Bool.false_eq_true, if_false, Option.getD_none]
            rw [hv] at hr
            exact T.wrap_of_inRange _ hr
          | some v =>
            simp only [if_true, Option.getD_some]
            rw [hv] at hr
            exact T.wrap_of_inRange _ hr
        rw [← h, List.map_cons, get_array_of_values.ordinals]
        simp only [hhead]
        rw [← hvalues]
    · rw [if_neg hr] at h
      cases h

/-- The enumerators of a list of plain names are numbered from 0. -/
theorem DEFINE_ENUM_no_override (T : int_type) (entries : List Entry) (previous : Option Int)
    (table : List Int) (hno : ∀ e ∈ entries, e.val = none)
    (h : DEFINE_ENUM T previous entries = some table) :
    table = (List.range entries.length).map fun k : Nat =>
      previous.elim 0 (· + 1) + (k : Int) := by
  induction entries generalizing previous table with
  | nil =>
    simp only [DEFINE_ENUM, Option.some.injEq] at h
    rw [← h]
    rfl
  | cons e entries ih =>
    rw [DEFINE_ENUM_cons, hno e (by simp), Option.getD_none] at h
    by_cases hr : T.InRange (previous.elim 0 (· + 1))
    · rw [if_pos hr] at h
      cases hrec : DEFINE_ENUM T (some (previous.elim 0 (· + 1))) entries with
      | none => simp [hrec] at h
      | some values =>
        simp only [hrec, Option.map_some', Option.some.injEq] at h
        have hvalues : values = (List.range entries.length).map fun k : Nat =>
            (previous.elim 0 (· + 1) + 1) + (k : Int) :=
          ih _ _ (fun e2 he2 => hno e2 (by simp [he2])) hrec
        rw [← h, hvalues, List.length_cons, List.range_succ_eq_map, List.map_cons, List.map_map]
        simp only [Nat.cast_zero, add_zero, List.cons.injEq, true_and]
        apply List.map_congr_left
        intro k _
        simp only [Function.comp_apply, Nat.cast_succ]
        omega
    · rw [if_neg hr] at h
      cases h

theorem DECLARE_STRUCT_all_names (items : List legacy.Item)
    (h : ∀ item ∈ items, item.override = none) :
    ∃ typeNames, legacy.DECLARE_STRUCT.all items = some typeNames := by
  induction items with
  | nil => exact ⟨[], rfl⟩
  | cons item items ih =>
    obtain ⟨typeNames, hrec⟩ := ih fun x hx => h x (by simp [hx])
    refine ⟨legacy.trim_white_space item.left :: typeNames, ?_⟩
    rw [legacy.DECLARE_STRUCT.all, hrec, legacy.DECLARE_STRUCT, h item (by simp)]

theorem DECLARE_STRUCT_all_override (items : List legacy.Item)
    (h : ∃ item ∈ items, item.override ≠ none) :
    legacy.DECLARE_STRUCT.all items = none := by
  induction items with
  | nil => simp at h
  | cons item items ih =>
    rw [legacy.DECLARE_STRUCT.all]
    cases ho : item.override with
    | some o => simp [legacy.DECLARE_STRUCT, ho]
    | none =>
      have hrest : ∃ x ∈ items, x.override ≠ none := by
        obtain ⟨x, hx, hxo⟩ := h
        rcases List.mem_cons.1 hx with rfl | hx
        · exact absurd ho hxo
        · exact ⟨x, hx, hxo⟩
      rw [ih hrest]
      simp [legacy.DECLARE_STRUCT, ho]

theorem decimal_length_bound (V : Nat) : V < 10 ^ (decimal V).length := by
  unfold decimal
  by_cases h0 : V = 0
  · subst h0
    decide
  · rw [if_neg h0, List.length_map, List.length_reverse]
    exact Nat.lt_base_pow_length_digits (by norm_num)

/-- The text from `=` on of a short override `Name = V` is read as `V` itself. -/
theorem get_int_of_short (item : legacy.Item) (o : legacy.Override)
    (hwf : item.WellFormed) (hshort : item.Short) (ho : item.override = some o) :
    legacy.get_int_from_string (item.text.drop item.left.length) = (o.V : Int) := by
  have hlit := hwf.2.2.2 o (by simp [ho])
  have hlen := hshort o (by simp [ho])
  rw [hlit] at hlen
  have hV := decimal_length_bound o.V
  have hpow : 10 ^ (decimal o.V).length ≤ 10 ^ 17 :=
    Nat.pow_le_pow_right (by norm_num) (by omega)
  have hV2 : o.V < 10 ^ 17 := Nat.lt_of_lt_of_le hV hpow
  unfold legacy.Item.text
  simp only [ho, List.drop_left]
  rw [get_int_of_override _ _ _ _ hlit]
  apply int_type.wrap_of_inRange
  constructor
  · have : int_type.int64_t.minVal ≤ 0 := by decide
    omega
  · have : (10 : Int) ^ 17 ≤ int_type.int64_t.maxVal := by decide
    have h3 : (o.V : Int) < 10 ^ 17 := by exact_mod_cast hV2
    omega

/-! ## The legacy ordinals (C30) -/

end nested_enum
